import Mathlib

/-!
Verification model of the incremental history engine of the canva-vue
repository (`src/stores/history.ts`).

The engine stores elements of type `AnyElement`.  The history code treats an
element as an opaque JS object with a stable `id` property plus further named
fields, compared and copied exclusively through `JSON.stringify` /
`JSON.parse`.  We model a JS property value as `Option Nat` (`none` is the JS
value `undefined`, which `JSON.stringify` omits; `some n` is an opaque defined
value with an injective serialization), and an element as its `id` (possibly
`undefined`) plus its remaining properties in JS property-insertion order.

Each `JSON.parse(JSON.stringify(x))` deep copy in the source is modelled by
`normColl` / `normElem`, which drops `undefined`-valued properties, exactly as
the JSON round trip does.  `JSON.stringify` equality of elements is then
structural equality of the normalized elements.
-/

namespace CanvaHist

/-- A JS property value as seen by the history engine: `none` models the
JavaScript value `undefined`, `some n` models a defined opaque value. -/
abbrev Val := Option Nat

/-- An element: a stable key (`id`, possibly the JS value `undefined`,
modelled by `none`) together with its remaining named properties in JS
property-insertion order.  A JS object cannot hold two properties with the
same name, and its `id` property is the modelled `id` slot; `ElemWF` states
exactly this representability condition. -/
structure Elem where
  id : Option String
  fields : List (String × Val)
deriving DecidableEq, Repr

/-- First-occurrence association lookup on a property list (JS objects have
unique keys, so on representable elements this is the unique occurrence). -/
def lookupField : List (String × Val) → String → Option Val
  | [], _ => none
  | (k, v) :: rest, f => if k = f then some v else lookupField rest f

/-- Reading property `f` of an element in JS: an absent key and a key present
with value `undefined` both read as `undefined` (`none`). -/
def readF (e : Elem) (f : String) : Val :=
  match lookupField e.fields f with
  | some v => v
  | none => none

/-- The keys of a property list. -/
def keysOf (fs : List (String × Val)) : List String := fs.map Prod.fst

/-- JSON round trip of an element: `JSON.parse(JSON.stringify(e))` drops the
properties whose value is `undefined` and keeps the rest in order. -/
def normElem (e : Elem) : Elem := ⟨e.id, e.fields.filter (fun p => p.2.isSome)⟩

/-- JSON round trip of a collection (element order is kept). -/
def normColl (c : List Elem) : List Elem := c.map normElem

/-- Representability of an element as a JS object: property names are unique
and the `id` property is not duplicated among the other fields. -/
def ElemWF (e : Elem) : Prop := (keysOf e.fields).Nodup ∧ "id" ∉ keysOf e.fields

/-- Representability of a collection: every element is representable. -/
def CollWF (c : List Elem) : Prop := ∀ e ∈ c, ElemWF e

instance : DecidablePred ElemWF := fun e =>
  inferInstanceAs (Decidable ((keysOf e.fields).Nodup ∧ "id" ∉ keysOf e.fields))

instance (c : List Elem) : Decidable (CollWF c) :=
  inferInstanceAs (Decidable (∀ e ∈ c, ElemWF e))

/-- JS property write: overwrite the (first) occurrence of the key in place,
or append the new property at the end of insertion order. -/
def setField : List (String × Val) → String → Val → List (String × Val)
  | [], k, v => [(k, v)]
  | (k', v') :: rest, k, v =>
    if k' = k then (k, v) :: rest else (k', v') :: setField rest k v

/-- `Object.assign` on the property lists: write every property of `ps` onto
`fs` in order. -/
def assignFields (fs ps : List (String × Val)) : List (String × Val) :=
  ps.foldl (fun acc p => setField acc p.1 p.2) fs

/-- `Object.assign(element, partial)` where the partial record always carries
an `id` property (as the partials built by `extractChangedFields` do). -/
def assignElem (e p : Elem) : Elem := ⟨p.id, assignFields e.fields p.fields⟩

/-- Accumulator pass of `dedupKeys`: drop the keys already seen, keep the
first occurrence of each new key. -/
def dedupKeysGo (seen : List String) : List String → List String
  | [] => []
  | k :: rest =>
    if k ∈ seen then dedupKeysGo seen rest else k :: dedupKeysGo (k :: seen) rest

/-- Key deduplication keeping first occurrences (JS `Set` insertion order). -/
def dedupKeys (l : List String) : List String := dedupKeysGo [] l

/-- `new Set([...Object.keys(obj), ...Object.keys(reference)])`: keys of `obj`
first, then the new keys of `reference`. -/
def keysUnion (obj ref : Elem) : List String :=
  dedupKeys (keysOf obj.fields ++ keysOf ref.fields)

/-- Port of `extractChangedFields(obj, reference)`: a partial record holding
`id` plus, for every non-id key whose serialized value differs between the two
elements, the `obj`-side value of that key. -/
def extractChangedFields (obj ref : Elem) : Elem :=
  ⟨obj.id, (keysUnion obj ref).filterMap (fun k =>
    if k ≠ "id" ∧ readF obj k ≠ readF ref k then some (k, readF obj k) else none)⟩

/-- Last element of the collection carrying the given id (the value a JS `Map`
built from `[e.id, e]` pairs associates to that id). -/
def lookupLast : List Elem → Option String → Option Elem
  | [], _ => none
  | e :: rest, k =>
    match lookupLast rest k with
    | some x => some x
    | none => if e.id = k then some e else none

/-- One entry of a diff record change map. -/
structure Change where
  before : Option Elem
  after : Option Elem
deriving DecidableEq, Repr

/-- A history log entry: an incremental diff record or a full snapshot
record (tagged by the `isSnapshot` marker in the source). -/
inductive HistoryRecord where
  | diff (changes : List (Option String × Change)) (changedIds : List (Option String))
      (desc : String) (timestamp : Nat)
  | snap (snapshot : List Elem) (changedIds : List (Option String))
      (desc : String) (timestamp : Nat)
deriving DecidableEq, Repr

/-- Port of the `isSnapshot` type guard. -/
def isSnapshot : HistoryRecord → Bool
  | .snap .. => true
  | .diff .. => false

def HistoryRecord.changedIds : HistoryRecord → List (Option String)
  | .diff _ ids _ _ => ids
  | .snap _ ids _ _ => ids

def HistoryRecord.desc : HistoryRecord → String
  | .diff _ _ d _ => d
  | .snap _ _ d _ => d

/-- First-occurrence lookup in an association list (JS `Map.get`; the maps
built below never hold a key twice). -/
def assocGet [DecidableEq κ] : List (κ × α) → κ → Option α
  | [], _ => none
  | (k', v) :: m, k => if k' = k then some v else assocGet m k

/-- JS `Map.set`: overwrite the value in place if the key is present (keeping
its insertion position), else append the binding at the end. -/
def assocSet [DecidableEq κ] : List (κ × α) → κ → α → List (κ × α)
  | [], k, v => [(k, v)]
  | (k', v') :: m, k, v =>
    if k' = k then (k, v) :: m else (k', v') :: assocSet m k v

/-- JS `Map.delete`: remove the binding of the key. -/
def assocDelete [DecidableEq κ] (m : List (κ × α)) (k : κ) : List (κ × α) :=
  m.filter (fun p => p.1 ≠ k)

/-- One step of the first pass of `generateDiffRecord`: compare one `before`
element against the `after` collection, recording a wholesale deletion or a
field-level modification. -/
def diffStep1 (after : List Elem)
    (acc : List (Option String × Change) × List (Option String)) (el : Elem) :
    List (Option String × Change) × List (Option String) :=
  match lookupLast after el.id with
  | none => (assocSet acc.1 el.id ⟨some el, none⟩, acc.2 ++ [el.id])
  | some aEl =>
    if normElem el ≠ normElem aEl then
      (assocSet acc.1 el.id
        ⟨some (extractChangedFields el aEl), some (extractChangedFields aEl el)⟩,
       acc.2 ++ [el.id])
    else acc

/-- One step of the second pass of `generateDiffRecord`: record the `after`
elements whose id does not occur in `before` as wholesale additions. -/
def diffStep2 (before : List Elem)
    (acc : List (Option String × Change) × List (Option String)) (el : Elem) :
    List (Option String × Change) × List (Option String) :=
  if lookupLast before el.id = none then
    (assocSet acc.1 el.id ⟨none, some el⟩, acc.2 ++ [el.id])
  else acc

/-- The change map and changed-id list built by `generateDiffRecord`. -/
def diffPasses (before after : List Elem) :
    List (Option String × Change) × List (Option String) :=
  after.foldl (diffStep2 before) (before.foldl (diffStep1 after) ([], []))

/-- Port of `generateDiffRecord(before, after)`; the operation description and
timestamp are ambient in the source (call-stack inspection and `Date.now()`)
and are passed as parameters here. -/
def generateDiffRecord (before after : List Elem) (d : String) (t : Nat) : HistoryRecord :=
  .diff (diffPasses before after).1 (diffPasses before after).2 d t

/-- Processing one change-map entry inside `applyDiffRecord`. -/
def applyChange (m : List (Option String × Elem)) (kc : Option String × Change) :
    List (Option String × Elem) :=
  match kc.2.before, kc.2.after with
  | none, some a => assocSet m kc.1 a
  | some _, none => assocDelete m kc.1
  | some _, some a =>
    match assocGet m kc.1 with
    | some e => assocSet m kc.1 (assignElem e a)
    | none => m
  | none, none => m

/-- `new Map(c.map(e => [e.id, e]))`: later occurrences of an id overwrite the
value but keep the first insertion position. -/
def buildMap (c : List Elem) : List (Option String × Elem) :=
  c.foldl (fun m e => assocSet m e.id e) []

/-- Port of `applyDiffRecord(snapshot, diff)`: deep-copy the base, index it by
id, process each change in map order, and return the values in map order. -/
def applyDiffRecord (snapshot : List Elem) (changes : List (Option String × Change)) :
    List Elem :=
  (changes.foldl applyChange (buildMap (normColl snapshot))).map Prod.snd

/-- Replay a slice of the log onto a base collection: diff records are
applied, snapshot records are skipped (the replay loops of
`rebuildFullSnapshot` and `compressHistory`). -/
def applyRecs (base : List Elem) (recs : List HistoryRecord) : List Elem :=
  recs.foldl (fun acc r => match r with
    | .snap .. => acc
    | .diff ch _ _ _ => applyDiffRecord acc ch) base

/-- Is there a snapshot record exactly at index `i`?  If so, return its index
and a deep copy of its content. -/
def checkSnapAt (stack : List HistoryRecord) (i : Nat) : Option (Nat × List Elem) :=
  match stack[i]? with
  | some (.snap content _ _ _) => some (i, normColl content)
  | _ => none

/-- Backward scan from index `i` for the nearest snapshot record. -/
def lastSnapAt (stack : List HistoryRecord) : Nat → Option (Nat × List Elem)
  | 0 => checkSnapAt stack 0
  | i + 1 =>
    match checkSnapAt stack (i + 1) with
    | some r => some r
    | none => lastSnapAt stack i

/-- Materialize the collection at stack index `i ≥ 0`: nearest snapshot at or
below `i`, then replay the records strictly between it and `i`. -/
def matAt (stack : List HistoryRecord) (i : Nat) : List Elem :=
  match lastSnapAt stack i with
  | none => []
  | some (j, c) => applyRecs c ((stack.take (i + 1)).drop (j + 1))

/-- The store state (`HistoryState` in the source).  `index` is the cursor
(`-1` means no state yet), `fullSnapshot` the memoized current collection. -/
structure HistoryState where
  stack : List HistoryRecord
  index : Int
  fullSnapshot : Option (List Elem)
  maxSize : Nat
  compressThreshold : Nat
  batchDepth : Nat
  pendingRecord : Option HistoryRecord
deriving DecidableEq, Repr

/-- The initial store state (`state()` in the source). -/
def initState : HistoryState := ⟨[], -1, none, 200, 100, 0, none⟩

/-- Port of `rebuildFullSnapshot()`. -/
def rebuildFullSnapshot (s : HistoryState) : List Elem :=
  if s.index < 0 then [] else matAt s.stack s.index.toNat

/-- The snapshot-search step of `compressHistory`: the base collection to
replay from and the first merge index (the loop over `[removeCount-1 .. 0]`
followed by the explicit `stack[0]` fallback in the source). -/
def compressSeed (s : HistoryState) (removeCount : Nat) : List Elem × Nat :=
  match (if removeCount = 0 then none else lastSnapAt s.stack (removeCount - 1)) with
  | some (j, c) => (c, j + 1)
  | none =>
    match s.stack.head? with
    | some (.snap content _ _ _) => (normColl content, 1)
    | _ => ([], 0)

/-- The content of the merged snapshot record built by `compressHistory`. -/
def compressBase (s : HistoryState) (removeCount : Nat) : List Elem :=
  applyRecs (compressSeed s removeCount).1
    ((s.stack.take removeCount).drop (compressSeed s removeCount).2)

/-- Port of `compressHistory()`: merge the first `removeCount` records into a
single snapshot record and shift the cursor.  `Math.ceil(maxSize * 0.5)` is
`(maxSize + 1) / 2` on naturals. -/
def compressHistory (s : HistoryState) (t : Nat) : HistoryState :=
  if s.stack.length < s.compressThreshold then s
  else
    { s with
      stack := HistoryRecord.snap
          (compressBase s (s.stack.length - (s.maxSize + 1) / 2))
          ((compressBase s (s.stack.length - (s.maxSize + 1) / 2)).map (·.id))
          "compressed" t
        :: s.stack.drop (s.stack.length - (s.maxSize + 1) / 2),
      index := s.index - (((s.stack.length - (s.maxSize + 1) / 2 : Nat) : Int) - 1) }

/-- Truncate any redo entries past the cursor, then append a record and
advance the cursor (shared tail of `pushSnapshot` and `endBatch`). -/
def truncAppend (s : HistoryState) (r : HistoryRecord) : HistoryState :=
  let stack1 :=
    if s.index < (s.stack.length : Int) - 1 then s.stack.take (s.index + 1).toNat
    else s.stack
  { s with stack := stack1 ++ [r], index := s.index + 1 }

/-- Tail of `pushSnapshot` once the record is built: stash it while a batch is
open, otherwise append it, refresh the cache, and compress on overflow. -/
def pushRecord (s : HistoryState) (r : HistoryRecord) (newFull : List Elem) (t : Nat) :
    HistoryState :=
  if 0 < s.batchDepth then { s with pendingRecord := some r }
  else if s.compressThreshold < (truncAppend s r).stack.length then
    compressHistory { truncAppend s r with fullSnapshot := some newFull } t
  else { truncAppend s r with fullSnapshot := some newFull }

/-- Port of `pushSnapshot(snapshot)`.  The very first entry is stored as a
full snapshot record; later entries are diffed against the cached collection
(`before` in the source, the rebuild when no cache is present), with a
JSON-equality no-op check. -/
def pushSnapshot (s : HistoryState) (c : List Elem) (d : String) (t : Nat) : HistoryState :=
  if s.index < 0 then
    pushRecord s (.snap (normColl c) (c.map (·.id)) d t) (normColl c) t
  else if normColl (s.fullSnapshot.getD (rebuildFullSnapshot s)) = normColl c then s
  else
    pushRecord s
      (generateDiffRecord (s.fullSnapshot.getD (rebuildFullSnapshot s)) (normColl c) d t)
      (normColl c) t

/-- Port of `beginBatch()`. -/
def beginBatch (s : HistoryState) : HistoryState :=
  { s with pendingRecord := (if s.batchDepth = 0 then none else s.pendingRecord),
           batchDepth := s.batchDepth + 1 }

/-- The cache value the outermost `endBatch` installs after committing a
pending record: the content of a snapshot record, or the reconstruction at
the new cursor for a diff record. -/
def endBatchFull (s0 : HistoryState) (r : HistoryRecord) : List Elem :=
  match r with
  | .snap content _ _ _ => normColl content
  | .diff .. => rebuildFullSnapshot (truncAppend s0 r)

/-- The state the outermost `endBatch` builds when committing a pending
record: truncate and append like a push, clear the pending slot, and rebuild
the cache from the committed record. -/
def endBatchState (s0 : HistoryState) (r : HistoryRecord) : HistoryState :=
  { truncAppend s0 r with
    pendingRecord := none,
    fullSnapshot := some (endBatchFull s0 r) }

/-- Port of `endBatch()`: the outermost end commits the pending record like a
push would, rebuilding the cache from the appended record. -/
def endBatch (s : HistoryState) (t : Nat) : HistoryState :=
  if s.batchDepth = 0 then s
  else if s.batchDepth - 1 = 0 then
    match s.pendingRecord with
    | some r =>
      if (endBatchState { s with batchDepth := s.batchDepth - 1 } r).compressThreshold
          < (endBatchState { s with batchDepth := s.batchDepth - 1 } r).stack.length then
        compressHistory (endBatchState { s with batchDepth := s.batchDepth - 1 } r) t
      else endBatchState { s with batchDepth := s.batchDepth - 1 } r
    | none => { s with batchDepth := s.batchDepth - 1 }
  else { s with batchDepth := s.batchDepth - 1 }

/-- The value undo and redo hand back to the caller. -/
structure RestoreResult where
  snapshot : List Elem
  changedIds : List (Option String)
  desc : String
deriving DecidableEq, Repr

/-- JS indexing `stack[i]` with a possibly negative index. -/
def stackGet (stack : List HistoryRecord) (i : Int) : Option HistoryRecord :=
  if i < 0 then none else stack[i.toNat]?

/-- Port of `undo()`: returns the updated state together with the value the
source returns (`null` modelled as `none`). -/
def undo (s : HistoryState) : HistoryState × Option RestoreResult :=
  if s.index ≤ 0 then (s, none)
  else
    let s1 := { s with index := s.index - 1 }
    let snap := rebuildFullSnapshot s1
    let s2 := { s1 with fullSnapshot := some snap }
    match stackGet s.stack s.index with
    | none => (s2, none)
    | some r => (s2, some ⟨normColl snap, r.changedIds, r.desc⟩)

/-- Port of `redo()`. -/
def redo (s : HistoryState) : HistoryState × Option RestoreResult :=
  if (s.stack.length : Int) - 1 ≤ s.index then (s, none)
  else
    let s1 := { s with index := s.index + 1 }
    let snap := rebuildFullSnapshot s1
    let s2 := { s1 with fullSnapshot := some snap }
    match stackGet s.stack s1.index with
    | none => (s2, none)
    | some r => (s2, some ⟨normColl snap, r.changedIds, r.desc⟩)

/-- Port of `getCurrent()`. -/
def getCurrent (s : HistoryState) : Option (List Elem) :=
  if s.index < 0 then none
  else match s.fullSnapshot with
    | some fs => some (normColl fs)
    | none => some (rebuildFullSnapshot s)

/-- Port of `clear()` (note: `batchDepth` is not reset by the source). -/
def clearHistory (s : HistoryState) : HistoryState :=
  { s with stack := [], index := -1, fullSnapshot := none, pendingRecord := none }

/-- States reachable through the exported store actions, starting from the
initial state.  Pushed collections are restricted to JS-representable ones. -/
inductive Reachable : HistoryState → Prop where
  | init : Reachable initState
  | push (s : HistoryState) (c : List Elem) (d : String) (t : Nat)
      (hwf : CollWF c) (h : Reachable s) : Reachable (pushSnapshot s c d t)
  | stepUndo (s : HistoryState) (h : Reachable s) : Reachable (undo s).1
  | stepRedo (s : HistoryState) (h : Reachable s) : Reachable (redo s).1
  | stepBegin (s : HistoryState) (h : Reachable s) : Reachable (beginBatch s)
  | stepEnd (s : HistoryState) (t : Nat) (h : Reachable s) : Reachable (endBatch s t)
  | stepClear (s : HistoryState) (h : Reachable s) : Reachable (clearHistory s)

/-- Relating two optional values pointwise. -/
def optRel (r : α → α → Prop) : Option α → Option α → Prop
  | some a, some b => r a b
  | none, none => True
  | _, _ => False

/-- Two elements carry the same id and the same observable property reads
(property order and `undefined`-valued properties are not observable through
`readF`). -/
def elemEquiv (e1 e2 : Elem) : Prop :=
  e1.id = e2.id ∧ ∀ f, readF e1 f = readF e2 f

/-- Two collections denote the same id-keyed contents: for every id, the
element a JS `Map` would associate to it (last occurrence wins) is
`elemEquiv`-equal on both sides. -/
def collEquiv (c1 c2 : List Elem) : Prop :=
  ∀ k, optRel elemEquiv (lookupLast c1 k) (lookupLast c2 k)

/-! ### Lemmas about fields, reads and normalization -/

theorem lookupField_eq_none (fs : List (String × Val)) (f : String)
    (h : f ∉ keysOf fs) : lookupField fs f = none := by
  induction fs with
  | nil => rfl
  | cons p rest ih =>
    obtain ⟨k, v⟩ := p
    simp only [keysOf, List.map_cons, List.mem_cons, not_or] at h
    have hkf : ¬ (k = f) := fun hk => h.1 hk.symm
    simp only [lookupField, if_neg hkf, ih h.2]

theorem lookupField_isSome_of_mem (fs : List (String × Val)) (f : String)
    (h : f ∈ keysOf fs) : ∃ v, lookupField fs f = some v := by
  induction fs with
  | nil => simp [keysOf] at h
  | cons p rest ih =>
    obtain ⟨k, v⟩ := p
    by_cases hk : k = f
    · exact ⟨v, by simp [lookupField, hk]⟩
    · simp only [keysOf, List.map_cons, List.mem_cons] at h
      rcases h with h | h
      · exact absurd h.symm hk
      · obtain ⟨w, hw⟩ := ih h
        exact ⟨w, by simp [lookupField, hk, hw]⟩

theorem readF_eq_none_of_not_mem (e : Elem) (f : String)
    (h : f ∉ keysOf e.fields) : readF e f = none := by
  simp [readF, lookupField_eq_none _ _ h]

theorem normElem_id (e : Elem) : (normElem e).id = e.id := rfl

theorem lookupField_filter_isSome (fs : List (String × Val)) (f : String)
    (hnd : (keysOf fs).Nodup) :
    lookupField (fs.filter (fun p => p.2.isSome)) f =
      match lookupField fs f with
      | some (some v) => some (some v)
      | _ => none := by
  induction fs with
  | nil => rfl
  | cons p rest ih =>
    obtain ⟨k, v⟩ := p
    simp only [keysOf, List.map_cons, List.nodup_cons] at hnd
    by_cases hk : k = f
    · subst hk
      cases v with
      | none =>
        simp only [List.filter_cons, Option.isSome_none, Bool.false_eq_true, if_false]
        rw [ih hnd.2]
        have : lookupField rest k = none :=
          lookupField_eq_none _ _ (by simpa [keysOf] using hnd.1)
        simp [lookupField, this]
      | some n =>
        simp [List.filter_cons, lookupField]
    · cases v with
      | none =>
        simp only [List.filter_cons, Option.isSome_none, Bool.false_eq_true, if_false]
        rw [ih hnd.2]
        simp [lookupField, hk]
      | some n =>
        simp only [List.filter_cons, Option.isSome_some, if_true]
        simp only [lookupField, if_neg hk]
        exact ih hnd.2

theorem readF_normElem (e : Elem) (hnd : (keysOf e.fields).Nodup) (f : String) :
    readF (normElem e) f = readF e f := by
  simp only [readF, normElem]
  rw [lookupField_filter_isSome _ _ hnd]
  cases h : lookupField e.fields f with
  | none => simp
  | some v => cases v <;> simp

theorem normElem_idem (e : Elem) : normElem (normElem e) = normElem e := by
  simp [normElem, List.filter_filter]

theorem normColl_idem (c : List Elem) : normColl (normColl c) = normColl c := by
  simp [normColl, normElem_idem]

theorem keysOf_filter_sublist (fs : List (String × Val)) (p : String × Val → Bool) :
    (keysOf (fs.filter p)).Sublist (keysOf fs) :=
  List.Sublist.map Prod.fst (List.filter_sublist fs)

theorem ElemWF_normElem (e : Elem) (h : ElemWF e) : ElemWF (normElem e) := by
  constructor
  · exact (keysOf_filter_sublist e.fields _).nodup h.1
  · exact fun hm => h.2 ((keysOf_filter_sublist e.fields _).mem hm)

theorem CollWF_normColl (c : List Elem) (h : CollWF c) : CollWF (normColl c) := by
  intro e he
  simp only [normColl, List.mem_map] at he
  obtain ⟨x, hx, rfl⟩ := he
  exact ElemWF_normElem x (h x hx)

/-! ### Lemmas about `setField` and `assignFields` -/

theorem lookupField_setField (fs : List (String × Val)) (k : String) (v : Val) (f : String) :
    lookupField (setField fs k v) f = if k = f then some v else lookupField fs f := by
  induction fs with
  | nil => simp [setField, lookupField]
  | cons p rest ih =>
    obtain ⟨k', v'⟩ := p
    by_cases hk : k' = k
    · subst hk
      by_cases hf : k' = f <;> simp [setField, lookupField, hf]
    · simp only [setField, if_neg hk]
      by_cases hf : k' = f
      · subst hf
        have : ¬ k = k' := fun h => hk h.symm
        simp [lookupField, this]
      · simp [lookupField, hf, ih]

theorem keysOf_setField (fs : List (String × Val)) (k : String) (v : Val) :
    keysOf (setField fs k v) = if k ∈ keysOf fs then keysOf fs else keysOf fs ++ [k] := by
  induction fs with
  | nil => simp [setField, keysOf]
  | cons p rest ih =>
    obtain ⟨k', v'⟩ := p
    by_cases hk : k' = k
    · subst hk
      simp [setField, keysOf]
    · have hk2 : ¬ k = k' := fun h => hk h.symm
      simp only [setField, if_neg hk, keysOf, List.map_cons]
      by_cases hm : k ∈ keysOf rest
      · simp [keysOf] at hm ih ⊢
        simp [hm, hk2] at ih ⊢
        exact ih
      · simp [keysOf] at hm ih ⊢
        simp [hm, hk2] at ih ⊢
        exact ih

theorem nodup_keysOf_setField (fs : List (String × Val)) (k : String) (v : Val)
    (h : (keysOf fs).Nodup) : (keysOf (setField fs k v)).Nodup := by
  rw [keysOf_setField]
  by_cases hm : k ∈ keysOf fs
  · simpa [hm]
  · simp only [hm, if_false]
    simpa [List.nodup_append] using ⟨h, hm⟩

theorem mem_keysOf_setField (fs : List (String × Val)) (k : String) (v : Val) (f : String) :
    f ∈ keysOf (setField fs k v) ↔ f ∈ keysOf fs ∨ f = k := by
  rw [keysOf_setField]
  by_cases hm : k ∈ keysOf fs
  · simp only [hm, if_true]
    constructor
    · exact fun h => Or.inl h
    · rintro (h | rfl)
      · exact h
      · exact hm
  · simp [hm]

theorem lookupField_assignFields (fs ps : List (String × Val))
    (hnd : (keysOf ps).Nodup) (f : String) :
    lookupField (assignFields fs ps) f =
      match lookupField ps f with
      | some v => some v
      | none => lookupField fs f := by
  induction ps generalizing fs with
  | nil => rfl
  | cons p rest ih =>
    obtain ⟨k, v⟩ := p
    simp only [keysOf, List.map_cons, List.nodup_cons] at hnd
    show lookupField (assignFields (setField fs k v) rest) f = _
    rw [ih _ hnd.2]
    by_cases hf : f ∈ keysOf rest
    · obtain ⟨w, hw⟩ := lookupField_isSome_of_mem rest f hf
      have hkf : ¬ k = f := by
        rintro rfl
        exact hnd.1 (by simpa [keysOf] using hf)
      simp [lookupField, hkf, hw]
    · have h : lookupField rest f = none := lookupField_eq_none rest f (by simpa [keysOf] using hf)
      rw [h]
      simp only [lookupField_setField]
      by_cases hkf : k = f <;> simp [lookupField, hkf, h]

theorem readF_assignElem (e p : Elem) (hnd : (keysOf p.fields).Nodup) (f : String) :
    readF (assignElem e p) f =
      match lookupField p.fields f with
      | some v => v
      | none => readF e f := by
  show readF ⟨p.id, assignFields e.fields p.fields⟩ f = _
  simp only [readF]
  rw [lookupField_assignFields _ _ hnd]
  cases lookupField p.fields f <;> simp

theorem keysOf_assignFields_nodup (fs ps : List (String × Val))
    (h : (keysOf fs).Nodup) : (keysOf (assignFields fs ps)).Nodup := by
  induction ps generalizing fs with
  | nil => exact h
  | cons p rest ih => exact ih _ (nodup_keysOf_setField _ _ _ h)

theorem mem_keysOf_assignFields (fs ps : List (String × Val)) (f : String) :
    f ∈ keysOf (assignFields fs ps) ↔ f ∈ keysOf fs ∨ f ∈ keysOf ps := by
  induction ps generalizing fs with
  | nil => simp [assignFields, keysOf]
  | cons p rest ih =>
    obtain ⟨k, v⟩ := p
    show f ∈ keysOf (assignFields (setField fs k v) rest) ↔ _
    rw [ih]
    rw [mem_keysOf_setField]
    simp only [keysOf, List.map_cons, List.mem_cons]
    tauto

theorem ElemWF_assignElem (e p : Elem) (he : ElemWF e)
    (hpid : "id" ∉ keysOf p.fields) : ElemWF (assignElem e p) := by
  constructor
  · exact keysOf_assignFields_nodup _ _ he.1
  · intro hm
    rcases (mem_keysOf_assignFields _ _ _).1 hm with h | h
    · exact he.2 h
    · exact hpid h

/-! ### Lemmas about `dedupKeys`, `keysUnion` and `extractChangedFields` -/

theorem mem_dedupKeysGo (l : List String) :
    ∀ (seen : List String) (k : String),
      k ∈ dedupKeysGo seen l ↔ k ∈ l ∧ k ∉ seen := by
  induction l with
  | nil =>
    intro seen k
    simp [dedupKeysGo]
  | cons x rest ih =>
    intro seen k
    by_cases hx : x ∈ seen
    · rw [show dedupKeysGo seen (x :: rest) = dedupKeysGo seen rest by
        show (if x ∈ seen then dedupKeysGo seen rest
          else x :: dedupKeysGo (x :: seen) rest) = dedupKeysGo seen rest
        rw [if_pos hx]]
      rw [ih seen k]
      constructor
      · rintro ⟨h1, h2⟩
        exact ⟨List.mem_cons_of_mem x h1, h2⟩
      · rintro ⟨h1, h2⟩
        rcases List.mem_cons.1 h1 with h3 | h3
        · subst h3
          exact absurd hx h2
        · exact ⟨h3, h2⟩
    · rw [show dedupKeysGo seen (x :: rest) = x :: dedupKeysGo (x :: seen) rest by
        show (if x ∈ seen then dedupKeysGo seen rest
          else x :: dedupKeysGo (x :: seen) rest) = x :: dedupKeysGo (x :: seen) rest
        rw [if_neg hx]]
      rw [List.mem_cons, ih (x :: seen) k]
      constructor
      · rintro (h1 | ⟨h1, h2⟩)
        · subst h1
          exact ⟨List.mem_cons_self _ _, hx⟩
        · simp only [List.mem_cons, not_or] at h2
          exact ⟨List.mem_cons_of_mem x h1, h2.2⟩
      · rintro ⟨h1, h2⟩
        by_cases hk : k = x
        · exact Or.inl hk
        · rcases List.mem_cons.1 h1 with h3 | h3
          · exact absurd h3 hk
          · refine Or.inr ⟨h3, ?_⟩
            simp only [List.mem_cons, not_or]
            exact ⟨hk, h2⟩

theorem mem_dedupKeys (l : List String) (k : String) : k ∈ dedupKeys l ↔ k ∈ l := by
  unfold dedupKeys
  rw [mem_dedupKeysGo l [] k]
  simp

theorem nodup_dedupKeysGo (l : List String) :
    ∀ seen : List String, (dedupKeysGo seen l).Nodup := by
  induction l with
  | nil =>
    intro seen
    simp [dedupKeysGo]
  | cons x rest ih =>
    intro seen
    by_cases hx : x ∈ seen
    · rw [show dedupKeysGo seen (x :: rest) = dedupKeysGo seen rest by
        show (if x ∈ seen then dedupKeysGo seen rest
          else x :: dedupKeysGo (x :: seen) rest) = dedupKeysGo seen rest
        rw [if_pos hx]]
      exact ih seen
    · rw [show dedupKeysGo seen (x :: rest) = x :: dedupKeysGo (x :: seen) rest by
        show (if x ∈ seen then dedupKeysGo seen rest
          else x :: dedupKeysGo (x :: seen) rest) = x :: dedupKeysGo (x :: seen) rest
        rw [if_neg hx]]
      refine List.nodup_cons.2 ⟨?_, ih (x :: seen)⟩
      rw [mem_dedupKeysGo]
      intro h
      exact h.2 (List.mem_cons_self _ _)

theorem nodup_dedupKeys (l : List String) : (dedupKeys l).Nodup :=
  nodup_dedupKeysGo l []

theorem mem_keysUnion (obj ref : Elem) (f : String) :
    f ∈ keysUnion obj ref ↔ f ∈ keysOf obj.fields ∨ f ∈ keysOf ref.fields := by
  simp [keysUnion, mem_dedupKeys]

theorem lookupField_filterMap_ite (l : List String) (hnd : l.Nodup)
    (P : String → Prop) [DecidablePred P] (g : String → Val) (f : String) :
    lookupField (l.filterMap (fun k => if P k then some (k, g k) else none)) f =
      if f ∈ l ∧ P f then some (g f) else none := by
  induction l with
  | nil => simp [lookupField]
  | cons k0 rest ih =>
    rw [List.nodup_cons] at hnd
    rw [List.filterMap_cons]
    by_cases hp : P k0
    · simp only [if_pos hp]
      by_cases hf : k0 = f
      · subst hf
        simp [lookupField, hp]
      · simp only [lookupField, if_neg hf, ih hnd.2]
        by_cases hfr : f ∈ rest ∧ P f
        · simp only [if_pos hfr]
          rw [if_pos ⟨List.mem_cons_of_mem _ hfr.1, hfr.2⟩]
        · simp only [if_neg hfr]
          rw [if_neg]
          rintro ⟨hm, hP⟩
          rcases List.mem_cons.1 hm with rfl | hm
          · exact hf rfl
          · exact hfr ⟨hm, hP⟩
    · simp only [if_neg hp, ih hnd.2]
      by_cases hf : f = k0
      · subst hf
        rw [if_neg (fun h => hnd.1 h.1), if_neg (fun h => hp h.2)]
      · by_cases hfr : f ∈ rest ∧ P f
        · rw [if_pos hfr, if_pos ⟨List.mem_cons_of_mem _ hfr.1, hfr.2⟩]
        · rw [if_neg hfr, if_neg]
          rintro ⟨hm, hP⟩
          rcases List.mem_cons.1 hm with h | hm
          · exact hf h
          · exact hfr ⟨hm, hP⟩

theorem keysOf_filterMap_ite (l : List String)
    (P : String → Prop) [DecidablePred P] (g : String → Val) :
    keysOf (l.filterMap (fun k => if P k then some (k, g k) else none)) =
      l.filter (fun k => decide (P k)) := by
  induction l with
  | nil => rfl
  | cons k0 rest ih =>
    rw [List.filterMap_cons, List.filter_cons]
    simp only [keysOf] at ih ⊢
    by_cases hp : P k0 <;> simp [hp, ih]

theorem lookupField_extract (obj ref : Elem) (f : String) :
    lookupField (extractChangedFields obj ref).fields f =
      if f ∈ keysUnion obj ref ∧ (f ≠ "id" ∧ readF obj f ≠ readF ref f)
      then some (readF obj f) else none := by
  have := lookupField_filterMap_ite (keysUnion obj ref) (nodup_dedupKeys _)
    (fun k => k ≠ "id" ∧ readF obj k ≠ readF ref k) (fun k => readF obj k) f
  exact this

theorem keysOf_extract (obj ref : Elem) :
    keysOf (extractChangedFields obj ref).fields =
      (keysUnion obj ref).filter
        (fun k => decide (k ≠ "id" ∧ readF obj k ≠ readF ref k)) :=
  keysOf_filterMap_ite _ _ _

theorem nodup_keysOf_extract (obj ref : Elem) :
    (keysOf (extractChangedFields obj ref).fields).Nodup := by
  rw [keysOf_extract]
  exact (nodup_dedupKeys _).filter _

theorem noId_extract (obj ref : Elem) :
    "id" ∉ keysOf (extractChangedFields obj ref).fields := by
  rw [keysOf_extract]
  simp

theorem ElemWF_extract (obj ref : Elem) : ElemWF (extractChangedFields obj ref) :=
  ⟨nodup_keysOf_extract obj ref, noId_extract obj ref⟩

theorem extract_id (obj ref : Elem) : (extractChangedFields obj ref).id = obj.id := rfl

/-- Patching an element `e` with the changed fields extracted from `a`
against `b` produces an element that reads like `a`, provided `e` reads like
`a` wherever `a` and `b` agree (and has no observable id field). -/
theorem readF_assign_extract (e a b : Elem)
    (hida : "id" ∉ keysOf a.fields)
    (hide : readF e "id" = none)
    (he : ∀ f, readF a f = readF b f → readF e f = readF a f) (f : String) :
    readF (assignElem e (extractChangedFields a b)) f = readF a f := by
  rw [readF_assignElem _ _ (nodup_keysOf_extract a b) f, lookupField_extract]
  by_cases hc : f ∈ keysUnion a b ∧ (f ≠ "id" ∧ readF a f ≠ readF b f)
  · simp [hc]
  · rw [if_neg hc]
    show readF e f = readF a f
    by_cases hid : f = "id"
    · subst hid
      rw [hide, readF_eq_none_of_not_mem a _ hida]
    · by_cases hm : f ∈ keysUnion a b
      · by_cases hne : readF a f ≠ readF b f
        · exact absurd ⟨hm, hid, hne⟩ hc
        · exact he f (not_not.1 hne)
      · rw [mem_keysUnion] at hm
        push_neg at hm
        have hab : readF a f = readF b f := by
          rw [readF_eq_none_of_not_mem a _ hm.1, readF_eq_none_of_not_mem b _ hm.2]
        exact he f hab

/-! ### Lemmas about `lookupLast` -/

theorem lookupLast_id (c : List Elem) (k : Option String) (e : Elem)
    (h : lookupLast c k = some e) : e.id = k := by
  induction c with
  | nil => exact absurd h (by simp [lookupLast])
  | cons x rest ih =>
    simp only [lookupLast] at h
    cases hr : lookupLast rest k with
    | some y =>
      rw [hr] at h
      exact ih (hr.trans (by injection h with h2; rw [h2]))
    | none =>
      rw [hr] at h
      by_cases hx : x.id = k
      · rw [if_pos hx] at h
        injection h with h2
        rw [← h2]
        exact hx
      · rw [if_neg hx] at h
        exact absurd h (by simp)

theorem lookupLast_mem (c : List Elem) (k : Option String) (e : Elem)
    (h : lookupLast c k = some e) : e ∈ c := by
  induction c with
  | nil => exact absurd h (by simp [lookupLast])
  | cons x rest ih =>
    simp only [lookupLast] at h
    cases hr : lookupLast rest k with
    | some y =>
      rw [hr] at h
      injection h with h2
      subst h2
      exact List.mem_cons_of_mem _ (ih hr)
    | none =>
      rw [hr] at h
      by_cases hx : x.id = k
      · rw [if_pos hx] at h
        injection h with h2
        subst h2
        exact List.mem_cons_self _ _
      · rw [if_neg hx] at h
        exact absurd h (by simp)

theorem lookupLast_eq_none (c : List Elem) (k : Option String) :
    lookupLast c k = none ↔ ∀ e ∈ c, e.id ≠ k := by
  induction c with
  | nil => simp [lookupLast]
  | cons x rest ih =>
    simp only [lookupLast]
    cases hr : lookupLast rest k with
    | some y =>
      simp only []
      constructor
      · intro h
        exact absurd h (by simp)
      · intro h
        exact absurd (lookupLast_id rest k y hr) (h y (List.mem_cons_of_mem _ (lookupLast_mem rest k y hr)))
    | none =>
      rw [hr] at ih
      by_cases hx : x.id = k
      · simp only [if_pos hx]
        constructor
        · intro h
          exact absurd h (by simp)
        · intro h
          exact absurd hx (h x (List.mem_cons_self _ _))
      · simp only [if_neg hx]
        constructor
        · intro _ e he
          rcases List.mem_cons.1 he with rfl | he
          · exact hx
          · exact (ih.1 rfl) e he
        · intro _
          trivial

theorem lookupLast_normColl (c : List Elem) (k : Option String) :
    lookupLast (normColl c) k = (lookupLast c k).map normElem := by
  induction c with
  | nil => rfl
  | cons x rest ih =>
    show lookupLast (normElem x :: normColl rest) k = _
    simp only [lookupLast, ih]
    cases lookupLast rest k with
    | some y => rfl
    | none =>
      simp only [Option.map_none]
      rw [show (normElem x).id = x.id from rfl]
      by_cases hx : x.id = k <;> simp [hx]

theorem lookupLast_filter_last (c : List Elem) (k : Option String) (q : Elem → Bool)
    (x : Elem) (h : lookupLast c k = some x) (hq : q x = true) :
    lookupLast (c.filter q) k = some x := by
  induction c with
  | nil => exact absurd h (by simp [lookupLast])
  | cons y rest ih =>
    simp only [lookupLast] at h
    rw [List.filter_cons]
    cases hr : lookupLast rest k with
    | some z =>
      rw [hr] at h
      injection h with h2
      subst h2
      have := ih hr
      by_cases hqy : q y
      · simp only [hqy, if_true, lookupLast, this]
      · simp only [hqy, Bool.false_eq_true, if_false, this]
    | none =>
      rw [hr] at h
      by_cases hy : y.id = k
      · rw [if_pos hy] at h
        injection h with h2
        subst h2
        have hrf : lookupLast (rest.filter q) k = none := by
          rw [lookupLast_eq_none]
          intro e he
          exact (lookupLast_eq_none rest k).1 hr e (List.mem_filter.1 he).1
        simp only [hq, if_true, lookupLast, hrf, if_pos hy]
      · rw [if_neg hy] at h
        exact absurd h (by simp)

theorem lookupLast_eq_isSome_of_mem (c : List Elem) (e : Elem) (he : e ∈ c) :
    ∃ x, lookupLast c e.id = some x := by
  cases h : lookupLast c e.id with
  | some x => exact ⟨x, rfl⟩
  | none => exact absurd rfl ((lookupLast_eq_none c e.id).1 h e he)

/-! ### Lemmas about association maps (`assocGet`, `assocSet`, `buildMap`) -/

/-- The keys of an association map are pairwise distinct. -/
def NodupKeys (m : List (κ × α)) : Prop := (m.map Prod.fst).Nodup

instance [DecidableEq κ] (m : List (κ × α)) : Decidable (NodupKeys m) :=
  inferInstanceAs (Decidable (m.map Prod.fst).Nodup)

theorem assocGet_assocSet [DecidableEq κ] (m : List (κ × α)) (k : κ) (v : α) (k2 : κ) :
    assocGet (assocSet m k v) k2 = if k = k2 then some v else assocGet m k2 := by
  induction m with
  | nil => simp [assocSet, assocGet]
  | cons p rest ih =>
    obtain ⟨k', v'⟩ := p
    by_cases hk : k' = k
    · subst hk
      by_cases h2 : k' = k2 <;> simp [assocSet, assocGet, h2]
    · simp only [assocSet, if_neg hk]
      by_cases h2 : k' = k2
      · subst h2
        have : ¬ k = k' := fun h => hk h.symm
        simp [assocGet, this]
      · simp [assocGet, h2, ih]

theorem assocDelete_cons [DecidableEq κ] (k' : κ) (v' : α) (rest : List (κ × α)) (k : κ) :
    assocDelete ((k', v') :: rest) k =
      if k' = k then assocDelete rest k else (k', v') :: assocDelete rest k := by
  by_cases hk : k' = k <;> simp [assocDelete, List.filter_cons, hk]

theorem assocGet_assocDelete [DecidableEq κ] (m : List (κ × α)) (k k2 : κ) :
    assocGet (assocDelete m k) k2 = if k = k2 then none else assocGet m k2 := by
  induction m with
  | nil => simp [assocDelete, assocGet]
  | cons p rest ih =>
    obtain ⟨k', v'⟩ := p
    rw [assocDelete_cons]
    by_cases hk : k' = k
    · rw [if_pos hk, ih]
      subst hk
      by_cases h2 : k' = k2
      · simp [h2]
      · simp [assocGet, h2]
    · rw [if_neg hk]
      by_cases h3 : k' = k2
      · subst h3
        have hne : ¬ k = k' := fun h => hk h.symm
        simp [assocGet, ih, hne]
      · simp [assocGet, h3, ih]

theorem keys_assocSet [DecidableEq κ] (m : List (κ × α)) (k : κ) (v : α) :
    (assocSet m k v).map Prod.fst =
      if k ∈ m.map Prod.fst then m.map Prod.fst else m.map Prod.fst ++ [k] := by
  induction m with
  | nil => simp [assocSet]
  | cons p rest ih =>
    obtain ⟨k', v'⟩ := p
    by_cases hk : k' = k
    · subst hk
      simp [assocSet]
    · have hk2 : ¬ k = k' := fun h => hk h.symm
      simp only [assocSet, if_neg hk, List.map_cons, List.mem_cons]
      by_cases hm : k ∈ rest.map Prod.fst
      · simp only [hm, if_true] at ih
        simp [hm, ih]
      · simp only [hm, if_false] at ih
        simp [hm, hk2, ih]

theorem nodupKeys_assocSet [DecidableEq κ] (m : List (κ × α)) (k : κ) (v : α)
    (h : NodupKeys m) : NodupKeys (assocSet m k v) := by
  unfold NodupKeys at *
  rw [keys_assocSet]
  by_cases hm : k ∈ m.map Prod.fst
  · simpa [hm]
  · rw [if_neg hm, List.nodup_append]
    refine ⟨h, List.nodup_singleton _, ?_⟩
    intro a ha hak
    rw [List.mem_singleton] at hak
    subst hak
    exact hm ha

theorem nodupKeys_assocDelete [DecidableEq κ] (m : List (κ × α)) (k : κ)
    (h : NodupKeys m) : NodupKeys (assocDelete m k) := by
  unfold NodupKeys at *
  exact ((List.filter_sublist m).map Prod.fst).nodup h

theorem mem_assocSet [DecidableEq κ] (m : List (κ × α)) (k : κ) (v : α)
    (p : κ × α) (h : p ∈ assocSet m k v) : p = (k, v) ∨ p ∈ m := by
  induction m with
  | nil => simpa [assocSet] using h
  | cons q rest ih =>
    obtain ⟨k', v'⟩ := q
    by_cases hk : k' = k
    · subst hk
      rw [show assocSet ((k', v') :: rest) k' v = (k', v) :: rest by simp [assocSet]] at h
      rcases List.mem_cons.1 h with h1 | h1
      · exact Or.inl h1
      · exact Or.inr (List.mem_cons_of_mem _ h1)
    · rw [show assocSet ((k', v') :: rest) k v = (k', v') :: assocSet rest k v by
        simp [assocSet, hk]] at h
      rcases List.mem_cons.1 h with h1 | h1
      · exact Or.inr (List.mem_cons.2 (Or.inl h1))
      · rcases ih h1 with h2 | h2
        · exact Or.inl h2
        · exact Or.inr (List.mem_cons_of_mem _ h2)

theorem assocGet_buildMap_aux (c : List Elem) (m0 : List (Option String × Elem))
    (k : Option String) :
    assocGet (c.foldl (fun m e => assocSet m e.id e) m0) k =
      match lookupLast c k with
      | some e => some e
      | none => assocGet m0 k := by
  induction c generalizing m0 with
  | nil => rfl
  | cons x rest ih =>
    show assocGet (rest.foldl _ (assocSet m0 x.id x)) k = _
    rw [ih]
    simp only [lookupLast]
    cases lookupLast rest k with
    | some y => rfl
    | none =>
      simp only [assocGet_assocSet]
      by_cases hx : x.id = k <;> simp [hx]

theorem assocGet_buildMap (c : List Elem) (k : Option String) :
    assocGet (buildMap c) k = lookupLast c k := by
  rw [buildMap, assocGet_buildMap_aux]
  cases lookupLast c k <;> rfl

theorem assocGet_eq_none_of_not_mem [DecidableEq κ] (m : List (κ × α)) (k : κ)
    (h : k ∉ m.map Prod.fst) : assocGet m k = none := by
  induction m with
  | nil => rfl
  | cons p rest ih =>
    obtain ⟨k', v'⟩ := p
    simp only [List.map_cons, List.mem_cons, not_or] at h
    have : ¬ k' = k := fun hk => h.1 hk.symm
    simp [assocGet, this, ih h.2]

theorem nodupKeys_buildMap (c : List Elem) : NodupKeys (buildMap c) := by
  have aux : ∀ (l : List Elem) (m0 : List (Option String × Elem)), NodupKeys m0 →
      NodupKeys (l.foldl (fun m e => assocSet m e.id e) m0) := by
    intro l
    induction l with
    | nil =>
      intro m0 h
      exact h
    | cons x rest ih =>
      intro m0 h
      exact ih _ (nodupKeys_assocSet _ _ _ h)
  exact aux c [] (by simp [NodupKeys])

/-- Every binding of the map sends an id to an element that carries it. -/
def MapKV (m : List (Option String × Elem)) : Prop := ∀ p ∈ m, (p.2 : Elem).id = p.1

theorem MapKV_assocSet (m : List (Option String × Elem)) (k : Option String) (v : Elem)
    (h : MapKV m) (hv : v.id = k) : MapKV (assocSet m k v) := by
  intro p hp
  rcases mem_assocSet m k v p hp with rfl | hp
  · exact hv
  · exact h p hp

theorem MapKV_assocDelete (m : List (Option String × Elem)) (k : Option String)
    (h : MapKV m) : MapKV (assocDelete m k) := by
  intro p hp
  exact h p (List.mem_filter.1 hp).1

theorem MapKV_buildMap (c : List Elem) : MapKV (buildMap c) := by
  have aux : ∀ (l : List Elem) (m0 : List (Option String × Elem)), MapKV m0 →
      MapKV (l.foldl (fun m e => assocSet m e.id e) m0) := by
    intro l
    induction l with
    | nil =>
      intro m0 h
      exact h
    | cons x rest ih =>
      intro m0 h
      exact ih _ (MapKV_assocSet _ _ _ h rfl)
  exact aux c []
    (by
      intro p hp
      simp at hp)

theorem lookupLast_map_snd (m : List (Option String × Elem))
    (hnd : NodupKeys m) (hkv : MapKV m) (k : Option String) :
    lookupLast (m.map Prod.snd) k = assocGet m k := by
  induction m with
  | nil => rfl
  | cons p rest ih =>
    obtain ⟨k0, e⟩ := p
    unfold NodupKeys at hnd
    simp only [List.map_cons, List.nodup_cons] at hnd
    have hkv' : MapKV rest := fun q hq => hkv q (List.mem_cons_of_mem _ hq)
    have hid : e.id = k0 := hkv (k0, e) (List.mem_cons_self _ _)
    show lookupLast (e :: rest.map Prod.snd) k = _
    simp only [lookupLast, ih hnd.2 hkv']
    by_cases hk : k0 = k
    · subst hk
      rw [assocGet_eq_none_of_not_mem rest k0 hnd.1]
      simp [assocGet, hid]
    · simp only [assocGet, if_neg hk]
      cases hg : assocGet rest k with
      | some y => rfl
      | none =>
        have : ¬ e.id = k := by
          rw [hid]
          exact hk
        simp [this]

/-! ### Characterizing `applyDiffRecord` through the id map -/

/-- The effect of one change on the binding of its own key. -/
def applyChangeGet (cur : Option Elem) (ch : Change) : Option Elem :=
  match ch.before, ch.after with
  | none, some a => some a
  | some _, none => none
  | some _, some a =>
    match cur with
    | some e => some (assignElem e a)
    | none => none
  | none, none => cur

theorem assocGet_applyChange_self (m : List (Option String × Elem)) (k : Option String)
    (ch : Change) :
    assocGet (applyChange m (k, ch)) k = applyChangeGet (assocGet m k) ch := by
  unfold applyChange applyChangeGet
  cases hb : ch.before with
  | none =>
    cases ha : ch.after with
    | none => simp
    | some a => simp [assocGet_assocSet]
  | some b =>
    cases ha : ch.after with
    | none => simp [assocGet_assocDelete]
    | some a =>
      simp only []
      cases hg : assocGet m k with
      | none => simp [hg]
      | some e => simp [hg, assocGet_assocSet]

theorem assocGet_applyChange_other (m : List (Option String × Elem)) (k : Option String)
    (ch : Change) (k2 : Option String) (hne : ¬ k = k2) :
    assocGet (applyChange m (k, ch)) k2 = assocGet m k2 := by
  unfold applyChange
  cases hb : ch.before with
  | none =>
    cases ha : ch.after with
    | none => simp
    | some a => simp [assocGet_assocSet, hne]
  | some b =>
    cases ha : ch.after with
    | none => simp [assocGet_assocDelete, hne]
    | some a =>
      simp only []
      cases hg : assocGet m k with
      | none => simp
      | some e => simp [assocGet_assocSet, hne]

theorem foldl_applyChange_get (changes : List (Option String × Change))
    (m : List (Option String × Elem)) (k : Option String) (hnd : NodupKeys changes) :
    assocGet (changes.foldl applyChange m) k =
      match assocGet changes k with
      | none => assocGet m k
      | some ch => applyChangeGet (assocGet m k) ch := by
  induction changes generalizing m with
  | nil => rfl
  | cons kc rest ih =>
    obtain ⟨k0, ch0⟩ := kc
    unfold NodupKeys at hnd
    simp only [List.map_cons, List.nodup_cons] at hnd
    show assocGet (rest.foldl applyChange (applyChange m (k0, ch0))) k = _
    rw [ih _ hnd.2]
    by_cases hk : k0 = k
    · subst hk
      rw [assocGet_eq_none_of_not_mem _ _ hnd.1]
      simp only [assocGet, if_pos rfl]
      exact assocGet_applyChange_self m k0 ch0
    · simp only [assocGet, if_neg hk]
      cases assocGet rest k with
      | none => exact assocGet_applyChange_other m k0 ch0 k hk
      | some ch => rw [assocGet_applyChange_other m k0 ch0 k hk]

theorem nodupKeys_applyChange (m : List (Option String × Elem))
    (kc : Option String × Change) (h : NodupKeys m) : NodupKeys (applyChange m kc) := by
  obtain ⟨k, ch⟩ := kc
  unfold applyChange
  cases ch.before with
  | none =>
    cases ch.after with
    | none => exact h
    | some a => exact nodupKeys_assocSet _ _ _ h
  | some b =>
    cases ch.after with
    | none => exact nodupKeys_assocDelete _ _ h
    | some a =>
      simp only []
      cases assocGet m k with
      | none => exact h
      | some e => exact nodupKeys_assocSet _ _ _ h

/-- All change entries key their `after` element by their own key (true of
every record built by `generateDiffRecord`). -/
def ChangesKV (changes : List (Option String × Change)) : Prop :=
  ∀ p ∈ changes, ∀ a, (p.2 : Change).after = some a → a.id = p.1

theorem MapKV_applyChange (m : List (Option String × Elem)) (kc : Option String × Change)
    (h : MapKV m) (hkv : ∀ a, kc.2.after = some a → a.id = kc.1) :
    MapKV (applyChange m kc) := by
  obtain ⟨k, ch⟩ := kc
  unfold applyChange
  cases hb : ch.before with
  | none =>
    cases ha : ch.after with
    | none => exact h
    | some a => exact MapKV_assocSet _ _ _ h (hkv a (by simp [ha]))
  | some b =>
    cases ha : ch.after with
    | none => exact MapKV_assocDelete _ _ h
    | some a =>
      simp only []
      cases assocGet m k with
      | none => exact h
      | some e => exact MapKV_assocSet _ _ _ h (hkv a (by simp [ha]))

theorem nodupKeys_foldl_applyChange (changes : List (Option String × Change))
    (m : List (Option String × Elem)) (h : NodupKeys m) :
    NodupKeys (changes.foldl applyChange m) := by
  induction changes generalizing m with
  | nil => exact h
  | cons kc rest ih => exact ih _ (nodupKeys_applyChange _ _ h)

theorem MapKV_foldl_applyChange (changes : List (Option String × Change))
    (m : List (Option String × Elem)) (h : MapKV m) (hkv : ChangesKV changes) :
    MapKV (changes.foldl applyChange m) := by
  induction changes generalizing m with
  | nil => exact h
  | cons kc rest ih =>
    refine ih _ (MapKV_applyChange _ _ h (hkv kc (List.mem_cons_self _ _))) ?_
    intro p hp
    exact hkv p (List.mem_cons_of_mem _ hp)

/-- The binding `applyDiffRecord` produces for an id: the base binding if the
diff does not mention the id, otherwise the effect of its unique change. -/
theorem lookupLast_applyDiffRecord (snapshot : List Elem)
    (changes : List (Option String × Change)) (k : Option String)
    (hnd : NodupKeys changes) (hkv : ChangesKV changes) :
    lookupLast (applyDiffRecord snapshot changes) k =
      match assocGet changes k with
      | none => lookupLast (normColl snapshot) k
      | some ch => applyChangeGet (lookupLast (normColl snapshot) k) ch := by
  unfold applyDiffRecord
  rw [lookupLast_map_snd _
    (nodupKeys_foldl_applyChange _ _ (nodupKeys_buildMap _))
    (MapKV_foldl_applyChange _ _ (MapKV_buildMap _) hkv),
    foldl_applyChange_get _ _ _ hnd, assocGet_buildMap]

/-- All elements stored inside the change entries are JS-representable. -/
def ChangesWF (changes : List (Option String × Change)) : Prop :=
  ∀ p ∈ changes, (∀ x ∈ (p.2 : Change).before, ElemWF x) ∧ (∀ x ∈ (p.2 : Change).after, ElemWF x)

/-- All map values are JS-representable. -/
def MapWF (m : List (Option String × Elem)) : Prop := ∀ p ∈ m, ElemWF (p.2 : Elem)

theorem MapWF_assocSet (m : List (Option String × Elem)) (k : Option String) (v : Elem)
    (h : MapWF m) (hv : ElemWF v) : MapWF (assocSet m k v) := by
  intro p hp
  rcases mem_assocSet m k v p hp with rfl | hp
  · exact hv
  · exact h p hp

theorem MapWF_applyChange (m : List (Option String × Elem)) (kc : Option String × Change)
    (h : MapWF m) (hwf : ∀ x ∈ kc.2.after, ElemWF x) : MapWF (applyChange m kc) := by
  obtain ⟨k, ch⟩ := kc
  unfold applyChange
  cases hb : ch.before with
  | none =>
    cases ha : ch.after with
    | none => exact h
    | some a => exact MapWF_assocSet _ _ _ h (hwf a (by simp [ha]))
  | some b =>
    cases ha : ch.after with
    | none =>
      intro p hp
      exact h p (List.mem_filter.1 hp).1
    | some a =>
      simp only []
      cases hg : assocGet m k with
      | none => exact h
      | some e =>
        have he : ElemWF e := by
          have : (k, e) ∈ m := by
            clear h hwf
            induction m with
            | nil => simp [assocGet] at hg
            | cons q rest ih =>
              obtain ⟨kq, vq⟩ := q
              simp only [assocGet] at hg
              by_cases hq : kq = k
              · subst hq
                rw [if_pos rfl] at hg
                injection hg with hg2
                subst hg2
                exact List.mem_cons_self _ _
              · rw [if_neg hq] at hg
                exact List.mem_cons_of_mem _ (ih hg)
          exact h (k, e) this
        exact MapWF_assocSet _ _ _ h
          (ElemWF_assignElem e a he ((hwf a (by simp [ha])).2))

theorem MapWF_foldl_applyChange (changes : List (Option String × Change))
    (m : List (Option String × Elem)) (h : MapWF m) (hwf : ChangesWF changes) :
    MapWF (changes.foldl applyChange m) := by
  induction changes generalizing m with
  | nil => exact h
  | cons kc rest ih =>
    refine ih _ (MapWF_applyChange _ _ h (hwf kc (List.mem_cons_self _ _)).2) ?_
    intro p hp
    exact hwf p (List.mem_cons_of_mem _ hp)

theorem MapWF_buildMap (c : List Elem) (h : CollWF c) : MapWF (buildMap c) := by
  have aux : ∀ (l : List Elem) (m0 : List (Option String × Elem)), MapWF m0 →
      (∀ e ∈ l, ElemWF e) → MapWF (l.foldl (fun m e => assocSet m e.id e) m0) := by
    intro l
    induction l with
    | nil =>
      intro m0 h0 _
      exact h0
    | cons x rest ih =>
      intro m0 h0 hl
      refine ih _ (MapWF_assocSet _ _ _ h0 (hl x (List.mem_cons_self _ _))) ?_
      intro e he
      exact hl e (List.mem_cons_of_mem _ he)
  exact aux c [] (by intro p hp; simp at hp) h

theorem CollWF_applyDiffRecord (snapshot : List Elem)
    (changes : List (Option String × Change))
    (hs : CollWF snapshot) (hc : ChangesWF changes) :
    CollWF (applyDiffRecord snapshot changes) := by
  intro e he
  unfold applyDiffRecord at he
  rw [List.mem_map] at he
  obtain ⟨p, hp, rfl⟩ := he
  exact MapWF_foldl_applyChange _ _ (MapWF_buildMap _ (CollWF_normColl _ hs)) hc p hp

/-! ### Characterizing the change map built by `generateDiffRecord` -/

/-- The change entry the first diff pass records for one `before` element. -/
def entryFor1 (after : List Elem) (el : Elem) : Option Change :=
  match lookupLast after el.id with
  | none => some ⟨some el, none⟩
  | some aEl =>
    if normElem el ≠ normElem aEl then
      some ⟨some (extractChangedFields el aEl), some (extractChangedFields aEl el)⟩
    else none

theorem diffStep1_eq (after : List Elem)
    (acc : List (Option String × Change) × List (Option String)) (el : Elem) :
    diffStep1 after acc el =
      match entryFor1 after el with
      | some ch => (assocSet acc.1 el.id ch, acc.2 ++ [el.id])
      | none => acc := by
  unfold diffStep1 entryFor1
  cases lookupLast after el.id with
  | none => rfl
  | some aEl =>
    by_cases h : normElem el ≠ normElem aEl <;> simp [h]

/-- The binding the first-pass fold has recorded for key `k` after processing
the `before` list from the left (later elements win). -/
def pass1At (after : List Elem) : List Elem → Option String → Option Change
  | [], _ => none
  | el :: rest, k =>
    match pass1At after rest k with
    | some ch => some ch
    | none => if el.id = k then entryFor1 after el else none

theorem assocGet_foldl_diffStep1 (after b : List Elem)
    (acc : List (Option String × Change) × List (Option String)) (k : Option String) :
    assocGet (b.foldl (diffStep1 after) acc).1 k =
      match pass1At after b k with
      | some ch => some ch
      | none => assocGet acc.1 k := by
  induction b generalizing acc with
  | nil => rfl
  | cons el rest ih =>
    show assocGet (rest.foldl (diffStep1 after) (diffStep1 after acc el)).1 k = _
    rw [ih]
    simp only [pass1At]
    cases pass1At after rest k with
    | some ch => rfl
    | none =>
      rw [diffStep1_eq]
      cases he : entryFor1 after el with
      | none =>
        simp only []
        by_cases hk : el.id = k <;> simp [hk, he]
      | some ch =>
        simp only [assocGet_assocSet]
        by_cases hk : el.id = k <;> simp [hk, he]

/-- The binding the second-pass fold has recorded for key `k`. -/
def pass2At (before : List Elem) : List Elem → Option String → Option Change
  | [], _ => none
  | el :: rest, k =>
    match pass2At before rest k with
    | some ch => some ch
    | none =>
      if el.id = k ∧ lookupLast before el.id = none then some ⟨none, some el⟩ else none

theorem assocGet_foldl_diffStep2 (before a : List Elem)
    (acc : List (Option String × Change) × List (Option String)) (k : Option String) :
    assocGet (a.foldl (diffStep2 before) acc).1 k =
      match pass2At before a k with
      | some ch => some ch
      | none => assocGet acc.1 k := by
  induction a generalizing acc with
  | nil => rfl
  | cons el rest ih =>
    show assocGet (rest.foldl (diffStep2 before) (diffStep2 before acc el)).1 k = _
    rw [ih]
    simp only [pass2At]
    cases pass2At before rest k with
    | some ch => rfl
    | none =>
      unfold diffStep2
      by_cases hb : lookupLast before el.id = none
      · rw [if_pos hb]
        show assocGet (assocSet acc.1 el.id _) k = _
        rw [assocGet_assocSet]
        by_cases hk : el.id = k
        · rw [if_pos hk, if_pos ⟨hk, hb⟩]
        · rw [if_neg hk, if_neg (fun h => hk h.1)]
      · rw [if_neg hb]
        have : ¬ (el.id = k ∧ lookupLast before el.id = none) := fun h => hb h.2
        simp [this]

theorem assocGet_diffPasses (b a : List Elem) (k : Option String) :
    assocGet (diffPasses b a).1 k =
      match pass2At b a k with
      | some ch => some ch
      | none =>
        match pass1At a b k with
        | some ch => some ch
        | none => none := by
  unfold diffPasses
  rw [assocGet_foldl_diffStep2, assocGet_foldl_diffStep1]
  cases pass2At b a k <;> cases pass1At a b k <;> rfl

theorem lookupLast_filter_none (c : List Elem) (k : Option String) (q : Elem → Bool)
    (h : lookupLast c k = none) : lookupLast (c.filter q) k = none := by
  rw [lookupLast_eq_none] at h ⊢
  intro e he
  exact h e (List.mem_filter.1 he).1

/-- Closed form of the first pass at an id that vanished from `after`: the
wholesale deletion of the last `before` occurrence. -/
theorem pass1At_eq_del (a b : List Elem) (k : Option String) (ha : lookupLast a k = none) :
    pass1At a b k = (lookupLast b k).map (fun bl => (⟨some bl, none⟩ : Change)) := by
  induction b with
  | nil => rfl
  | cons el rest ih =>
    simp only [pass1At, ih, lookupLast]
    cases hr : lookupLast rest k with
    | some bl => rfl
    | none =>
      simp only [Option.map_none]
      by_cases hk : el.id = k
      · simp [hk, entryFor1, ha]
      · simp [hk]

/-- Closed form of the first pass at an id present in `after`: the
field-level entry of the last `before` occurrence whose serialization
differs from the `after` element, if any. -/
theorem pass1At_eq_mod (a b : List Elem) (k : Option String) (al : Elem)
    (ha : lookupLast a k = some al) :
    pass1At a b k =
      (lookupLast (b.filter (fun e => decide (normElem e ≠ normElem al))) k).map
        (fun el =>
          (⟨some (extractChangedFields el al), some (extractChangedFields al el)⟩ : Change)) := by
  induction b with
  | nil => rfl
  | cons el rest ih =>
    simp only [pass1At, ih]
    by_cases hq : normElem el ≠ normElem al
    · have hfilter : (el :: rest).filter (fun e => decide (normElem e ≠ normElem al))
          = el :: rest.filter (fun e => decide (normElem e ≠ normElem al)) := by
        simp [List.filter_cons, hq]
      rw [hfilter]
      simp only [lookupLast]
      cases hr : lookupLast (rest.filter (fun e => decide (normElem e ≠ normElem al))) k with
      | some star => rfl
      | none =>
        by_cases hk : el.id = k
        · simp [hk, entryFor1, ha, hq]
        · rw [if_neg hk, if_neg hk]
          rfl
    · have hfilter : (el :: rest).filter (fun e => decide (normElem e ≠ normElem al))
          = rest.filter (fun e => decide (normElem e ≠ normElem al)) := by
        simp [List.filter_cons, hq]
      rw [hfilter]
      cases hr : lookupLast (rest.filter (fun e => decide (normElem e ≠ normElem al))) k with
      | some star => rfl
      | none =>
        by_cases hk : el.id = k
        · simp [hk, entryFor1, ha, hq]
        · rw [if_neg hk]
          rfl

/-- The second pass records nothing at an id that was already present. -/
theorem pass2At_eq_present (b a : List Elem) (k : Option String)
    (hb : ¬ lookupLast b k = none) : pass2At b a k = none := by
  induction a with
  | nil => rfl
  | cons el rest ih =>
    simp only [pass2At, ih]
    have : ¬ (el.id = k ∧ lookupLast b el.id = none) := by
      rintro ⟨h1, h2⟩
      rw [h1] at h2
      exact hb h2
    rw [if_neg this]

/-- Closed form of the second pass at a fresh id: the last `after`
occurrence, stored as a wholesale addition. -/
theorem pass2At_eq_add (b a : List Elem) (k : Option String)
    (hb : lookupLast b k = none) :
    pass2At b a k = (lookupLast a k).map (fun al => (⟨none, some al⟩ : Change)) := by
  induction a with
  | nil => rfl
  | cons el rest ih =>
    simp only [pass2At, ih, lookupLast]
    cases hr : lookupLast rest k with
    | some al => rfl
    | none =>
      simp only [Option.map_none]
      by_cases hk : el.id = k
      · rw [if_pos ⟨hk, by rw [hk]; exact hb⟩, if_pos hk]
        rfl
      · rw [if_neg (fun h => hk h.1), if_neg hk]
        rfl

/-! ### Structural facts about generated diff records -/

theorem nodupKeys_diffStep1 (after : List Elem)
    (acc : List (Option String × Change) × List (Option String)) (el : Elem)
    (h : NodupKeys acc.1) : NodupKeys (diffStep1 after acc el).1 := by
  rw [diffStep1_eq]
  cases entryFor1 after el with
  | none => exact h
  | some ch => exact nodupKeys_assocSet _ _ _ h

theorem nodupKeys_diffStep2 (before : List Elem)
    (acc : List (Option String × Change) × List (Option String)) (el : Elem)
    (h : NodupKeys acc.1) : NodupKeys (diffStep2 before acc el).1 := by
  unfold diffStep2
  by_cases hb : lookupLast before el.id = none
  · rw [if_pos hb]
    exact nodupKeys_assocSet _ _ _ h
  · rw [if_neg hb]
    exact h

theorem nodupKeys_diffPasses (b a : List Elem) : NodupKeys (diffPasses b a).1 := by
  have aux1 : ∀ (l : List Elem) acc, NodupKeys acc.1 →
      NodupKeys (l.foldl (diffStep1 a) acc).1 := by
    intro l
    induction l with
    | nil =>
      intro acc h
      exact h
    | cons el rest ih =>
      intro acc h
      exact ih _ (nodupKeys_diffStep1 _ _ _ h)
  have aux2 : ∀ (l : List Elem) acc, NodupKeys acc.1 →
      NodupKeys (l.foldl (diffStep2 b) acc).1 := by
    intro l
    induction l with
    | nil =>
      intro acc h
      exact h
    | cons el rest ih =>
      intro acc h
      exact ih _ (nodupKeys_diffStep2 _ _ _ h)
  exact aux2 a _ (aux1 b ([], []) (by simp [NodupKeys]))

theorem mem_foldl_diffStep1 (after b : List Elem)
    (acc : List (Option String × Change) × List (Option String))
    (p : Option String × Change) (hp : p ∈ (b.foldl (diffStep1 after) acc).1) :
    p ∈ acc.1 ∨ ∃ el ∈ b, ∃ ch, entryFor1 after el = some ch ∧ p = (el.id, ch) := by
  induction b generalizing acc with
  | nil => exact Or.inl hp
  | cons el rest ih =>
    have hp2 : p ∈ (rest.foldl (diffStep1 after) (diffStep1 after acc el)).1 := hp
    rcases ih _ hp2 with h | ⟨x, hx, ch, hch, rfl⟩
    · rw [diffStep1_eq] at h
      cases he : entryFor1 after el with
      | none =>
        rw [he] at h
        exact Or.inl h
      | some ch =>
        rw [he] at h
        rcases mem_assocSet _ _ _ _ h with rfl | h
        · exact Or.inr ⟨el, List.mem_cons_self _ _, ch, he, rfl⟩
        · exact Or.inl h
    · exact Or.inr ⟨x, List.mem_cons_of_mem _ hx, ch, hch, rfl⟩

theorem mem_foldl_diffStep2 (before a : List Elem)
    (acc : List (Option String × Change) × List (Option String))
    (p : Option String × Change) (hp : p ∈ (a.foldl (diffStep2 before) acc).1) :
    p ∈ acc.1 ∨ ∃ el ∈ a, lookupLast before el.id = none ∧ p = (el.id, ⟨none, some el⟩) := by
  induction a generalizing acc with
  | nil => exact Or.inl hp
  | cons el rest ih =>
    have hp2 : p ∈ (rest.foldl (diffStep2 before) (diffStep2 before acc el)).1 := hp
    rcases ih _ hp2 with h | ⟨x, hx, hb, rfl⟩
    · unfold diffStep2 at h
      by_cases hb : lookupLast before el.id = none
      · rw [if_pos hb] at h
        rcases mem_assocSet _ _ _ _ h with rfl | h
        · exact Or.inr ⟨el, List.mem_cons_self _ _, hb, rfl⟩
        · exact Or.inl h
      · rw [if_neg hb] at h
        exact Or.inl h
    · exact Or.inr ⟨x, List.mem_cons_of_mem _ hx, hb, rfl⟩

theorem mem_diffPasses (b a : List Elem) (p : Option String × Change)
    (hp : p ∈ (diffPasses b a).1) :
    (∃ el ∈ b, ∃ ch, entryFor1 a el = some ch ∧ p = (el.id, ch)) ∨
    (∃ el ∈ a, lookupLast b el.id = none ∧ p = (el.id, ⟨none, some el⟩)) := by
  unfold diffPasses at hp
  rcases mem_foldl_diffStep2 _ _ _ _ hp with h | h
  · rcases mem_foldl_diffStep1 _ _ _ _ h with h | h
    · simp at h
    · exact Or.inl h
  · exact Or.inr h

theorem ChangesKV_diffPasses (b a : List Elem) : ChangesKV (diffPasses b a).1 := by
  intro p hp x hx
  rcases mem_diffPasses b a p hp with ⟨el, _, ch, hch, rfl⟩ | ⟨el, _, _, rfl⟩
  · unfold entryFor1 at hch
    cases ha : lookupLast a el.id with
    | none =>
      simp only [ha] at hch
      injection hch with hch
      subst hch
      simp at hx
    | some al =>
      simp only [ha] at hch
      by_cases hq : normElem el ≠ normElem al
      · rw [if_pos hq] at hch
        injection hch with hch
        subst hch
        simp only [] at hx
        injection hx with hx
        subst hx
        show (extractChangedFields al el).id = el.id
        rw [extract_id]
        exact lookupLast_id a el.id al ha
      · rw [if_neg hq] at hch
        exact absurd hch (by simp)
  · simp only [] at hx
    injection hx with hx
    subst hx
    rfl

theorem ChangesWF_diffPasses (b a : List Elem) (hb : CollWF b) (ha : CollWF a) :
    ChangesWF (diffPasses b a).1 := by
  intro p hp
  rcases mem_diffPasses b a p hp with ⟨el, hel, ch, hch, rfl⟩ | ⟨el, hel, _, rfl⟩
  · unfold entryFor1 at hch
    cases hq : lookupLast a el.id with
    | none =>
      simp only [hq] at hch
      injection hch with hch
      subst hch
      constructor
      · intro x hx
        simp only [Option.mem_def, Option.some_inj] at hx
        subst hx
        exact hb el hel
      · intro x hx
        simp at hx
    | some al =>
      simp only [hq] at hch
      by_cases hne : normElem el ≠ normElem al
      · rw [if_pos hne] at hch
        injection hch with hch
        subst hch
        constructor
        · intro x hx
          simp only [Option.mem_def, Option.some_inj] at hx
          subst hx
          exact ElemWF_extract _ _
        · intro x hx
          simp only [Option.mem_def, Option.some_inj] at hx
          subst hx
          exact ElemWF_extract _ _
      · rw [if_neg hne] at hch
        exact absurd hch (by simp)
  · constructor
    · intro x hx
      simp at hx
    · intro x hx
      simp only [Option.mem_def, Option.some_inj] at hx
      subst hx
      exact ha el hel

/-! ### Collection equivalence and the central push lemma -/

theorem elemEquiv_refl (e : Elem) : elemEquiv e e := ⟨rfl, fun _ => rfl⟩

theorem elemEquiv_symm (e1 e2 : Elem) (h : elemEquiv e1 e2) : elemEquiv e2 e1 :=
  ⟨h.1.symm, fun f => (h.2 f).symm⟩

theorem elemEquiv_trans (e1 e2 e3 : Elem) (h1 : elemEquiv e1 e2) (h2 : elemEquiv e2 e3) :
    elemEquiv e1 e3 :=
  ⟨h1.1.trans h2.1, fun f => (h1.2 f).trans (h2.2 f)⟩

theorem elemEquiv_norm (e : Elem) (hnd : (keysOf e.fields).Nodup) :
    elemEquiv (normElem e) e :=
  ⟨rfl, fun f => readF_normElem e hnd f⟩

theorem collEquiv_refl (c : List Elem) : collEquiv c c := by
  intro k
  cases lookupLast c k with
  | none => trivial
  | some e => exact elemEquiv_refl e

theorem collEquiv_symm (c1 c2 : List Elem) (h : collEquiv c1 c2) : collEquiv c2 c1 := by
  intro k
  have hk := h k
  cases h1 : lookupLast c1 k with
  | none =>
    rw [h1] at hk
    cases h2 : lookupLast c2 k with
    | none => trivial
    | some e =>
      rw [h2] at hk
      exact absurd hk (by simp [optRel])
  | some e1 =>
    rw [h1] at hk
    cases h2 : lookupLast c2 k with
    | none =>
      rw [h2] at hk
      exact absurd hk (by simp [optRel])
    | some e2 =>
      rw [h2] at hk
      exact elemEquiv_symm e1 e2 hk

theorem collEquiv_trans (c1 c2 c3 : List Elem)
    (h1 : collEquiv c1 c2) (h2 : collEquiv c2 c3) : collEquiv c1 c3 := by
  intro k
  have hk1 := h1 k
  have hk2 := h2 k
  cases e1 : lookupLast c1 k with
  | none =>
    rw [e1] at hk1
    cases e2 : lookupLast c2 k with
    | none =>
      rw [e2] at hk2
      cases e3 : lookupLast c3 k with
      | none => trivial
      | some x3 =>
        rw [e3] at hk2
        exact absurd hk2 (by simp [optRel])
    | some x2 =>
      rw [e2] at hk1
      exact absurd hk1 (by simp [optRel])
  | some x1 =>
    rw [e1] at hk1
    cases e2 : lookupLast c2 k with
    | none =>
      rw [e2] at hk1
      exact absurd hk1 (by simp [optRel])
    | some x2 =>
      rw [e2] at hk1
      rw [e2] at hk2
      cases e3 : lookupLast c3 k with
      | none =>
        rw [e3] at hk2
        exact absurd hk2 (by simp [optRel])
      | some x3 =>
        rw [e3] at hk2
        exact elemEquiv_trans x1 x2 x3 hk1 hk2

/-- The visible reads of two JSON-equal representable elements agree. -/
theorem readF_eq_of_normEq (e1 e2 : Elem) (h : normElem e1 = normElem e2)
    (h1 : (keysOf e1.fields).Nodup) (h2 : (keysOf e2.fields).Nodup) (f : String) :
    readF e1 f = readF e2 f := by
  rw [← readF_normElem e1 h1 f, ← readF_normElem e2 h2 f, h]

theorem ElemWF_of_lookupLast (c : List Elem) (k : Option String) (e : Elem)
    (hc : CollWF c) (h : lookupLast c k = some e) : ElemWF e :=
  hc e (lookupLast_mem c k e h)

/-- Central lemma: applying the structural diff of `b` against `a` to any
collection `m` that denotes the same id-keyed contents as `b` produces the
id-keyed contents of `a` (all collections JS-representable). -/
theorem collEquiv_applyDiff_diffPasses (m b a : List Elem)
    (hm : CollWF m) (hb : CollWF b) (ha : CollWF a) (heq : collEquiv m b) :
    collEquiv (normColl a) (applyDiffRecord m (diffPasses b a).1) := by
  intro k
  have hmb := heq k
  have happ := lookupLast_applyDiffRecord m (diffPasses b a).1 k
    (nodupKeys_diffPasses b a) (ChangesKV_diffPasses b a)
  rw [lookupLast_normColl m k] at happ
  rw [lookupLast_normColl a k]
  cases hbk : lookupLast b k with
  | none =>
    rw [hbk] at hmb
    have hmk : lookupLast m k = none := by
      cases hmk : lookupLast m k with
      | none => rfl
      | some em =>
        rw [hmk] at hmb
        exact absurd hmb (by simp [optRel])
    cases hak : lookupLast a k with
    | none =>
      have hfin : lookupLast (applyDiffRecord m (diffPasses b a).1) k = none := by
        rw [happ, assocGet_diffPasses, pass2At_eq_add b a k hbk, hak,
            pass1At_eq_del a b k hak, hbk, hmk]
        rfl
      rw [hfin]
      trivial
    | some al =>
      have hfin : lookupLast (applyDiffRecord m (diffPasses b a).1) k = some al := by
        rw [happ, assocGet_diffPasses, pass2At_eq_add b a k hbk, hak]
        rfl
      rw [hfin]
      show elemEquiv (normElem al) al
      exact elemEquiv_norm al (ElemWF_of_lookupLast a k al ha hak).1
  | some bl =>
    have hbne : ¬ lookupLast b k = none := by
      rw [hbk]
      simp
    rw [hbk] at hmb
    have hblWF : ElemWF bl := ElemWF_of_lookupLast b k bl hb hbk
    cases hmk : lookupLast m k with
    | none =>
      rw [hmk] at hmb
      exact absurd hmb (by simp [optRel])
    | some em =>
      rw [hmk] at hmb
      have hem : elemEquiv em bl := hmb
      have hemWF : ElemWF em := ElemWF_of_lookupLast m k em hm hmk
      cases hak : lookupLast a k with
      | none =>
        have hfin : lookupLast (applyDiffRecord m (diffPasses b a).1) k = none := by
          rw [happ, assocGet_diffPasses, pass2At_eq_present b a k hbne,
              pass1At_eq_del a b k hak, hbk]
          rfl
        rw [hfin]
        trivial
      | some al =>
        have halWF : ElemWF al := ElemWF_of_lookupLast a k al ha hak
        cases hlb : lookupLast
            (b.filter (fun e => decide (normElem e ≠ normElem al))) k with
        | none =>
          have hfin : lookupLast (applyDiffRecord m (diffPasses b a).1) k
              = some (normElem em) := by
            rw [happ, assocGet_diffPasses, pass2At_eq_present b a k hbne,
                pass1At_eq_mod a b k al hak, hlb, hmk]
            rfl
          rw [hfin]
          show elemEquiv (normElem al) (normElem em)
          have hbleq : normElem bl = normElem al := by
            by_contra hne
            have : lookupLast (b.filter (fun e => decide (normElem e ≠ normElem al))) k
                = some bl :=
              lookupLast_filter_last b k _ bl hbk (by simpa using hne)
            rw [this] at hlb
            exact absurd hlb (by simp)
          refine ⟨?_, ?_⟩
          · show al.id = em.id
            rw [lookupLast_id a k al hak, lookupLast_id m k em hmk]
          · intro f
            rw [readF_normElem al halWF.1 f, readF_normElem em hemWF.1 f]
            rw [← readF_eq_of_normEq bl al hbleq hblWF.1 halWF.1 f]
            exact ((hem.2 f).trans rfl).symm
        | some star =>
          have hfin : lookupLast (applyDiffRecord m (diffPasses b a).1) k
              = some (assignElem (normElem em) (extractChangedFields al star)) := by
            rw [happ, assocGet_diffPasses, pass2At_eq_present b a k hbne,
                pass1At_eq_mod a b k al hak, hlb, hmk]
            rfl
          rw [hfin]
          show elemEquiv (normElem al) (assignElem (normElem em) (extractChangedFields al star))
          have hreads : ∀ f,
              readF (assignElem (normElem em) (extractChangedFields al star)) f
                = readF al f := by
            intro f
            refine readF_assign_extract (normElem em) al star halWF.2 ?_ ?_ f
            · rw [readF_normElem em hemWF.1 "id", hem.2 "id",
                readF_eq_none_of_not_mem bl _ hblWF.2]
            · intro g hg
              rw [readF_normElem em hemWF.1 g, hem.2 g]
              by_cases hbleq : normElem bl = normElem al
              · exact readF_eq_of_normEq bl al hbleq hblWF.1 halWF.1 g
              · have hstar : lookupLast
                    (b.filter (fun e => decide (normElem e ≠ normElem al))) k
                    = some bl :=
                  lookupLast_filter_last b k _ bl hbk (by simpa using hbleq)
                rw [hstar] at hlb
                injection hlb with hlb
                subst hlb
                exact hg.symm
          refine ⟨?_, fun f => (readF_normElem al halWF.1 f).trans (hreads f).symm⟩
          show al.id = (extractChangedFields al star).id
          rw [extract_id]

/-! ### The materialization function `matAt` -/

/-- The head of the log, when it exists, is a snapshot record (invariant of
every reachable state: the first push stores a snapshot and compaction
replaces the prefix by a snapshot). -/
def headSnap (stack : List HistoryRecord) : Prop :=
  ∀ r, stack.head? = some r → isSnapshot r = true

theorem checkSnapAt_some (stack : List HistoryRecord) (i : Nat) (j : Nat) (c : List Elem)
    (h : checkSnapAt stack i = some (j, c)) :
    j = i ∧ ∃ content ids d t, stack[i]? = some (.snap content ids d t) ∧ c = normColl content := by
  unfold checkSnapAt at h
  cases hg : stack[i]? with
  | none =>
    rw [hg] at h
    exact absurd h (by simp)
  | some r =>
    rw [hg] at h
    cases r with
    | diff ch ids d t => exact absurd h (by simp)
    | snap content ids d t =>
      simp only [Option.some_inj, Prod.mk.injEq] at h
      obtain ⟨h1, h2⟩ := h
      subst h1
      subst h2
      exact ⟨rfl, content, ids, d, t, rfl, rfl⟩

theorem checkSnapAt_snap (stack : List HistoryRecord) (i : Nat)
    (content : List Elem) (ids : List (Option String)) (d : String) (t : Nat)
    (h : stack[i]? = some (.snap content ids d t)) :
    checkSnapAt stack i = some (i, normColl content) := by
  unfold checkSnapAt
  rw [h]

theorem checkSnapAt_diff (stack : List HistoryRecord) (i : Nat)
    (ch : List (Option String × Change)) (ids : List (Option String)) (d : String) (t : Nat)
    (h : stack[i]? = some (.diff ch ids d t)) :
    checkSnapAt stack i = none := by
  unfold checkSnapAt
  rw [h]

theorem lastSnapAt_isSome (stack : List HistoryRecord) (hne : stack ≠ [])
    (hhead : headSnap stack) (i : Nat) :
    ∃ j c, lastSnapAt stack i = some (j, c) := by
  have h0 : ∃ c0, checkSnapAt stack 0 = some (0, c0) := by
    cases stack with
    | nil => exact absurd rfl hne
    | cons r rest =>
      have hr : isSnapshot r = true := hhead r rfl
      cases r with
      | diff ch ids d t => simp [isSnapshot] at hr
      | snap content ids d t =>
        exact ⟨normColl content, checkSnapAt_snap _ 0 content ids d t (by simp)⟩
  induction i with
  | zero =>
    obtain ⟨c0, hc0⟩ := h0
    exact ⟨0, c0, hc0⟩
  | succ i ih =>
    show ∃ j c, (match checkSnapAt stack (i + 1) with
      | some r => some r
      | none => lastSnapAt stack i) = some (j, c)
    cases hc : checkSnapAt stack (i + 1) with
    | some r =>
      refine ⟨r.1, r.2, ?_⟩
      simp
    | none =>
      obtain ⟨j, c, hj⟩ := ih
      refine ⟨j, c, ?_⟩
      simpa using hj

theorem lastSnapAt_le (stack : List HistoryRecord) (i j : Nat) (c : List Elem)
    (h : lastSnapAt stack i = some (j, c)) : j ≤ i := by
  induction i with
  | zero => exact Nat.le_of_eq (checkSnapAt_some stack 0 j c h).1
  | succ i ih =>
    unfold lastSnapAt at h
    cases hc : checkSnapAt stack (i + 1) with
    | some r =>
      simp only [hc] at h
      have hcs : checkSnapAt stack (i + 1) = some (j, c) := by rw [hc, h]
      exact Nat.le_of_eq (checkSnapAt_some stack (i+1) j c hcs).1
    | none =>
      simp only [hc] at h
      exact Nat.le_succ_of_le (ih h)

theorem lastSnapAt_checkSnapAt (stack : List HistoryRecord) (i j : Nat) (c : List Elem)
    (h : lastSnapAt stack i = some (j, c)) : checkSnapAt stack j = some (j, c) := by
  induction i with
  | zero =>
    have := (checkSnapAt_some stack 0 j c h).1
    subst this
    exact h
  | succ i ih =>
    unfold lastSnapAt at h
    cases hc : checkSnapAt stack (i + 1) with
    | some r =>
      simp only [hc] at h
      have hcs : checkSnapAt stack (i + 1) = some (j, c) := by rw [hc, h]
      have := (checkSnapAt_some stack (i+1) j c hcs).1
      subst this
      exact hcs
    | none =>
      simp only [hc] at h
      exact ih h

theorem lastSnapAt_self (stack : List HistoryRecord) (i : Nat) (c : List Elem)
    (h : checkSnapAt stack i = some (i, c)) : lastSnapAt stack i = some (i, c) := by
  cases i with
  | zero => exact h
  | succ i =>
    unfold lastSnapAt
    rw [h]

theorem lastSnapAt_succ_none (stack : List HistoryRecord) (i : Nat)
    (h : checkSnapAt stack (i + 1) = none) :
    lastSnapAt stack (i + 1) = lastSnapAt stack i := by
  have heq : lastSnapAt stack (i + 1)
      = match checkSnapAt stack (i + 1) with
        | some r => some r
        | none => lastSnapAt stack i := rfl
  rw [heq, h]

/-- Materializing at a snapshot record yields a copy of its content. -/
theorem matAt_here (stack : List HistoryRecord) (i : Nat)
    (content : List Elem) (ids : List (Option String)) (d : String) (t : Nat)
    (h : stack[i]? = some (.snap content ids d t)) :
    matAt stack i = normColl content := by
  unfold matAt
  rw [lastSnapAt_self stack i (normColl content) (checkSnapAt_snap stack i content ids d t h)]
  have hdrop : ((stack.take (i + 1)).drop (i + 1)) = [] :=
    List.drop_eq_nil_of_le (by simp)
  show applyRecs (normColl content) ((stack.take (i + 1)).drop (i + 1)) = normColl content
  rw [hdrop]
  rfl

/-- One transition of the materialization recurrence. -/
def stepRec (mcur : List Elem) (r : HistoryRecord) : List Elem :=
  match r with
  | .snap content _ _ _ => normColl content
  | .diff ch _ _ _ => applyDiffRecord mcur ch

/-- Materializing at a diff record applies it to the previous
materialization. -/
theorem matAt_succ_diff (stack : List HistoryRecord) (i : Nat)
    (hne : stack ≠ []) (hhead : headSnap stack)
    (ch : List (Option String × Change)) (ids : List (Option String)) (d : String) (t : Nat)
    (h : stack[i + 1]? = some (.diff ch ids d t)) :
    matAt stack (i + 1) = applyDiffRecord (matAt stack i) ch := by
  have hcs : checkSnapAt stack (i + 1) = none := checkSnapAt_diff stack (i+1) ch ids d t h
  obtain ⟨j, c, hj⟩ := lastSnapAt_isSome stack hne hhead i
  have hlen : i + 1 < stack.length := by
    by_contra hlt
    rw [List.getElem?_eq_none (Nat.le_of_not_lt hlt)] at h
    exact absurd h (by simp)
  have hji : j ≤ i := lastSnapAt_le stack i j c hj
  have hL : matAt stack (i + 1) = applyRecs c ((stack.take (i + 1 + 1)).drop (j + 1)) := by
    unfold matAt
    rw [lastSnapAt_succ_none stack i hcs, hj]
  have hR : matAt stack i = applyRecs c ((stack.take (i + 1)).drop (j + 1)) := by
    unfold matAt
    rw [hj]
  have htake : stack.take (i + 1 + 1) = stack.take (i + 1) ++ [HistoryRecord.diff ch ids d t] := by
    rw [List.take_succ, h]
    rfl
  rw [hL, hR, htake, List.drop_append_of_le_length (by
    rw [List.length_take]
    exact le_min (Nat.succ_le_succ hji)
      (le_trans (Nat.succ_le_succ hji) (Nat.le_of_lt hlen)))]
  unfold applyRecs
  rw [List.foldl_append]
  rfl

theorem matAt_succ (stack : List HistoryRecord) (i : Nat)
    (hne : stack ≠ []) (hhead : headSnap stack)
    (r : HistoryRecord) (h : stack[i + 1]? = some r) :
    matAt stack (i + 1) = stepRec (matAt stack i) r := by
  cases r with
  | snap content ids d t => exact matAt_here stack (i+1) content ids d t h
  | diff ch ids d t => exact matAt_succ_diff stack i hne hhead ch ids d t h

/-- The materialization at `i + d` is obtained from the materialization at
`i` by folding the records strictly between them. -/
theorem matAt_chain (stack : List HistoryRecord) (hne : stack ≠ []) (hhead : headSnap stack)
    (i : Nat) (d : Nat) (hlt : i + d < stack.length) :
    matAt stack (i + d) = ((stack.drop (i + 1)).take d).foldl stepRec (matAt stack i) := by
  induction d with
  | zero => simp
  | succ d ih =>
    have hlt2 : i + d < stack.length := by omega
    have hlt3 : i + d + 1 < stack.length := by omega
    have hidx : i + 1 + d = i + d + 1 := by omega
    have hget : stack[i + d + 1]? = some stack[i + d + 1] :=
      List.getElem?_eq_getElem hlt3
    have htake : (stack.drop (i + 1)).take (d + 1)
        = (stack.drop (i + 1)).take d ++ [stack[i + d + 1]] := by
      rw [List.take_succ]
      congr 1
      rw [List.getElem?_drop, hidx, hget]
      rfl
    have hstep : matAt stack (i + (d + 1)) = stepRec (matAt stack (i + d)) stack[i + d + 1] := by
      have h1 : i + (d + 1) = (i + d) + 1 := by omega
      rw [h1]
      exact matAt_succ stack (i + d) hne hhead _ hget
    rw [hstep, htake, List.foldl_append, ← ih hlt2]
    rfl

theorem checkSnapAt_congr (L M : List HistoryRecord) (i l : Nat)
    (h : L.take (i + 1) = M.take (i + 1)) (hl : l ≤ i) :
    checkSnapAt L l = checkSnapAt M l := by
  unfold checkSnapAt
  have hL : (L.take (i + 1))[l]? = L[l]? := by
    rw [List.getElem?_take, if_pos (by omega)]
  have hM : (M.take (i + 1))[l]? = M[l]? := by
    rw [List.getElem?_take, if_pos (by omega)]
  rw [show L[l]? = M[l]? by rw [← hL, h, hM]]

theorem lastSnapAt_congr (L M : List HistoryRecord) (i : Nat)
    (h : L.take (i + 1) = M.take (i + 1)) :
    ∀ l, l ≤ i → lastSnapAt L l = lastSnapAt M l := by
  intro l
  induction l with
  | zero =>
    intro hl
    exact checkSnapAt_congr L M i 0 h (Nat.zero_le i)
  | succ l ih =>
    intro hl
    unfold lastSnapAt
    rw [checkSnapAt_congr L M i (l+1) h hl, ih (by omega)]

/-- Materialization only looks at the prefix of the log up to the index. -/
theorem matAt_congr (L M : List HistoryRecord) (i : Nat)
    (h : L.take (i + 1) = M.take (i + 1)) : matAt L i = matAt M i := by
  unfold matAt
  rw [lastSnapAt_congr L M i h i (Nat.le_refl i), h]

/-! ### Compaction: structure and reconstruction equivalence -/

theorem compressHistory_of_lt (s : HistoryState) (t : Nat)
    (h : s.stack.length < s.compressThreshold) : compressHistory s t = s := by
  unfold compressHistory
  rw [if_pos h]

theorem compressHistory_eq (s : HistoryState) (t : Nat)
    (hguard : ¬ s.stack.length < s.compressThreshold) :
    compressHistory s t =
      { s with
        stack := HistoryRecord.snap
            (compressBase s (s.stack.length - (s.maxSize + 1) / 2))
            ((compressBase s (s.stack.length - (s.maxSize + 1) / 2)).map (·.id))
            "compressed" t
          :: s.stack.drop (s.stack.length - (s.maxSize + 1) / 2),
        index := s.index - (((s.stack.length - (s.maxSize + 1) / 2 : Nat) : Int) - 1) } := by
  unfold compressHistory
  rw [if_neg hguard]

theorem compressHistory_others (s : HistoryState) (t : Nat) :
    (compressHistory s t).fullSnapshot = s.fullSnapshot ∧
    (compressHistory s t).maxSize = s.maxSize ∧
    (compressHistory s t).compressThreshold = s.compressThreshold ∧
    (compressHistory s t).batchDepth = s.batchDepth ∧
    (compressHistory s t).pendingRecord = s.pendingRecord := by
  unfold compressHistory
  split
  · exact ⟨rfl, rfl, rfl, rfl, rfl⟩
  · exact ⟨rfl, rfl, rfl, rfl, rfl⟩

/-- Under the head-snapshot invariant the fallback branch of the snapshot
search is dead: the merged base is exactly the materialization at index
`removeCount - 1`. -/
theorem compressBase_eq_matAt (s : HistoryState) (rc : Nat)
    (hne : s.stack ≠ []) (hhead : headSnap s.stack) (hrc : rc ≠ 0) :
    compressBase s rc = matAt s.stack (rc - 1) := by
  obtain ⟨j, c, hj⟩ := lastSnapAt_isSome s.stack hne hhead (rc - 1)
  have hm : matAt s.stack (rc - 1) = applyRecs c ((s.stack.take (rc - 1 + 1)).drop (j + 1)) := by
    unfold matAt
    rw [hj]
  unfold compressBase compressSeed
  rw [if_neg hrc, hj, hm, Nat.sub_add_cancel (Nat.one_le_iff_ne_zero.2 hrc)]

theorem applyDiffRecord_normColl (b : List Elem) (ch : List (Option String × Change)) :
    applyDiffRecord (normColl b) ch = applyDiffRecord b ch := by
  unfold applyDiffRecord
  rw [normColl_idem]

theorem stepRec_normColl (b : List Elem) (r : HistoryRecord) :
    stepRec (normColl b) r = stepRec b r := by
  cases r with
  | snap content ids d t => rfl
  | diff ch ids d t => exact applyDiffRecord_normColl b ch

theorem foldl_stepRec_normColl (xs : List HistoryRecord) (b : List Elem) (hxs : xs ≠ []) :
    xs.foldl stepRec (normColl b) = xs.foldl stepRec b := by
  cases xs with
  | nil => exact absurd rfl hxs
  | cons x rest =>
    show rest.foldl stepRec (stepRec (normColl b) x) = rest.foldl stepRec (stepRec b x)
    rw [stepRec_normColl]

/-- Reconstruction equivalence of compaction: for every surviving index the
materialized collection is preserved, JSON-structurally in general and
verbatim strictly above the merge point. -/
theorem matAt_compress (s : HistoryState) (t : Nat) (i : Nat)
    (hguard : ¬ s.stack.length < s.compressThreshold)
    (hne : s.stack ≠ []) (hhead : headSnap s.stack)
    (hrc : s.stack.length - (s.maxSize + 1) / 2 ≠ 0)
    (hlow : s.stack.length - (s.maxSize + 1) / 2 - 1 ≤ i)
    (hhigh : i < s.stack.length) :
    (normColl (matAt s.stack i)
      = normColl (matAt (compressHistory s t).stack
          (i - (s.stack.length - (s.maxSize + 1) / 2 - 1)))) ∧
    (s.stack.length - (s.maxSize + 1) / 2 ≤ i →
      matAt s.stack i
        = matAt (compressHistory s t).stack
            (i - (s.stack.length - (s.maxSize + 1) / 2 - 1))) := by
  have hcs : (compressHistory s t).stack =
      HistoryRecord.snap (compressBase s (s.stack.length - (s.maxSize + 1) / 2))
          ((compressBase s (s.stack.length - (s.maxSize + 1) / 2)).map (·.id))
          "compressed" t
        :: s.stack.drop (s.stack.length - (s.maxSize + 1) / 2) := by
    rw [compressHistory_eq s t hguard]
  rw [hcs]
  have hbase : compressBase s (s.stack.length - (s.maxSize + 1) / 2)
      = matAt s.stack (s.stack.length - (s.maxSize + 1) / 2 - 1) :=
    compressBase_eq_matAt s _ hne hhead hrc
  obtain ⟨d, hd⟩ : ∃ d, i = (s.stack.length - (s.maxSize + 1) / 2 - 1) + d :=
    ⟨i - (s.stack.length - (s.maxSize + 1) / 2 - 1), by omega⟩
  subst hd
  have hsub : (s.stack.length - (s.maxSize + 1) / 2 - 1) + d
      - (s.stack.length - (s.maxSize + 1) / 2 - 1) = d := by omega
  rw [hsub]
  have hold : matAt s.stack ((s.stack.length - (s.maxSize + 1) / 2 - 1) + d)
      = ((s.stack.drop (s.stack.length - (s.maxSize + 1) / 2)).take d).foldl stepRec
          (matAt s.stack (s.stack.length - (s.maxSize + 1) / 2 - 1)) := by
    have := matAt_chain s.stack hne hhead (s.stack.length - (s.maxSize + 1) / 2 - 1) d hhigh
    rw [this, Nat.sub_add_cancel (Nat.one_le_iff_ne_zero.2 hrc)]
  set L2 := HistoryRecord.snap (compressBase s (s.stack.length - (s.maxSize + 1) / 2))
      ((compressBase s (s.stack.length - (s.maxSize + 1) / 2)).map (·.id))
      "compressed" t
    :: s.stack.drop (s.stack.length - (s.maxSize + 1) / 2) with hL2
  have hL2ne : L2 ≠ [] := by simp [hL2]
  have hL2head : headSnap L2 := by
    intro r hr
    rw [hL2] at hr
    simp only [List.head?_cons, Option.some_inj] at hr
    subst hr
    rfl
  have hL2zero : matAt L2 0
      = normColl (compressBase s (s.stack.length - (s.maxSize + 1) / 2)) := by
    refine matAt_here L2 0 (compressBase s (s.stack.length - (s.maxSize + 1) / 2))
      ((compressBase s (s.stack.length - (s.maxSize + 1) / 2)).map (·.id)) "compressed" t ?_
    rw [hL2]
    simp
  have hL2len : d < L2.length := by
    rw [hL2]
    simp only [List.length_cons, List.length_drop]
    omega
  have hnew : matAt L2 d
      = ((s.stack.drop (s.stack.length - (s.maxSize + 1) / 2)).take d).foldl stepRec
          (normColl (matAt s.stack (s.stack.length - (s.maxSize + 1) / 2 - 1))) := by
    have hchain := matAt_chain L2 hL2ne hL2head 0 d (by simpa using hL2len)
    have hdrop : L2.drop 1 = s.stack.drop (s.stack.length - (s.maxSize + 1) / 2) := by
      rw [hL2]
      rfl
    simp only [Nat.zero_add] at hchain
    rw [hchain, hdrop, hL2zero, hbase]
  constructor
  · cases Nat.eq_zero_or_pos d with
    | inl hzero =>
      subst hzero
      rw [hold, hnew]
      show normColl (matAt s.stack _) = normColl (normColl (matAt s.stack _))
      rw [normColl_idem]
    | inr hpos =>
      have hxs : (s.stack.drop (s.stack.length - (s.maxSize + 1) / 2)).take d ≠ [] := by
        have : 0 < ((s.stack.drop (s.stack.length - (s.maxSize + 1) / 2)).take d).length := by
          rw [List.length_take, List.length_drop]
          omega
        exact List.ne_nil_of_length_pos this
      rw [hold, hnew, foldl_stepRec_normColl _ _ hxs]
  · intro hge
    have hpos : 0 < d := by omega
    have hxs : (s.stack.drop (s.stack.length - (s.maxSize + 1) / 2)).take d ≠ [] := by
      have : 0 < ((s.stack.drop (s.stack.length - (s.maxSize + 1) / 2)).take d).length := by
        rw [List.length_take, List.length_drop]
        omega
      exact List.ne_nil_of_length_pos this
    rw [hold, hnew, foldl_stepRec_normColl _ _ hxs]


/-! ### Well-formedness of the log and the store invariant -/

/-- All elements stored inside a log record are JS-representable. -/
def RecWF : HistoryRecord → Prop
  | .snap content _ _ _ => CollWF content
  | .diff ch _ _ _ => ChangesWF ch

/-- All records of the log are well formed. -/
def StackWF (stack : List HistoryRecord) : Prop := ∀ r ∈ stack, RecWF r

theorem CollWF_applyRecs (base : List Elem) (recs : List HistoryRecord)
    (hb : CollWF base) (hr : ∀ r ∈ recs, RecWF r) : CollWF (applyRecs base recs) := by
  induction recs generalizing base with
  | nil => exact hb
  | cons r rest ih =>
    have hr0 : RecWF r := hr r (List.mem_cons_self _ _)
    have hrest : ∀ x ∈ rest, RecWF x := fun x hx => hr x (List.mem_cons_of_mem _ hx)
    cases r with
    | snap content ids d t => exact ih _ hb hrest
    | diff ch ids d t =>
      exact ih _ (CollWF_applyDiffRecord base ch hb hr0) hrest

theorem CollWF_matAt (stack : List HistoryRecord) (i : Nat) (hs : StackWF stack) :
    CollWF (matAt stack i) := by
  unfold matAt
  cases hj : lastSnapAt stack i with
  | none =>
    intro e he
    simp at he
  | some jc =>
    obtain ⟨j, c⟩ := jc
    obtain ⟨-, content, ids, d, t, hget, hc⟩ :=
      checkSnapAt_some stack j j c (lastSnapAt_checkSnapAt stack i j c hj)
    subst hc
    refine CollWF_applyRecs _ _ ?_ ?_
    · have hmem : HistoryRecord.snap content ids d t ∈ stack := by
        obtain ⟨hji, hval⟩ := List.getElem?_eq_some_iff.1 hget
        rw [← hval]
        exact List.getElem_mem _
      exact CollWF_normColl content (hs _ hmem)
    · intro r hrm
      exact hs r (List.mem_of_mem_take (List.mem_of_mem_drop hrm))

theorem CollWF_rebuild (s : HistoryState) (hs : StackWF s.stack) :
    CollWF (rebuildFullSnapshot s) := by
  unfold rebuildFullSnapshot
  split
  · intro e he
    simp at he
  · exact CollWF_matAt _ _ hs

/-! ### Shape of `truncAppend` -/

theorem truncAppend_index (s : HistoryState) (r : HistoryRecord) :
    (truncAppend s r).index = s.index + 1 := rfl

theorem truncAppend_others (s : HistoryState) (r : HistoryRecord) :
    (truncAppend s r).fullSnapshot = s.fullSnapshot ∧
    (truncAppend s r).maxSize = s.maxSize ∧
    (truncAppend s r).compressThreshold = s.compressThreshold ∧
    (truncAppend s r).batchDepth = s.batchDepth ∧
    (truncAppend s r).pendingRecord = s.pendingRecord :=
  ⟨rfl, rfl, rfl, rfl, rfl⟩

theorem truncAppend_stack (s : HistoryState) (r : HistoryRecord)
    (hub : s.index < (s.stack.length : Int)) :
    (truncAppend s r).stack = s.stack.take (s.index + 1).toNat ++ [r] := by
  unfold truncAppend
  by_cases h : s.index < (s.stack.length : Int) - 1
  · rw [if_pos h]
  · rw [if_neg h]
    have hlen : s.stack.length ≤ (s.index + 1).toNat := by omega
    rw [List.take_of_length_le hlen]

theorem truncAppend_stack_length (s : HistoryState) (r : HistoryRecord)
    (hlb : -1 ≤ s.index) (hub : s.index < (s.stack.length : Int)) :
    ((truncAppend s r).stack.length : Int) = s.index + 2 := by
  rw [truncAppend_stack s r hub]
  rw [List.length_append, List.length_take]
  have : min (s.index + 1).toNat s.stack.length = (s.index + 1).toNat := by omega
  rw [this]
  simp
  omega


/-! ### The store invariant -/

/-- Invariant of all reachable store states: default configuration, a cursor
inside bounds, a snapshot at the head of the log, representable stored data,
a pending record only inside a batch, and a cache that denotes the same
id-keyed contents as the reconstruction at the cursor. -/
structure Inv (s : HistoryState) : Prop where
  hmax : s.maxSize = 200
  hthr : s.compressThreshold = 100
  hlb : -1 ≤ s.index
  hub : s.index < (s.stack.length : Int)
  hhead : headSnap s.stack
  hwf : StackWF s.stack
  hfullwf : ∀ fs ∈ s.fullSnapshot, CollWF fs
  hpendwf : ∀ r ∈ s.pendingRecord, RecWF r
  hpendidx : ∀ r ∈ s.pendingRecord, isSnapshot r = false → 0 ≤ s.index
  hpendbatch : s.batchDepth = 0 → s.pendingRecord = none
  hcache : ∀ fs ∈ s.fullSnapshot, collEquiv fs (rebuildFullSnapshot s)

theorem Inv_initState : Inv initState := by
  refine ⟨rfl, rfl, by norm_num [initState], by norm_num [initState], ?_, ?_, ?_, ?_, ?_, ?_, ?_⟩
  · intro r hr
    simp [initState] at hr
  · intro r hr
    simp [initState] at hr
  · intro fs hfs
    simp [initState] at hfs
  · intro r hr
    simp [initState] at hr
  · intro r hr
    simp [initState] at hr
  · intro h
    rfl
  · intro fs hfs
    simp [initState] at hfs

theorem Inv_clearHistory (s : HistoryState) (inv : Inv s) : Inv (clearHistory s) := by
  refine ⟨inv.hmax, inv.hthr, by norm_num [clearHistory], by norm_num [clearHistory],
    ?_, ?_, ?_, ?_, ?_, ?_, ?_⟩
  · intro r hr
    simp [clearHistory] at hr
  · intro r hr
    simp [clearHistory] at hr
  · intro fs hfs
    simp [clearHistory] at hfs
  · intro r hr
    simp [clearHistory] at hr
  · intro r hr
    simp [clearHistory] at hr
  · intro h
    rfl
  · intro fs hfs
    simp [clearHistory] at hfs

theorem Inv_beginBatch (s : HistoryState) (inv : Inv s) : Inv (beginBatch s) := by
  have hstack : (beginBatch s).stack = s.stack := rfl
  have hidx : (beginBatch s).index = s.index := rfl
  have hfs : (beginBatch s).fullSnapshot = s.fullSnapshot := rfl
  refine ⟨inv.hmax, inv.hthr, ?_, ?_, ?_, ?_, ?_, ?_, ?_, ?_, ?_⟩
  · rw [hidx]
    exact inv.hlb
  · rw [hidx, hstack]
    exact inv.hub
  · rw [hstack]
    exact inv.hhead
  · rw [hstack]
    exact inv.hwf
  · rw [hfs]
    exact inv.hfullwf
  · show ∀ r ∈ (if s.batchDepth = 0 then none else s.pendingRecord), RecWF r
    split
    · intro r hr
      simp at hr
    · exact inv.hpendwf
  · show ∀ r ∈ (if s.batchDepth = 0 then none else s.pendingRecord),
      isSnapshot r = false → 0 ≤ (beginBatch s).index
    split
    · intro r hr
      simp at hr
    · exact inv.hpendidx
  · intro h
    exact absurd h (by simp [beginBatch])
  · rw [hfs]
    intro fs hfs2
    have := inv.hcache fs hfs2
    have hreb : rebuildFullSnapshot (beginBatch s) = rebuildFullSnapshot s := rfl
    rw [hreb]
    exact this

theorem rebuild_set_index (s : HistoryState) (i : Int) :
    rebuildFullSnapshot { s with index := i, fullSnapshot := s.fullSnapshot } =
      rebuildFullSnapshot { s with index := i } := rfl

theorem undo_noop (s : HistoryState) (h : s.index ≤ 0) : (undo s).1 = s := by
  unfold undo
  rw [if_pos h]

theorem undo_fst (s : HistoryState) (h : ¬ s.index ≤ 0) :
    (undo s).1 = { s with
      index := s.index - 1,
      fullSnapshot := some (rebuildFullSnapshot { s with index := s.index - 1 }) } := by
  unfold undo
  rw [if_neg h]
  cases stackGet s.stack s.index <;> rfl

theorem redo_noop (s : HistoryState) (h : (s.stack.length : Int) - 1 ≤ s.index) :
    (redo s).1 = s := by
  unfold redo
  rw [if_pos h]

theorem redo_fst (s : HistoryState) (h : ¬ (s.stack.length : Int) - 1 ≤ s.index) :
    (redo s).1 = { s with
      index := s.index + 1,
      fullSnapshot := some (rebuildFullSnapshot { s with index := s.index + 1 }) } := by
  unfold redo
  rw [if_neg h]
  cases h2 : stackGet s.stack (s.index + 1) <;> simp [h2]

theorem Inv_undo (s : HistoryState) (inv : Inv s) : Inv (undo s).1 := by
  by_cases h : s.index ≤ 0
  · rw [undo_noop s h]
    exact inv
  · rw [undo_fst s h]
    set s1 : HistoryState := { s with index := s.index - 1 } with hs1
    have hwf1 : StackWF s1.stack := inv.hwf
    refine ⟨inv.hmax, inv.hthr, by show -1 ≤ s.index - 1; omega,
      by show s.index - 1 < (s.stack.length : Int); have := inv.hub; omega,
      inv.hhead, inv.hwf, ?_, inv.hpendwf, ?_, ?_, ?_⟩
    · intro fs hfs
      simp only [Option.mem_def, Option.some_inj] at hfs
      subst hfs
      exact CollWF_rebuild s1 hwf1
    · intro r hr hsnap
      show 0 ≤ s.index - 1
      omega
    · intro hb
      exact inv.hpendbatch hb
    · intro fs hfs
      simp only [Option.mem_def, Option.some_inj] at hfs
      subst hfs
      show collEquiv (rebuildFullSnapshot s1) (rebuildFullSnapshot _)
      exact collEquiv_refl _

theorem Inv_redo (s : HistoryState) (inv : Inv s) : Inv (redo s).1 := by
  by_cases h : (s.stack.length : Int) - 1 ≤ s.index
  · rw [redo_noop s h]
    exact inv
  · rw [redo_fst s h]
    set s1 : HistoryState := { s with index := s.index + 1 } with hs1
    have hwf1 : StackWF s1.stack := inv.hwf
    refine ⟨inv.hmax, inv.hthr, by show -1 ≤ s.index + 1; have := inv.hlb; omega,
      by show s.index + 1 < (s.stack.length : Int); omega,
      inv.hhead, inv.hwf, ?_, inv.hpendwf, ?_, ?_, ?_⟩
    · intro fs hfs
      simp only [Option.mem_def, Option.some_inj] at hfs
      subst hfs
      exact CollWF_rebuild s1 hwf1
    · intro r hr hsnap
      show 0 ≤ s.index + 1
      have := inv.hlb
      omega
    · intro hb
      exact inv.hpendbatch hb
    · intro fs hfs
      simp only [Option.mem_def, Option.some_inj] at hfs
      subst hfs
      show collEquiv (rebuildFullSnapshot s1) (rebuildFullSnapshot _)
      exact collEquiv_refl _


theorem rebuild_eq_matAt (s : HistoryState) (h : 0 ≤ s.index) :
    rebuildFullSnapshot s = matAt s.stack s.index.toNat := by
  unfold rebuildFullSnapshot
  rw [if_neg (by omega)]

/-- Compaction invoked at a cursor sitting on the last entry (the only way
the source ever invokes it) preserves the invariant; in particular the
reconstruction at the cursor is preserved verbatim. -/
theorem Inv_compressHistory (s : HistoryState) (t : Nat) (inv : Inv s)
    (htop : s.index = (s.stack.length : Int) - 1)
    (hlen : s.compressThreshold < s.stack.length) :
    Inv (compressHistory s t) := by
  have hguard : ¬ s.stack.length < s.compressThreshold := by omega
  have hne : s.stack ≠ [] := by
    intro hcon
    rw [hcon] at hlen
    simp at hlen
  have hdiv : (200 + 1) / 2 = 100 := by norm_num
  have hlen100 : 100 < s.stack.length := by
    have := inv.hthr
    omega
  have hrc : s.stack.length - (s.maxSize + 1) / 2 ≠ 0 := by
    rw [inv.hmax, hdiv]
    omega
  have hRval : s.stack.length - (s.maxSize + 1) / 2 = s.stack.length - 100 := by
    rw [inv.hmax, hdiv]
  have hspec := compressHistory_eq s t hguard
  have hothers := compressHistory_others s t
  have hbase : compressBase s (s.stack.length - (s.maxSize + 1) / 2)
      = matAt s.stack (s.stack.length - (s.maxSize + 1) / 2 - 1) :=
    compressBase_eq_matAt s _ hne inv.hhead hrc
  have hstack : (compressHistory s t).stack
      = HistoryRecord.snap (compressBase s (s.stack.length - (s.maxSize + 1) / 2))
          ((compressBase s (s.stack.length - (s.maxSize + 1) / 2)).map (·.id))
          "compressed" t
        :: s.stack.drop (s.stack.length - (s.maxSize + 1) / 2) := by
    rw [hspec]
  have hindex : (compressHistory s t).index
      = s.index - (((s.stack.length - (s.maxSize + 1) / 2 : Nat) : Int) - 1) := by
    rw [hspec]
  have hlength : (compressHistory s t).stack.length
      = 1 + (s.stack.length - (s.stack.length - (s.maxSize + 1) / 2)) := by
    rw [hstack]
    simp only [List.length_cons, List.length_drop]
    omega
  have hidxval : (compressHistory s t).index = ((100 : Nat) : Int) := by
    rw [hindex, hRval, htop]
    have : ((s.stack.length - 100 : Nat) : Int) = (s.stack.length : Int) - 100 := by omega
    rw [this]
    omega
  refine ⟨?_, ?_, ?_, ?_, ?_, ?_, ?_, ?_, ?_, ?_, ?_⟩
  · rw [hothers.2.1]
    exact inv.hmax
  · rw [hothers.2.2.1]
    exact inv.hthr
  · rw [hidxval]
    omega
  · rw [hidxval, hlength, hRval]
    have : s.stack.length - (s.stack.length - 100) = 100 := by omega
    rw [this]
    omega
  · intro r hr
    rw [hstack] at hr
    simp only [List.head?_cons, Option.some_inj] at hr
    subst hr
    rfl
  · intro r hr
    rw [hstack] at hr
    rcases List.mem_cons.1 hr with rfl | hr
    · show CollWF _
      rw [hbase]
      exact CollWF_matAt _ _ inv.hwf
    · exact inv.hwf r (List.mem_of_mem_drop hr)
  · rw [hothers.1]
    exact inv.hfullwf
  · rw [hothers.2.2.2.2]
    exact inv.hpendwf
  · intro r hr hsnap
    rw [hidxval]
    omega
  · intro hb
    rw [hothers.2.2.2.2]
    refine inv.hpendbatch ?_
    rw [← hothers.2.2.2.1]
    exact hb
  · rw [hothers.1]
    intro fs hfs
    have hold := inv.hcache fs hfs
    have h1 : rebuildFullSnapshot s = matAt s.stack (s.stack.length - 1) := by
      rw [rebuild_eq_matAt s (by omega)]
      congr 1
      omega
    have hmc := (matAt_compress s t (s.stack.length - 1) hguard hne inv.hhead hrc
      (by omega) (by omega)).2 (by rw [hRval]; omega)
    have h2 : rebuildFullSnapshot (compressHistory s t)
        = matAt (compressHistory s t).stack
            (s.stack.length - 1 - (s.stack.length - (s.maxSize + 1) / 2 - 1)) := by
      rw [rebuild_eq_matAt (compressHistory s t) (by rw [hidxval]; omega)]
      congr 1
      rw [hidxval, hRval]
      omega
    rw [h2, ← hmc, ← h1]
    exact hold


/-! ### Appending a record: effect on the head, well-formedness, rebuild -/

theorem headSnap_append (s : HistoryState) (r : HistoryRecord)
    (hub : s.index < (s.stack.length : Int))
    (hempty : s.index < 0 → isSnapshot r = true)
    (hhead : headSnap s.stack) :
    headSnap (s.stack.take (s.index + 1).toNat ++ [r]) := by
  intro x hx
  by_cases hidx : s.index < 0
  · have h0 : (s.index + 1).toNat = 0 := by omega
    rw [h0] at hx
    simp only [List.take_zero, List.nil_append, List.head?_cons, Option.some_inj] at hx
    subst hx
    exact hempty hidx
  · have hlen : 1 ≤ s.stack.length := by omega
    cases hstk : s.stack with
    | nil =>
      rw [hstk] at hlen
      simp at hlen
    | cons y rest =>
      have h1 : 1 ≤ (s.index + 1).toNat := by omega
      obtain ⟨n, hn⟩ : ∃ n, (s.index + 1).toNat = n + 1 := ⟨(s.index + 1).toNat - 1, by omega⟩
      rw [hstk, hn] at hx
      simp only [List.take_succ_cons, List.cons_append, List.head?_cons, Option.some_inj] at hx
      subst hx
      apply hhead
      rw [hstk]
      rfl

theorem StackWF_append (s : HistoryState) (r : HistoryRecord) (n : Nat)
    (hwf : StackWF s.stack) (hr : RecWF r) : StackWF (s.stack.take n ++ [r]) := by
  intro x hx
  rcases List.mem_append.1 hx with hx | hx
  · exact hwf x (List.mem_of_mem_take hx)
  · rw [List.mem_singleton] at hx
    subst hx
    exact hr

theorem appended_getLast (s : HistoryState) (r : HistoryRecord)
    (hlb : -1 ≤ s.index) (hub : s.index < (s.stack.length : Int)) :
    (s.stack.take (s.index + 1).toNat ++ [r])[(s.index + 1).toNat]? = some r := by
  have hlen : (s.stack.take (s.index + 1).toNat).length = (s.index + 1).toNat := by
    rw [List.length_take]
    omega
  have h2 := List.getElem?_concat_length (s.stack.take (s.index + 1).toNat) r
  rw [hlen] at h2
  exact h2

theorem appended_take (s : HistoryState) (r : HistoryRecord)
    (hlb : -1 ≤ s.index) (hub : s.index < (s.stack.length : Int)) :
    (s.stack.take (s.index + 1).toNat ++ [r]).take (s.index + 1).toNat
      = s.stack.take (s.index + 1).toNat := by
  have hlen : (s.stack.take (s.index + 1).toNat).length = (s.index + 1).toNat := by
    rw [List.length_take]
    omega
  rw [List.take_append_eq_append_take, List.take_take]
  simp [hlen]

/-- Appending a fresh diff record puts the reconstruction at the new cursor
into step with the reconstruction at the old cursor. -/
theorem matAt_append_diff (s : HistoryState)
    (ch : List (Option String × Change)) (ids : List (Option String)) (d : String) (t : Nat)
    (h0 : 0 ≤ s.index) (hub : s.index < (s.stack.length : Int))
    (hhead : headSnap s.stack) :
    matAt (s.stack.take (s.index + 1).toNat ++ [.diff ch ids d t]) (s.index + 1).toNat
      = applyDiffRecord (rebuildFullSnapshot s) ch := by
  have htn : (s.index + 1).toNat = s.index.toNat + 1 := by omega
  have hlb : -1 ≤ s.index := by omega
  rw [htn]
  have hne2 : s.stack.take (s.index.toNat + 1) ++ [HistoryRecord.diff ch ids d t] ≠ [] := by
    simp
  have hhead2 : headSnap (s.stack.take (s.index.toNat + 1) ++ [HistoryRecord.diff ch ids d t]) := by
    have h2 := headSnap_append s (.diff ch ids d t) hub (by omega) hhead
    rw [htn] at h2
    exact h2
  have hget : (s.stack.take (s.index.toNat + 1)
      ++ [HistoryRecord.diff ch ids d t])[s.index.toNat + 1]? = some (.diff ch ids d t) := by
    have h2 := appended_getLast s (.diff ch ids d t) hlb hub
    rw [htn] at h2
    exact h2
  rw [matAt_succ_diff _ s.index.toNat hne2 hhead2 ch ids d t hget]
  have hcongr : matAt (s.stack.take (s.index.toNat + 1) ++ [HistoryRecord.diff ch ids d t]) s.index.toNat
      = matAt s.stack s.index.toNat := by
    apply matAt_congr
    have happ := appended_take s (.diff ch ids d t) hlb hub
    rw [htn] at happ
    rw [happ]
  rw [hcongr, rebuild_eq_matAt s h0]


/-! ### Invariant preservation of push and batch commit -/

/-- The state obtained by appending a record and setting the cache. -/
theorem Inv_appended (s : HistoryState) (r : HistoryRecord) (newFull : List Elem)
    (inv : Inv s)
    (hr : RecWF r)
    (hempty : s.index < 0 → isSnapshot r = true)
    (hnf : CollWF newFull)
    (hcacheEq : collEquiv newFull
      (rebuildFullSnapshot { truncAppend s r with fullSnapshot := some newFull })) :
    Inv { truncAppend s r with fullSnapshot := some newFull } := by
  have hstack : ({ truncAppend s r with fullSnapshot := some newFull }).stack
      = s.stack.take (s.index + 1).toNat ++ [r] := truncAppend_stack s r inv.hub
  have hidx : ({ truncAppend s r with fullSnapshot := some newFull }).index = s.index + 1 := rfl
  have hlens : (({ truncAppend s r with fullSnapshot := some newFull }).stack.length : Int)
      = s.index + 2 := by
    show ((truncAppend s r).stack.length : Int) = _
    exact truncAppend_stack_length s r inv.hlb inv.hub
  refine ⟨inv.hmax, inv.hthr, ?_, ?_, ?_, ?_, ?_, ?_, ?_, ?_, ?_⟩
  · rw [hidx]
    have := inv.hlb
    omega
  · rw [hidx, hlens]
    omega
  · rw [hstack]
    exact headSnap_append s r inv.hub hempty inv.hhead
  · rw [hstack]
    exact StackWF_append s r _ inv.hwf hr
  · intro fs hfs
    simp only [Option.mem_def, Option.some_inj] at hfs
    subst hfs
    exact hnf
  · intro x hx
    exact inv.hpendwf x hx
  · intro x hx hxs
    rw [hidx]
    have := inv.hlb
    omega
  · intro hb
    exact inv.hpendbatch hb
  · intro fs hfs
    simp only [Option.mem_def, Option.some_inj] at hfs
    subst hfs
    exact hcacheEq

/-- The compress-or-not tail shared by `pushRecord` and `endBatch`. -/
theorem Inv_compressIf (s2 : HistoryState) (t : Nat) (inv2 : Inv s2)
    (htop : s2.index = (s2.stack.length : Int) - 1) :
    Inv (if s2.compressThreshold < s2.stack.length then compressHistory s2 t else s2) := by
  by_cases hc : s2.compressThreshold < s2.stack.length
  · rw [if_pos hc]
    exact Inv_compressHistory s2 t inv2 htop hc
  · rw [if_neg hc]
    exact inv2

theorem Inv_pushRecord (s : HistoryState) (r : HistoryRecord) (newFull : List Elem) (t : Nat)
    (inv : Inv s)
    (hr : RecWF r)
    (hempty : s.index < 0 → isSnapshot r = true)
    (hrsnap : isSnapshot r = false → 0 ≤ s.index)
    (hnf : CollWF newFull)
    (hcacheEq : s.batchDepth = 0 → collEquiv newFull
      (rebuildFullSnapshot { truncAppend s r with fullSnapshot := some newFull })) :
    Inv (pushRecord s r newFull t) := by
  unfold pushRecord
  by_cases hb : 0 < s.batchDepth
  · rw [if_pos hb]
    refine ⟨inv.hmax, inv.hthr, inv.hlb, inv.hub, inv.hhead, inv.hwf, inv.hfullwf, ?_, ?_, ?_, ?_⟩
    · intro x hx
      simp only [Option.mem_def, Option.some_inj] at hx
      subst hx
      exact hr
    · intro x hx hxs
      simp only [Option.mem_def, Option.some_inj] at hx
      subst hx
      exact hrsnap hxs
    · intro h0
      have h0b : s.batchDepth = 0 := h0
      exact absurd h0b (by omega)
    · exact inv.hcache
  · rw [if_neg hb]
    have hb0 : s.batchDepth = 0 := by omega
    have inv2 : Inv { truncAppend s r with fullSnapshot := some newFull } :=
      Inv_appended s r newFull inv hr hempty hnf (hcacheEq hb0)
    have htop : ({ truncAppend s r with fullSnapshot := some newFull }).index
        = (({ truncAppend s r with fullSnapshot := some newFull }).stack.length : Int) - 1 := by
      show (truncAppend s r).index = ((truncAppend s r).stack.length : Int) - 1
      rw [truncAppend_index, truncAppend_stack_length s r inv.hlb inv.hub]
      omega
    have hsame : (if s.compressThreshold < (truncAppend s r).stack.length then
        compressHistory { truncAppend s r with fullSnapshot := some newFull } t
      else { truncAppend s r with fullSnapshot := some newFull })
      = (if ({ truncAppend s r with fullSnapshot := some newFull }).compressThreshold
            < ({ truncAppend s r with fullSnapshot := some newFull }).stack.length then
          compressHistory { truncAppend s r with fullSnapshot := some newFull } t
        else { truncAppend s r with fullSnapshot := some newFull }) := rfl
    rw [hsame]
    exact Inv_compressIf _ t inv2 htop

/-- Invariant preservation by `pushSnapshot`. -/
theorem Inv_pushSnapshot (s : HistoryState) (c : List Elem) (d : String) (t : Nat)
    (inv : Inv s) (hc : CollWF c) : Inv (pushSnapshot s c d t) := by
  unfold pushSnapshot
  by_cases hneg : s.index < 0
  · rw [if_pos hneg]
    have hlb := inv.hlb
    have h00 : (s.index + 1).toNat = 0 := by omega
    refine Inv_pushRecord s _ _ t inv ?_ ?_ ?_ ?_ ?_
    · exact CollWF_normColl c hc
    · intro h
      rfl
    · intro h
      simp [isSnapshot] at h
    · exact CollWF_normColl c hc
    · intro hb0
      have hstk1 : ({ truncAppend s (HistoryRecord.snap (normColl c) (c.map (fun e : Elem => e.id)) d t) with
          fullSnapshot := some (normColl c) }).stack
          = [HistoryRecord.snap (normColl c) (c.map (fun e : Elem => e.id)) d t] := by
        show (truncAppend s (HistoryRecord.snap (normColl c) (c.map (fun e : Elem => e.id)) d t)).stack
          = [HistoryRecord.snap (normColl c) (c.map (fun e : Elem => e.id)) d t]
        rw [truncAppend_stack _ _ inv.hub, h00, List.take_zero, List.nil_append]
      have hidx1 : ({ truncAppend s (HistoryRecord.snap (normColl c) (c.map (fun e : Elem => e.id)) d t) with
          fullSnapshot := some (normColl c) }).index = s.index + 1 := rfl
      have hreb := rebuild_eq_matAt
        { truncAppend s (HistoryRecord.snap (normColl c) (c.map (fun e : Elem => e.id)) d t) with
          fullSnapshot := some (normColl c) }
        (by show (0:Int) ≤ s.index + 1
            omega)
      have hmat := matAt_here [HistoryRecord.snap (normColl c) (c.map (fun e : Elem => e.id)) d t] 0
        (normColl c) (c.map (fun e : Elem => e.id)) d t (by simp)
      rw [hreb, hstk1, hidx1, h00, hmat, normColl_idem]
      exact collEquiv_refl _
  · rw [if_neg hneg]
    by_cases heq : normColl (s.fullSnapshot.getD (rebuildFullSnapshot s)) = normColl c
    · rw [if_pos heq]
      exact inv
    · rw [if_neg heq]
      have h0 : (0:Int) ≤ s.index := by omega
      have hbwf : CollWF (s.fullSnapshot.getD (rebuildFullSnapshot s)) := by
        cases hfs : s.fullSnapshot with
        | none => exact CollWF_rebuild s inv.hwf
        | some fs => exact inv.hfullwf fs hfs
      refine Inv_pushRecord s _ _ t inv ?_ ?_ ?_ ?_ ?_
      · exact ChangesWF_diffPasses _ _ hbwf (CollWF_normColl c hc)
      · intro h
        exact absurd h hneg
      · intro h
        omega
      · exact CollWF_normColl c hc
      · intro hb0
        have hmad := matAt_append_diff s
          (diffPasses (s.fullSnapshot.getD (rebuildFullSnapshot s)) (normColl c)).1
          (diffPasses (s.fullSnapshot.getD (rebuildFullSnapshot s)) (normColl c)).2 d t
          h0 inv.hub inv.hhead
        have hstk3 : ({ truncAppend s
            (generateDiffRecord (s.fullSnapshot.getD (rebuildFullSnapshot s)) (normColl c) d t) with
            fullSnapshot := some (normColl c) }).stack
            = s.stack.take (s.index + 1).toNat
              ++ [HistoryRecord.diff
                   (diffPasses (s.fullSnapshot.getD (rebuildFullSnapshot s)) (normColl c)).1
                   (diffPasses (s.fullSnapshot.getD (rebuildFullSnapshot s)) (normColl c)).2 d t] := by
          show (truncAppend s
            (generateDiffRecord (s.fullSnapshot.getD (rebuildFullSnapshot s)) (normColl c) d t)).stack
            = s.stack.take (s.index + 1).toNat
              ++ [HistoryRecord.diff
                   (diffPasses (s.fullSnapshot.getD (rebuildFullSnapshot s)) (normColl c)).1
                   (diffPasses (s.fullSnapshot.getD (rebuildFullSnapshot s)) (normColl c)).2 d t]
          exact truncAppend_stack s _ inv.hub
        have hidx3 : ({ truncAppend s
            (generateDiffRecord (s.fullSnapshot.getD (rebuildFullSnapshot s)) (normColl c) d t) with
            fullSnapshot := some (normColl c) }).index = s.index + 1 := rfl
        have hreb := rebuild_eq_matAt
          { truncAppend s
              (generateDiffRecord (s.fullSnapshot.getD (rebuildFullSnapshot s)) (normColl c) d t) with
            fullSnapshot := some (normColl c) }
          (by show (0:Int) ≤ s.index + 1
              omega)
        rw [hreb, hstk3, hidx3, hmad]
        have hequiv : collEquiv (rebuildFullSnapshot s)
            (s.fullSnapshot.getD (rebuildFullSnapshot s)) := by
          cases hfs : s.fullSnapshot with
          | none => exact collEquiv_refl _
          | some fs => exact collEquiv_symm _ _ (inv.hcache fs hfs)
        have hmain := collEquiv_applyDiff_diffPasses (rebuildFullSnapshot s)
          (s.fullSnapshot.getD (rebuildFullSnapshot s)) (normColl c)
          (CollWF_rebuild s inv.hwf) hbwf (CollWF_normColl c hc) hequiv
        rw [normColl_idem] at hmain
        exact hmain

/-- Committing a pending record yields an invariant state with the cursor on
the appended record. -/
theorem Inv_endBatchState (s0 : HistoryState) (r : HistoryRecord)
    (hmax : s0.maxSize = 200) (hthr : s0.compressThreshold = 100)
    (hlb : -1 ≤ s0.index) (hub : s0.index < (s0.stack.length : Int))
    (hhead : headSnap s0.stack) (hwf : StackWF s0.stack)
    (hr : RecWF r)
    (hempty : s0.index < 0 → isSnapshot r = true) :
    Inv (endBatchState s0 r) ∧
      (endBatchState s0 r).index = ((endBatchState s0 r).stack.length : Int) - 1 := by
  have hstk : (endBatchState s0 r).stack = s0.stack.take (s0.index + 1).toNat ++ [r] :=
    truncAppend_stack s0 r hub
  have hidx : (endBatchState s0 r).index = s0.index + 1 := rfl
  have hlen : ((endBatchState s0 r).stack.length : Int) = s0.index + 2 :=
    truncAppend_stack_length s0 r hlb hub
  have hwf2 : StackWF (endBatchState s0 r).stack := by
    rw [hstk]
    exact StackWF_append s0 r _ hwf hr
  constructor
  · refine ⟨hmax, hthr, ?_, ?_, ?_, hwf2, ?_, ?_, ?_, ?_, ?_⟩
    · rw [hidx]
      omega
    · rw [hidx, hlen]
      omega
    · rw [hstk]
      exact headSnap_append s0 r hub hempty hhead
    · intro fs hfs
      have hfs2 : some (endBatchFull s0 r) = some fs := hfs
      injection hfs2 with hfs2
      subst hfs2
      cases r with
      | snap content ids dd tt => exact CollWF_normColl content hr
      | diff ch ids dd tt =>
        have hwf3 : StackWF (truncAppend s0 (HistoryRecord.diff ch ids dd tt)).stack := by
          rw [truncAppend_stack s0 _ hub]
          exact StackWF_append s0 _ _ hwf hr
        show CollWF (rebuildFullSnapshot (truncAppend s0 (HistoryRecord.diff ch ids dd tt)))
        exact CollWF_rebuild _ hwf3
    · intro x hx
      exact Option.noConfusion hx
    · intro x hx
      exact Option.noConfusion hx
    · intro h
      rfl
    · intro fs hfs
      have hfs2 : some (endBatchFull s0 r) = some fs := hfs
      injection hfs2 with hfs2
      subst hfs2
      cases r with
      | snap content ids dd tt =>
        have hreb := rebuild_eq_matAt (endBatchState s0 (HistoryRecord.snap content ids dd tt))
          (by show (0:Int) ≤ s0.index + 1
              omega)
        have hstks : (endBatchState s0 (HistoryRecord.snap content ids dd tt)).stack
            = s0.stack.take (s0.index + 1).toNat ++ [HistoryRecord.snap content ids dd tt] :=
          truncAppend_stack s0 _ hub
        have hidxs : (endBatchState s0 (HistoryRecord.snap content ids dd tt)).index
            = s0.index + 1 := rfl
        have hget : (s0.stack.take (s0.index + 1).toNat
              ++ [HistoryRecord.snap content ids dd tt])[(s0.index + 1).toNat]?
            = some (HistoryRecord.snap content ids dd tt) :=
          appended_getLast s0 _ hlb hub
        have hmat := matAt_here
          (s0.stack.take (s0.index + 1).toNat ++ [HistoryRecord.snap content ids dd tt])
          (s0.index + 1).toNat content ids dd tt hget
        show collEquiv (normColl content)
          (rebuildFullSnapshot (endBatchState s0 (HistoryRecord.snap content ids dd tt)))
        rw [hreb, hstks, hidxs, hmat]
        exact collEquiv_refl _
      | diff ch ids dd tt =>
        show collEquiv (rebuildFullSnapshot (truncAppend s0 (HistoryRecord.diff ch ids dd tt)))
          (rebuildFullSnapshot (endBatchState s0 (HistoryRecord.diff ch ids dd tt)))
        exact collEquiv_refl _
  · rw [hidx, hlen]
    omega

/-- Invariant preservation by `endBatch`. -/
theorem Inv_endBatch (s : HistoryState) (t : Nat) (inv : Inv s) : Inv (endBatch s t) := by
  unfold endBatch
  by_cases hb0 : s.batchDepth = 0
  · rw [if_pos hb0]
    exact inv
  · rw [if_neg hb0]
    by_cases hb1 : s.batchDepth - 1 = 0
    · rw [if_pos hb1]
      cases hpr : s.pendingRecord with
      | none =>
        show Inv { s with batchDepth := s.batchDepth - 1, pendingRecord := none }
        refine ⟨inv.hmax, inv.hthr, inv.hlb, inv.hub, inv.hhead, inv.hwf, inv.hfullwf,
          ?_, ?_, ?_, inv.hcache⟩
        · intro x hx
          exact Option.noConfusion hx
        · intro x hx
          exact Option.noConfusion hx
        · intro h
          rfl
      | some r =>
        have hmem : r ∈ s.pendingRecord := by
          rw [hpr]
          rfl
        have hempty : ({ s with batchDepth := s.batchDepth - 1, pendingRecord := some r }
              : HistoryState).index < 0
            → isSnapshot r = true := by
          intro hlt
          cases hsn : isSnapshot r with
          | false =>
            have h3 := inv.hpendidx r hmem hsn
            have hlt2 : s.index < 0 := hlt
            omega
          | true => rfl
        have h2 := Inv_endBatchState
          { s with batchDepth := s.batchDepth - 1, pendingRecord := some r } r
          inv.hmax inv.hthr inv.hlb inv.hub inv.hhead inv.hwf (inv.hpendwf r hmem) hempty
        exact Inv_compressIf
          (endBatchState { s with batchDepth := s.batchDepth - 1, pendingRecord := some r } r) t
          h2.1 h2.2
    · rw [if_neg hb1]
      refine ⟨inv.hmax, inv.hthr, inv.hlb, inv.hub, inv.hhead, inv.hwf, inv.hfullwf,
        inv.hpendwf, inv.hpendidx, ?_, inv.hcache⟩
      intro h
      exact absurd h hb1

/-- Every reachable state satisfies the invariant. -/
theorem reachable_inv (s : HistoryState) (h : Reachable s) : Inv s := by
  induction h with
  | init => exact Inv_initState
  | push s c d t hwf h ih => exact Inv_pushSnapshot s c d t ih hwf
  | stepUndo s h ih => exact Inv_undo s ih
  | stepRedo s h ih => exact Inv_redo s ih
  | stepBegin s h ih => exact Inv_beginBatch s ih
  | stepEnd s t h ih => exact Inv_endBatch s t ih
  | stepClear s h ih => exact Inv_clearHistory s ih

/-! ### Helpers for the claim theorems -/

/-- A JSON round trip denotes the same id-keyed contents as the original
representable collection. -/
theorem collEquiv_normColl_self (c : List Elem) (h : CollWF c) :
    collEquiv (normColl c) c := by
  intro k
  rw [lookupLast_normColl c k]
  cases hk : lookupLast c k with
  | none => trivial
  | some e =>
    show elemEquiv (normElem e) e
    exact elemEquiv_norm e (ElemWF_of_lookupLast c k e h hk).1

/-- The value `undo` returns when the cursor can move. -/
theorem undo_snd (s : HistoryState) (h : ¬ s.index ≤ 0) (r : HistoryRecord)
    (hr : stackGet s.stack s.index = some r) :
    (undo s).2 = some ⟨normColl (rebuildFullSnapshot { s with index := s.index - 1 }),
      r.changedIds, r.desc⟩ := by
  unfold undo
  rw [if_neg h]
  simp only [hr]

/-- The value `redo` returns when the cursor can move. -/
theorem redo_snd (s : HistoryState) (h : ¬ (s.stack.length : Int) - 1 ≤ s.index)
    (r : HistoryRecord) (hr : stackGet s.stack (s.index + 1) = some r) :
    (redo s).2 = some ⟨normColl (rebuildFullSnapshot { s with index := s.index + 1 }),
      r.changedIds, r.desc⟩ := by
  unfold redo
  rw [if_neg h]
  simp only [hr]

/-- A push inside an open batch leaves every field but the pending slot
unchanged. -/
theorem pushSnapshot_batch_core (x : HistoryState) (c : List Elem) (d : String) (t : Nat)
    (hb : 0 < x.batchDepth) :
    pushSnapshot x c d t = x
      ∨ ∃ r, pushSnapshot x c d t = { x with pendingRecord := some r } := by
  unfold pushSnapshot pushRecord
  by_cases hneg : x.index < 0
  · rw [if_pos hneg, if_pos hb]
    exact Or.inr ⟨_, rfl⟩
  · rw [if_neg hneg]
    by_cases hnoop : normColl (x.fullSnapshot.getD (rebuildFullSnapshot x)) = normColl c
    · rw [if_pos hnoop]
      exact Or.inl rfl
    · rw [if_neg hnoop, if_pos hb]
      exact Or.inr ⟨_, rfl⟩

/-- A non-noop push inside an open batch with a cursor in range stashes the
diff record against the cached collection. -/
theorem pushSnapshot_batch_stash (x : HistoryState) (c : List Elem) (d : String) (t : Nat)
    (hb : 0 < x.batchDepth) (hneg : ¬ x.index < 0)
    (hne : normColl (x.fullSnapshot.getD (rebuildFullSnapshot x)) ≠ normColl c) :
    pushSnapshot x c d t
      = { x with pendingRecord := some (generateDiffRecord
          (x.fullSnapshot.getD (rebuildFullSnapshot x)) (normColl c) d t) } := by
  unfold pushSnapshot pushRecord
  rw [if_neg hneg, if_neg hne, if_pos hb]

/-- Committing at the outermost `endBatch` with a pending record. -/
theorem endBatch_commit (x : HistoryState) (t : Nat) (r : HistoryRecord)
    (hb : x.batchDepth = 1) (hp : x.pendingRecord = some r) :
    endBatch x t
      = if (endBatchState { x with batchDepth := x.batchDepth - 1 } r).compressThreshold
            < (endBatchState { x with batchDepth := x.batchDepth - 1 } r).stack.length then
          compressHistory (endBatchState { x with batchDepth := x.batchDepth - 1 } r) t
        else endBatchState { x with batchDepth := x.batchDepth - 1 } r := by
  unfold endBatch
  rw [if_neg (by omega), if_pos (by omega), hp]

/-- A non-outermost `endBatch` only decrements the nesting depth. -/
theorem endBatch_inner (x : HistoryState) (t : Nat) (hb : 1 < x.batchDepth) :
    endBatch x t = { x with batchDepth := x.batchDepth - 1 } := by
  unfold endBatch
  rw [if_neg (by omega), if_neg (by omega)]

/-- The appended log of a push never exceeds `index + 2` entries. -/
theorem truncAppend_len_le (s : HistoryState) (r : HistoryRecord)
    (hlb : -1 ≤ s.index) :
    ((truncAppend s r).stack.length : Int) ≤ s.index + 2 := by
  unfold truncAppend
  by_cases h : s.index < (s.stack.length : Int) - 1
  · rw [if_pos h]
    simp only [List.length_append, List.length_take, List.length_cons, List.length_nil]
    omega
  · rw [if_neg h]
    simp only [List.length_append, List.length_cons, List.length_nil]
    omega

/-- After a push outside a batch the cache holds the pushed collection and
the cursor is in range. -/
theorem pushRecord_nonbatch_facts (s : HistoryState) (r : HistoryRecord)
    (nf : List Elem) (t : Nat)
    (hb : ¬ 0 < s.batchDepth) (hlb : -1 ≤ s.index) :
    (pushRecord s r nf t).fullSnapshot = some nf ∧ 0 ≤ (pushRecord s r nf t).index := by
  unfold pushRecord
  rw [if_neg hb]
  have hlen2 := truncAppend_len_le s r hlb
  by_cases hc : s.compressThreshold < (truncAppend s r).stack.length
  · rw [if_pos hc]
    unfold compressHistory
    by_cases hg : ({ truncAppend s r with fullSnapshot := some nf }
        : HistoryState).stack.length
        < ({ truncAppend s r with fullSnapshot := some nf } : HistoryState).compressThreshold
    · rw [if_pos hg]
      refine ⟨rfl, ?_⟩
      show (0:Int) ≤ s.index + 1
      omega
    · rw [if_neg hg]
      refine ⟨rfl, ?_⟩
      show (0:Int) ≤ s.index + 1
        - (((( truncAppend s r).stack.length
            - ((truncAppend s r).maxSize + 1) / 2 : Nat) : Int) - 1)
      have hsub : ((truncAppend s r).stack.length
          - ((truncAppend s r).maxSize + 1) / 2 : Nat)
          ≤ (truncAppend s r).stack.length := Nat.sub_le _ _
      have hsub2 : (((truncAppend s r).stack.length
          - ((truncAppend s r).maxSize + 1) / 2 : Nat) : Int)
          ≤ ((truncAppend s r).stack.length : Int) := by exact_mod_cast hsub
      omega
  · rw [if_neg hc]
    refine ⟨rfl, ?_⟩
    show (0:Int) ≤ s.index + 1
    omega

/-! ### Positional characterization of `applyDiffRecord` -/

theorem filterMap_ext_mem (l : List α) (f g : α → Option β)
    (h : ∀ a ∈ l, f a = g a) : l.filterMap f = l.filterMap g := by
  induction l with
  | nil => rfl
  | cons x xs ih =>
    rw [List.filterMap_cons, List.filterMap_cons, h x (List.mem_cons_self x xs),
      ih (fun a ha => h a (List.mem_cons_of_mem x ha))]

theorem map_ext_mem (l : List α) (f g : α → β)
    (h : ∀ a ∈ l, f a = g a) : l.map f = l.map g := by
  induction l with
  | nil => rfl
  | cons x xs ih =>
    rw [List.map_cons, List.map_cons, h x (List.mem_cons_self x xs),
      ih (fun a ha => h a (List.mem_cons_of_mem x ha))]

theorem assocGet_some_of_mem [DecidableEq κ] (m : List (κ × α)) (k : κ) (x : α)
    (hm : NodupKeys m) (hmem : (k, x) ∈ m) : assocGet m k = some x := by
  induction m with
  | nil => exact absurd hmem (List.not_mem_nil _)
  | cons q rest ih =>
    obtain ⟨k', v'⟩ := q
    have hnd : k' ∉ rest.map Prod.fst ∧ NodupKeys rest := by
      have h2 : (k' :: rest.map Prod.fst).Nodup := by
        have h3 : NodupKeys ((k', v') :: rest) := hm
        unfold NodupKeys at h3
        rwa [List.map_cons] at h3
      exact ⟨(List.nodup_cons.1 h2).1, (List.nodup_cons.1 h2).2⟩
    rcases List.mem_cons.1 hmem with h1 | h1
    · injection h1 with h1a h1b
      subst h1a
      subst h1b
      show (if k = k then some x else assocGet rest k) = some x
      rw [if_pos rfl]
    · have hks : k ∈ rest.map Prod.fst := List.mem_map_of_mem Prod.fst h1
      have hne : ¬ k' = k := fun h => hnd.1 (h ▸ hks)
      show (if k' = k then some v' else assocGet rest k) = some x
      rw [if_neg hne]
      exact ih hnd.2 h1

theorem mem_keys_of_assocGet [DecidableEq κ] (m : List (κ × α)) (k : κ) (e : α)
    (hg : assocGet m k = some e) : k ∈ m.map Prod.fst := by
  induction m with
  | nil => exact absurd hg (by simp [assocGet])
  | cons q rest ih =>
    obtain ⟨k', v'⟩ := q
    by_cases hk : k' = k
    · subst hk
      exact List.mem_cons_self _ _
    · rw [show assocGet ((k', v') :: rest) k = assocGet rest k by
        show (if k' = k then some v' else assocGet rest k) = assocGet rest k
        rw [if_neg hk]] at hg
      exact List.mem_cons_of_mem _ (ih hg)

theorem ne_of_assocGet_none [DecidableEq κ] (m : List (κ × α)) (k : κ)
    (hg : assocGet m k = none) (p : κ × α) (hp : p ∈ m) : p.1 ≠ k := by
  induction m with
  | nil => exact absurd hp (List.not_mem_nil _)
  | cons q rest ih =>
    obtain ⟨k', v'⟩ := q
    have hk : ¬ k' = k := by
      intro h
      rw [show assocGet ((k', v') :: rest) k = some v' by
        show (if k' = k then some v' else assocGet rest k) = some v'
        rw [if_pos h]] at hg
      exact Option.noConfusion hg
    have hgr : assocGet rest k = none := by
      rw [show assocGet ((k', v') :: rest) k = assocGet rest k by
        show (if k' = k then some v' else assocGet rest k) = assocGet rest k
        rw [if_neg hk]] at hg
      exact hg
    rcases List.mem_cons.1 hp with h1 | h1
    · subst h1
      exact hk
    · exact ih hgr h1

theorem assocSet_eq_append [DecidableEq κ] (m : List (κ × α)) (k : κ) (v : α)
    (hg : assocGet m k = none) : assocSet m k v = m ++ [(k, v)] := by
  induction m with
  | nil => rfl
  | cons q rest ih =>
    obtain ⟨k', v'⟩ := q
    have hk : ¬ k' = k := by
      intro h
      rw [show assocGet ((k', v') :: rest) k = some v' by
        show (if k' = k then some v' else assocGet rest k) = some v'
        rw [if_pos h]] at hg
      exact Option.noConfusion hg
    have hgr : assocGet rest k = none := by
      rw [show assocGet ((k', v') :: rest) k = assocGet rest k by
        show (if k' = k then some v' else assocGet rest k) = assocGet rest k
        rw [if_neg hk]] at hg
      exact hg
    show (if k' = k then (k, v) :: rest else (k', v') :: assocSet rest k v)
      = (k', v') :: (rest ++ [(k, v)])
    rw [if_neg hk, ih hgr]

theorem assocSet_eq_map [DecidableEq κ] (m : List (κ × α)) (k : κ) (v : α)
    (hm : NodupKeys m) (hk : k ∈ m.map Prod.fst) :
    assocSet m k v = m.map (fun p => if p.1 = k then (k, v) else p) := by
  induction m with
  | nil => exact absurd hk (by simp)
  | cons q rest ih =>
    obtain ⟨k', v'⟩ := q
    have hnd : k' ∉ rest.map Prod.fst ∧ NodupKeys rest := by
      have h2 : (k' :: rest.map Prod.fst).Nodup := by
        have h3 : NodupKeys ((k', v') :: rest) := hm
        unfold NodupKeys at h3
        rwa [List.map_cons] at h3
      exact ⟨(List.nodup_cons.1 h2).1, (List.nodup_cons.1 h2).2⟩
    by_cases hkk : k' = k
    · subst hkk
      show (if k' = k' then (k', v) :: rest else (k', v') :: assocSet rest k' v)
        = (if ((k', v') : κ × α).1 = k' then (k', v) else (k', v'))
          :: rest.map (fun p => if p.1 = k' then (k', v) else p)
      rw [if_pos rfl, if_pos rfl]
      have hrest : rest.map (fun p => if p.1 = k' then (k', v) else p) = rest := by
        have h4 : rest.map (fun p => if p.1 = k' then (k', v) else p)
            = rest.map (fun p => p) := by
          apply map_ext_mem
          intro p hp
          have hpk : p.1 ≠ k' := fun h => hnd.1 (h ▸ List.mem_map_of_mem Prod.fst hp)
          rw [if_neg hpk]
        rw [h4, List.map_id']
      rw [hrest]
    · have hkr : k ∈ rest.map Prod.fst := by
        rw [List.map_cons] at hk
        rcases List.mem_cons.1 hk with h1 | h1
        · exact absurd h1.symm hkk
        · exact h1
      show (if k' = k then (k, v) :: rest else (k', v') :: assocSet rest k v)
        = (if ((k', v') : κ × α).1 = k then (k, v) else (k', v'))
          :: rest.map (fun p => if p.1 = k then (k, v) else p)
      rw [if_neg hkk, if_neg hkk, ih hnd.2 hkr]

/-- What the change map does to one pre-existing map entry: unmentioned
entries are kept as they are, modified entries are assigned in place, deleted
entries are dropped, and an addition whose key is already present overwrites
the entry in place. -/
def changeKeep (changes : List (Option String × Change)) (p : Option String × Elem) :
    Option (Option String × Elem) :=
  match assocGet changes p.1 with
  | none => some p
  | some ch =>
    match ch.before, ch.after with
    | none, some a => some (p.1, a)
    | some _, none => none
    | some _, some a => some (p.1, assignElem p.2 a)
    | none, none => some p

/-- Which change-map entries append a fresh element to the base map:
wholesale additions whose key is absent, in change order. -/
def changeAdd (m : List (Option String × Elem)) (kc : Option String × Change) :
    Option (Option String × Elem) :=
  match kc.2.before, kc.2.after with
  | none, some a => if assocGet m kc.1 = none then some (kc.1, a) else none
  | _, _ => none

theorem changeKeep_none (rest : List (Option String × Change)) (p : Option String × Elem)
    (hg : assocGet rest p.1 = none) : changeKeep rest p = some p := by
  unfold changeKeep
  rw [hg]

theorem changeKeep_cons_ne (k : Option String) (ch : Change)
    (rest : List (Option String × Change)) (p : Option String × Elem) (hne : p.1 ≠ k) :
    changeKeep ((k, ch) :: rest) p = changeKeep rest p := by
  unfold changeKeep
  rw [show assocGet ((k, ch) :: rest) p.1 = assocGet rest p.1 by
    show (if k = p.1 then some ch else assocGet rest p.1) = assocGet rest p.1
    rw [if_neg (fun h => hne h.symm)]]

theorem changeKeep_cons_self_none_none (k : Option String)
    (rest : List (Option String × Change)) (p : Option String × Elem) (heq : p.1 = k) :
    changeKeep ((k, (⟨none, none⟩ : Change)) :: rest) p = some p := by
  unfold changeKeep
  rw [show assocGet ((k, (⟨none, none⟩ : Change)) :: rest) p.1
      = some (⟨none, none⟩ : Change) by
    show (if k = p.1 then some (⟨none, none⟩ : Change) else assocGet rest p.1)
      = some (⟨none, none⟩ : Change)
    rw [if_pos heq.symm]]

theorem changeKeep_cons_self_add (k : Option String)
    (rest : List (Option String × Change)) (p : Option String × Elem) (a : Elem)
    (heq : p.1 = k) :
    changeKeep ((k, (⟨none, some a⟩ : Change)) :: rest) p = some (p.1, a) := by
  unfold changeKeep
  rw [show assocGet ((k, (⟨none, some a⟩ : Change)) :: rest) p.1
      = some (⟨none, some a⟩ : Change) by
    show (if k = p.1 then some (⟨none, some a⟩ : Change) else assocGet rest p.1)
      = some (⟨none, some a⟩ : Change)
    rw [if_pos heq.symm]]

theorem changeKeep_cons_self_del (k : Option String)
    (rest : List (Option String × Change)) (p : Option String × Elem) (b : Elem)
    (heq : p.1 = k) :
    changeKeep ((k, (⟨some b, none⟩ : Change)) :: rest) p = none := by
  unfold changeKeep
  rw [show assocGet ((k, (⟨some b, none⟩ : Change)) :: rest) p.1
      = some (⟨some b, none⟩ : Change) by
    show (if k = p.1 then some (⟨some b, none⟩ : Change) else assocGet rest p.1)
      = some (⟨some b, none⟩ : Change)
    rw [if_pos heq.symm]]

theorem changeKeep_cons_self_mod (k : Option String)
    (rest : List (Option String × Change)) (p : Option String × Elem) (b a : Elem)
    (heq : p.1 = k) :
    changeKeep ((k, (⟨some b, some a⟩ : Change)) :: rest) p
      = some (p.1, assignElem p.2 a) := by
  unfold changeKeep
  rw [show assocGet ((k, (⟨some b, some a⟩ : Change)) :: rest) p.1
      = some (⟨some b, some a⟩ : Change) by
    show (if k = p.1 then some (⟨some b, some a⟩ : Change) else assocGet rest p.1)
      = some (⟨some b, some a⟩ : Change)
    rw [if_pos heq.symm]]

theorem changeAdd_none_none (m : List (Option String × Elem)) (k : Option String) :
    changeAdd m (k, (⟨none, none⟩ : Change)) = none := rfl

theorem changeAdd_del (m : List (Option String × Elem)) (k : Option String) (b : Elem) :
    changeAdd m (k, (⟨some b, none⟩ : Change)) = none := rfl

theorem changeAdd_mod (m : List (Option String × Elem)) (k : Option String) (b a : Elem) :
    changeAdd m (k, (⟨some b, some a⟩ : Change)) = none := rfl

theorem changeAdd_add (m : List (Option String × Elem)) (k : Option String) (a : Elem) :
    changeAdd m (k, (⟨none, some a⟩ : Change))
      = if assocGet m k = none then some (k, a) else none := rfl

theorem changeAdd_congr (m m2 : List (Option String × Elem)) (kc : Option String × Change)
    (h : assocGet m2 kc.1 = assocGet m kc.1) : changeAdd m2 kc = changeAdd m kc := by
  obtain ⟨k2, bo2, ao2⟩ := kc
  have h2 : assocGet m2 k2 = assocGet m k2 := h
  cases bo2 with
  | some b => rfl
  | none =>
    cases ao2 with
    | none => rfl
    | some a =>
      show (if assocGet m2 k2 = none then some (k2, a) else none)
        = (if assocGet m k2 = none then some (k2, a) else none)
      rw [h2]

theorem assocGet_append_single_ne [DecidableEq κ] (m : List (κ × α)) (k k2 : κ) (v : α)
    (hne : k2 ≠ k) : assocGet (m ++ [(k, v)]) k2 = assocGet m k2 := by
  induction m with
  | nil =>
    show (if k = k2 then some v else assocGet ([] : List (κ × α)) k2)
      = assocGet ([] : List (κ × α)) k2
    rw [if_neg (fun h => hne h.symm)]
  | cons q rest ih =>
    obtain ⟨k', v'⟩ := q
    show (if k' = k2 then some v' else assocGet (rest ++ [(k, v)]) k2)
      = (if k' = k2 then some v' else assocGet rest k2)
    rw [ih]

theorem filterMap_filter_eq (l : List α) (q : α → Bool) (f : α → Option β) :
    (l.filter q).filterMap f = l.filterMap (fun a => if q a then f a else none) := by
  induction l with
  | nil => rfl
  | cons x xs ih =>
    rw [List.filter_cons, List.filterMap_cons]
    by_cases hx : q x = true
    · simp only [if_pos hx]
      rw [List.filterMap_cons, ih]
    · simp only [if_neg hx]
      rw [ih]

theorem filterMap_changeKeep_nil (m : List (Option String × Elem)) :
    m.filterMap (changeKeep []) = m := by
  induction m with
  | nil => rfl
  | cons p rest ih =>
    rw [List.filterMap_cons, changeKeep_none [] p rfl, ih]

/-- Positional characterization of the change-applying fold: the surviving
base entries come first, in base order, and the freshly added entries are
appended after them, in change order. -/
theorem foldl_applyChange_split (changes : List (Option String × Change)) :
    ∀ m : List (Option String × Elem), NodupKeys m → NodupKeys changes →
    changes.foldl applyChange m
      = m.filterMap (changeKeep changes) ++ changes.filterMap (changeAdd m) := by
  induction changes with
  | nil =>
    intro m hm hch
    simp [filterMap_changeKeep_nil]
  | cons kc rest ih =>
    intro m hm hch
    obtain ⟨k, ch⟩ := kc
    have hnodups : (k :: rest.map Prod.fst).Nodup := by
      have h2 : NodupKeys ((k, ch) :: rest) := hch
      unfold NodupKeys at h2
      rwa [List.map_cons] at h2
    have hknr : k ∉ rest.map Prod.fst := (List.nodup_cons.1 hnodups).1
    have hchr : NodupKeys rest := (List.nodup_cons.1 hnodups).2
    have hrestne : ∀ kc2 ∈ rest, (kc2 : Option String × Change).1 ≠ k := by
      intro kc2 h2 heq
      exact hknr (heq ▸ List.mem_map_of_mem Prod.fst h2)
    have hgr : assocGet rest k = none := assocGet_eq_none_of_not_mem rest k hknr
    show rest.foldl applyChange (applyChange m (k, ch))
      = m.filterMap (changeKeep ((k, ch) :: rest))
        ++ ((k, ch) :: rest).filterMap (changeAdd m)
    rw [ih (applyChange m (k, ch)) (nodupKeys_applyChange m (k, ch) hm) hchr]
    obtain ⟨bo, ao⟩ := ch
    cases bo with
    | none =>
      cases ao with
      | none =>
        have happ : applyChange m (k, (⟨none, none⟩ : Change)) = m := rfl
        have hkeep : m.filterMap (changeKeep rest)
            = m.filterMap (changeKeep ((k, (⟨none, none⟩ : Change)) :: rest)) := by
          apply filterMap_ext_mem
          intro p hp
          by_cases hpk : p.1 = k
          · rw [changeKeep_cons_self_none_none k rest p hpk,
              changeKeep_none rest p (by rw [hpk]; exact hgr)]
          · rw [changeKeep_cons_ne k _ rest p hpk]
        have hhead : ((k, (⟨none, none⟩ : Change)) :: rest).filterMap (changeAdd m)
            = rest.filterMap (changeAdd m) := by
          rw [List.filterMap_cons, changeAdd_none_none m k]
        rw [happ, hkeep, hhead]
      | some a =>
        have happ : applyChange m (k, (⟨none, some a⟩ : Change)) = assocSet m k a := rfl
        cases hgm : assocGet m k with
        | some e =>
          have hset : assocSet m k a
              = m.map (fun p => if p.1 = k then (k, a) else p) :=
            assocSet_eq_map m k a hm (mem_keys_of_assocGet m k e hgm)
          have hkeep : (m.map (fun p => if p.1 = k then (k, a) else p)).filterMap
                (changeKeep rest)
              = m.filterMap (changeKeep ((k, (⟨none, some a⟩ : Change)) :: rest)) := by
            rw [List.filterMap_map]
            apply filterMap_ext_mem
            intro p hp
            show changeKeep rest (if p.1 = k then (k, a) else p)
              = changeKeep ((k, (⟨none, some a⟩ : Change)) :: rest) p
            by_cases hpk : p.1 = k
            · rw [if_pos hpk, changeKeep_none rest (k, a) hgr,
                changeKeep_cons_self_add k rest p a hpk, hpk]
            · rw [if_neg hpk, changeKeep_cons_ne k _ rest p hpk]
          have hadd : rest.filterMap
                (changeAdd (m.map (fun p => if p.1 = k then (k, a) else p)))
              = rest.filterMap (changeAdd m) := by
            apply filterMap_ext_mem
            intro kc2 hkc2
            apply changeAdd_congr
            rw [← hset, assocGet_assocSet m k a kc2.1,
              if_neg (fun h => hrestne kc2 hkc2 h.symm)]
          have hheadval : changeAdd m (k, (⟨none, some a⟩ : Change)) = none := by
            rw [changeAdd_add m k a, hgm, if_neg (fun h => Option.noConfusion h)]
          have hhead : ((k, (⟨none, some a⟩ : Change)) :: rest).filterMap (changeAdd m)
              = rest.filterMap (changeAdd m) := by
            rw [List.filterMap_cons, hheadval]
          rw [happ, hset, hadd, hkeep, hhead]
        | none =>
          have happend : assocSet m k a = m ++ [(k, a)] := assocSet_eq_append m k a hgm
          have hone : ([((k : Option String), a)] : List (Option String × Elem)).filterMap
              (changeKeep rest) = [(k, a)] := by
            rw [List.filterMap_cons, changeKeep_none rest (k, a) hgr]
            rfl
          have hkeepm : m.filterMap (changeKeep rest)
              = m.filterMap (changeKeep ((k, (⟨none, some a⟩ : Change)) :: rest)) := by
            apply filterMap_ext_mem
            intro p hp
            rw [changeKeep_cons_ne k _ rest p (ne_of_assocGet_none m k hgm p hp)]
          have hadd : rest.filterMap (changeAdd (m ++ [(k, a)]))
              = rest.filterMap (changeAdd m) := by
            apply filterMap_ext_mem
            intro kc2 hkc2
            apply changeAdd_congr
            exact assocGet_append_single_ne m k kc2.1 a (hrestne kc2 hkc2)
          have hheadval : changeAdd m (k, (⟨none, some a⟩ : Change)) = some (k, a) := by
            rw [changeAdd_add m k a, if_pos hgm]
          have hhead : ((k, (⟨none, some a⟩ : Change)) :: rest).filterMap (changeAdd m)
              = (k, a) :: rest.filterMap (changeAdd m) := by
            rw [List.filterMap_cons, hheadval]
          rw [happ, happend, hadd, List.filterMap_append, hone, hkeepm, hhead,
            List.append_assoc]
          rfl
    | some b =>
      cases ao with
      | none =>
        have happ : applyChange m (k, (⟨some b, none⟩ : Change)) = assocDelete m k := rfl
        have hkeep : (assocDelete m k).filterMap (changeKeep rest)
            = m.filterMap (changeKeep ((k, (⟨some b, none⟩ : Change)) :: rest)) := by
          show (m.filter (fun p => p.1 ≠ k)).filterMap (changeKeep rest) = _
          rw [filterMap_filter_eq]
          apply filterMap_ext_mem
          intro p hp
          by_cases hpk : p.1 = k
          · rw [if_neg (by simp [hpk]), changeKeep_cons_self_del k rest p b hpk]
          · rw [if_pos (by simp [hpk]), changeKeep_cons_ne k _ rest p hpk]
        have hadd : rest.filterMap (changeAdd (assocDelete m k))
            = rest.filterMap (changeAdd m) := by
          apply filterMap_ext_mem
          intro kc2 hkc2
          apply changeAdd_congr
          rw [assocGet_assocDelete m k kc2.1,
            if_neg (fun h => hrestne kc2 hkc2 h.symm)]
        have hhead : ((k, (⟨some b, none⟩ : Change)) :: rest).filterMap (changeAdd m)
            = rest.filterMap (changeAdd m) := by
          rw [List.filterMap_cons, changeAdd_del m k b]
        rw [happ, hadd, hkeep, hhead]
      | some a =>
        cases hgm : assocGet m k with
        | none =>
          have happ : applyChange m (k, (⟨some b, some a⟩ : Change)) = m := by
            show (match assocGet m k with
              | some e => assocSet m k (assignElem e a)
              | none => m) = m
            rw [hgm]
          have hkeep : m.filterMap (changeKeep rest)
              = m.filterMap (changeKeep ((k, (⟨some b, some a⟩ : Change)) :: rest)) := by
            apply filterMap_ext_mem
            intro p hp
            rw [changeKeep_cons_ne k _ rest p (ne_of_assocGet_none m k hgm p hp)]
          have hhead : ((k, (⟨some b, some a⟩ : Change)) :: rest).filterMap (changeAdd m)
              = rest.filterMap (changeAdd m) := by
            rw [List.filterMap_cons, changeAdd_mod m k b a]
          rw [happ, hkeep, hhead]
        | some e =>
          have happ : applyChange m (k, (⟨some b, some a⟩ : Change))
              = assocSet m k (assignElem e a) := by
            show (match assocGet m k with
              | some e => assocSet m k (assignElem e a)
              | none => m) = assocSet m k (assignElem e a)
            rw [hgm]
          have hset : assocSet m k (assignElem e a)
              = m.map (fun p => if p.1 = k then (k, assignElem e a) else p) :=
            assocSet_eq_map m k (assignElem e a) hm (mem_keys_of_assocGet m k e hgm)
          have hkeep : (m.map (fun p => if p.1 = k then (k, assignElem e a) else p)).filterMap
                (changeKeep rest)
              = m.filterMap (changeKeep ((k, (⟨some b, some a⟩ : Change)) :: rest)) := by
            rw [List.filterMap_map]
            apply filterMap_ext_mem
            intro p hp
            show changeKeep rest (if p.1 = k then (k, assignElem e a) else p)
              = changeKeep ((k, (⟨some b, some a⟩ : Change)) :: rest) p
            by_cases hpk : p.1 = k
            · have hpe : p.2 = e := by
                have hg2 : assocGet m p.1 = some p.2 :=
                  assocGet_some_of_mem m p.1 p.2 hm hp
                rw [hpk, hgm] at hg2
                injection hg2 with hg2
                exact hg2.symm
              rw [if_pos hpk, changeKeep_none rest (k, assignElem e a) hgr,
                changeKeep_cons_self_mod k rest p b a hpk, hpk, hpe]
            · rw [if_neg hpk, changeKeep_cons_ne k _ rest p hpk]
          have hadd : rest.filterMap
                (changeAdd (m.map (fun p => if p.1 = k then (k, assignElem e a) else p)))
              = rest.filterMap (changeAdd m) := by
            apply filterMap_ext_mem
            intro kc2 hkc2
            apply changeAdd_congr
            rw [← hset, assocGet_assocSet m k (assignElem e a) kc2.1,
              if_neg (fun h => hrestne kc2 hkc2 h.symm)]
          have hhead : ((k, (⟨some b, some a⟩ : Change)) :: rest).filterMap (changeAdd m)
              = rest.filterMap (changeAdd m) := by
            rw [List.filterMap_cons, changeAdd_mod m k b a]
          rw [happ, hset, hadd, hkeep, hhead]

/-! ### Concrete store runs used by the claim analyses -/

def eA : Elem := ⟨some "a", [("x", some 1)]⟩
def eA2 : Elem := ⟨some "a", [("x", some 2)]⟩
def eB : Elem := ⟨some "b", []⟩
def eN : Elem := ⟨none, [("x", some 1)]⟩
def z5 : Elem := ⟨some "a", [("z", some 5)]⟩
def u0 : Elem := ⟨some "u", [("z", some 0)]⟩
def v1 : Elem := ⟨some "v", [("z", some 1)]⟩

/-- Two pushes whose second reorders the collection: the cache keeps the
pushed order while the reconstruction returns the map order. -/
def s2cex : HistoryState :=
  pushSnapshot (pushSnapshot initState [eA, eB] "d" 0) [eB, eA2] "d" 1

/-- A one-entry log with its cache, the cursor on the only record. -/
def s7cex : HistoryState :=
  ⟨[.snap [eA, eB] [some "a", some "b"] "d" 0], 0, some [eA, eB], 200, 100, 0, none⟩

def emptyDiff : HistoryRecord := .diff [] [] "d" 0

/-- A log of 101 records whose length exceeds the compaction threshold. -/
def cex101 : HistoryState :=
  ⟨.snap [eA] [some "a"] "d" 0 :: List.replicate 100 emptyDiff, 100, none, 200, 100, 0, none⟩

/-- One committed push, the baseline for the batch counterexample. -/
def s5cex : HistoryState := pushSnapshot initState [eA] "d" 0

/-! ### The claims -/

/-- C1: for every log satisfying the head-snapshot invariant and every index
`i ≥ removeCount - 1` that survives compaction, the materialization at `i`
before compaction denotes the same JSON value as the materialization at
`i - (removeCount - 1)` after compaction, and is verbatim identical for
`i ≥ removeCount`. -/
theorem C1_compaction_materialization (s : HistoryState) (t : Nat) (i : Nat)
    (hguard : ¬ s.stack.length < s.compressThreshold)
    (hne : s.stack ≠ []) (hhead : headSnap s.stack)
    (hrc : s.stack.length - (s.maxSize + 1) / 2 ≠ 0)
    (hlow : s.stack.length - (s.maxSize + 1) / 2 - 1 ≤ i)
    (hhigh : i < s.stack.length) :
    (normColl (matAt s.stack i)
      = normColl (matAt (compressHistory s t).stack
          (i - (s.stack.length - (s.maxSize + 1) / 2 - 1)))) ∧
    (s.stack.length - (s.maxSize + 1) / 2 ≤ i →
      matAt s.stack i
        = matAt (compressHistory s t).stack
            (i - (s.stack.length - (s.maxSize + 1) / 2 - 1))) :=
  matAt_compress s t i hguard hne hhead hrc hlow hhigh

theorem C1_witness :
    (normColl (matAt cex101.stack 1)
      = normColl (matAt (compressHistory cex101 5).stack
          (1 - (cex101.stack.length - (cex101.maxSize + 1) / 2 - 1)))) ∧
    (cex101.stack.length - (cex101.maxSize + 1) / 2 ≤ 1 →
      matAt cex101.stack 1
        = matAt (compressHistory cex101 5).stack
            (1 - (cex101.stack.length - (cex101.maxSize + 1) / 2 - 1))) :=
  C1_compaction_materialization cex101 5 1 (by decide) (by decide)
    (by intro r hr
        have hr2 : some (HistoryRecord.snap [eA] [some "a"] "d" 0) = some r := hr
        injection hr2 with hr2
        rw [← hr2]
        rfl)
    (by decide) (by decide) (by decide)

/-- C2: the cached collection, when present in a reachable state, denotes the
same id-keyed contents as the reconstruction at the cursor; the original
claim of structural equality fails (see the counterexample: the cache keeps
the pushed order, the reconstruction the map order). -/
theorem C2_cache_equiv (s : HistoryState) (h : Reachable s) :
    ∀ fs ∈ s.fullSnapshot, collEquiv fs (rebuildFullSnapshot s) :=
  (reachable_inv s h).hcache

theorem C2_witness :
    collEquiv (normColl [eA]) (rebuildFullSnapshot (pushSnapshot initState [eA] "d" 0)) :=
  C2_cache_equiv (pushSnapshot initState [eA] "d" 0)
    (Reachable.push initState [eA] "d" 0 (by decide) Reachable.init)
    (normColl [eA]) rfl

theorem C2_counterexample :
    Reachable s2cex
      ∧ s2cex.fullSnapshot = some [eB, eA2]
      ∧ rebuildFullSnapshot s2cex = [eA2, eB]
      ∧ s2cex.fullSnapshot ≠ some (rebuildFullSnapshot s2cex) := by
  constructor
  · exact Reachable.push _ [eB, eA2] "d" 1
      (by decide) (Reachable.push _ [eA, eB] "d" 0 (by decide) Reachable.init)
  · decide

/-- C4: applying a delta keeps the surviving base entries first and in base
order (unmentioned entries unchanged in place), and appends every wholesale
addition after them in change order; the position is never derived from the
added element's own ordering field (see the counterexample). -/
theorem C4_apply_positions (snapshot : List Elem)
    (changes : List (Option String × Change)) (hch : NodupKeys changes) :
    applyDiffRecord snapshot changes
      = ((buildMap (normColl snapshot)).filterMap (changeKeep changes)).map Prod.snd
        ++ (changes.filterMap (changeAdd (buildMap (normColl snapshot)))).map Prod.snd := by
  unfold applyDiffRecord
  rw [foldl_applyChange_split changes (buildMap (normColl snapshot))
    (nodupKeys_buildMap (normColl snapshot)) hch, List.map_append]

theorem C4_witness :
    applyDiffRecord [z5] (diffPasses [z5] [z5, u0, v1]).1
      = ((buildMap (normColl [z5])).filterMap
            (changeKeep (diffPasses [z5] [z5, u0, v1]).1)).map Prod.snd
        ++ ((diffPasses [z5] [z5, u0, v1]).1.filterMap
            (changeAdd (buildMap (normColl [z5])))).map Prod.snd :=
  C4_apply_positions [z5] (diffPasses [z5] [z5, u0, v1]).1 (by decide)

theorem C4_counterexample :
    applyDiffRecord [z5] (diffPasses [z5] [v1, u0, z5]).1 = [z5, v1, u0]
      ∧ readF u0 "z" = some 0 ∧ readF v1 "z" = some 1 ∧ readF z5 "z" = some 5 := by
  decide

/-- C6: whenever the compaction guard passes under the default configuration,
the post-compaction log holds 101 records (the merged snapshot plus the kept
half), not the 100 the spec announces. -/
theorem C6_compress_length (s : HistoryState) (t : Nat)
    (hmax : s.maxSize = 200) (hthr : s.compressThreshold = 100)
    (hlen : s.compressThreshold < s.stack.length) :
    (compressHistory s t).stack.length = 101 := by
  rw [compressHistory_eq s t (by omega)]
  simp only [List.length_cons, List.length_drop]
  omega

theorem C6_witness : (compressHistory cex101 5).stack.length = 101 :=
  C6_compress_length cex101 5 rfl rfl (by decide)

theorem C6_counterexample :
    cex101.compressThreshold < cex101.stack.length
      ∧ (compressHistory cex101 5).stack.length ≠ 100 := by
  decide

/-- C8: a push that happens while a batch is open leaves the log array, the
cursor and the cache untouched (it at most stashes a pending record), so it
never invokes compaction; a non-outermost endBatch only decrements the
nesting depth, so compaction can only run at the outermost commit. -/
theorem C8_batch_push_no_compaction (s : HistoryState) (c : List Elem) (d : String)
    (t : Nat) (hb : 0 < s.batchDepth) :
    ((pushSnapshot s c d t).stack = s.stack
      ∧ (pushSnapshot s c d t).index = s.index
      ∧ (pushSnapshot s c d t).fullSnapshot = s.fullSnapshot)
    ∧ (1 < s.batchDepth →
        ∀ t2, endBatch s t2 = { s with batchDepth := s.batchDepth - 1 }) := by
  constructor
  · rcases pushSnapshot_batch_core s c d t hb with h | ⟨r, h⟩
    · rw [h]
      exact ⟨rfl, rfl, rfl⟩
    · rw [h]
      exact ⟨rfl, rfl, rfl⟩
  · intro h2 t2
    exact endBatch_inner s t2 h2

theorem C8_witness :
    (((pushSnapshot (beginBatch (beginBatch s7cex)) [eA2] "d" 1).stack
        = (beginBatch (beginBatch s7cex)).stack
      ∧ (pushSnapshot (beginBatch (beginBatch s7cex)) [eA2] "d" 1).index
        = (beginBatch (beginBatch s7cex)).index
      ∧ (pushSnapshot (beginBatch (beginBatch s7cex)) [eA2] "d" 1).fullSnapshot
        = (beginBatch (beginBatch s7cex)).fullSnapshot)
    ∧ (1 < (beginBatch (beginBatch s7cex)).batchDepth →
        ∀ t2, endBatch (beginBatch (beginBatch s7cex)) t2
          = { beginBatch (beginBatch s7cex) with
              batchDepth := (beginBatch (beginBatch s7cex)).batchDepth - 1 })) :=
  C8_batch_push_no_compaction (beginBatch (beginBatch s7cex)) [eA2] "d" 1 (by decide)

/-- C9: the store performs no key validation at all: pushing a collection
holding an entity without an id succeeds, records the entity, and changes
the log; no InvalidEntity failure path exists in the code. -/
theorem C9_push_accepts_keyless (c : List Elem) (d : String) (t : Nat) (e : Elem)
    (hmem : e ∈ c) (hid : e.id = none) :
    (pushSnapshot initState c d t).stack
        = [HistoryRecord.snap (normColl c) (c.map (fun e2 => e2.id)) d t]
      ∧ (normElem e).id = none ∧ normElem e ∈ normColl c :=
  ⟨rfl, hid, List.mem_map_of_mem normElem hmem⟩

theorem C9_witness :
    (pushSnapshot initState [eN] "d" 0).stack
        = [HistoryRecord.snap (normColl [eN]) ([eN].map (fun e2 => e2.id)) "d" 0]
      ∧ (normElem eN).id = none ∧ normElem eN ∈ normColl [eN] :=
  C9_push_accepts_keyless [eN] "d" 0 eN (List.mem_singleton.2 rfl) rfl

theorem C9_counterexample :
    pushSnapshot initState [eN] "d" 0 ≠ initState
      ∧ (pushSnapshot initState [eN] "d" 0).stack.length = 1 := by
  decide

/-- C3: undo followed by redo restores a collection denoting the same
id-keyed contents as the current collection before the undo; structural
equality including element order fails (see the counterexample: redo returns
the map-order reconstruction while the cache kept the pushed order). -/
theorem C3_undo_redo_round_trip (s : HistoryState) (h : Reachable s)
    (hpos : 0 < s.index) :
    ∃ res, (redo (undo s).1).2 = some res
      ∧ ∀ cur ∈ getCurrent s, collEquiv res.snapshot cur := by
  have inv := reachable_inv s h
  have hub := inv.hub
  have hnle : ¬ s.index ≤ 0 := by omega
  rw [undo_fst s hnle]
  have hcond : ¬ ((({ s with
        index := s.index - 1,
        fullSnapshot := some (rebuildFullSnapshot { s with index := s.index - 1 }) }
          : HistoryState).stack.length : Int) - 1
      ≤ ({ s with
        index := s.index - 1,
        fullSnapshot := some (rebuildFullSnapshot { s with index := s.index - 1 }) }
          : HistoryState).index) := by
    show ¬ ((s.stack.length : Int) - 1 ≤ s.index - 1)
    omega
  obtain ⟨r, hr⟩ : ∃ r2, stackGet s.stack (s.index - 1 + 1) = some r2 := by
    unfold stackGet
    rw [if_neg (by omega)]
    have hlt : (s.index - 1 + 1).toNat < s.stack.length := by omega
    exact ⟨s.stack[(s.index - 1 + 1).toNat], List.getElem?_eq_getElem hlt⟩
  have hr2 : stackGet
      ({ s with
        index := s.index - 1,
        fullSnapshot := some (rebuildFullSnapshot { s with index := s.index - 1 }) }
          : HistoryState).stack
      (({ s with
        index := s.index - 1,
        fullSnapshot := some (rebuildFullSnapshot { s with index := s.index - 1 }) }
          : HistoryState).index + 1) = some r := hr
  have hsnd := redo_snd
    ({ s with
      index := s.index - 1,
      fullSnapshot := some (rebuildFullSnapshot { s with index := s.index - 1 }) }
        : HistoryState) hcond r hr2
  rw [hsnd]
  have hidx : s.index - 1 + 1 = s.index := by omega
  have hrebX : rebuildFullSnapshot
      { ({ s with
          index := s.index - 1,
          fullSnapshot := some (rebuildFullSnapshot { s with index := s.index - 1 }) }
            : HistoryState) with
        index := ({ s with
          index := s.index - 1,
          fullSnapshot := some (rebuildFullSnapshot { s with index := s.index - 1 }) }
            : HistoryState).index + 1 }
      = rebuildFullSnapshot s := by
    show (if s.index - 1 + 1 < 0 then ([] : List Elem)
        else matAt s.stack (s.index - 1 + 1).toNat)
      = rebuildFullSnapshot s
    rw [hidx]
    rfl
  refine ⟨_, rfl, ?_⟩
  intro cur hcur
  rw [hrebX]
  unfold getCurrent at hcur
  rw [if_neg (show ¬ s.index < 0 by omega)] at hcur
  cases hfs : s.fullSnapshot with
  | none =>
    rw [hfs] at hcur
    have hcur2 : some (rebuildFullSnapshot s) = some cur := hcur
    injection hcur2 with hcur2
    subst hcur2
    exact collEquiv_normColl_self (rebuildFullSnapshot s) (CollWF_rebuild s inv.hwf)
  | some fs =>
    rw [hfs] at hcur
    have hcur2 : some (normColl fs) = some cur := hcur
    injection hcur2 with hcur2
    subst hcur2
    have h1 : collEquiv fs (rebuildFullSnapshot s) := inv.hcache fs hfs
    have h2 := collEquiv_normColl_self (rebuildFullSnapshot s) (CollWF_rebuild s inv.hwf)
    have h3 := collEquiv_normColl_self fs (inv.hfullwf fs hfs)
    exact collEquiv_trans _ _ _ h2
      (collEquiv_trans _ _ _ (collEquiv_symm _ _ h1) (collEquiv_symm _ _ h3))

theorem C3_witness :
    ∃ res, (redo (undo s2cex).1).2 = some res
      ∧ ∀ cur ∈ getCurrent s2cex, collEquiv res.snapshot cur :=
  C3_undo_redo_round_trip s2cex
    (Reachable.push _ [eB, eA2] "d" 1
      (by decide) (Reachable.push _ [eA, eB] "d" 0 (by decide) Reachable.init))
    (by decide)

theorem C3_counterexample :
    ((redo (undo s2cex).1).2.map (fun res => res.snapshot)) = some [eA2, eB]
      ∧ getCurrent s2cex = some [eB, eA2]
      ∧ ((redo (undo s2cex).1).2.map (fun res => res.snapshot)) ≠ getCurrent s2cex := by
  decide

/-- C7: the actual no-op test of `pushSnapshot` is JSON equality of the
serialized collections, not emptiness of the generated diff (see the
counterexample: a reorder yields an empty diff yet appends a record); under
that test a push of an unchanged collection is a no-op, and pushing the same
collection twice always collapses to one push. -/
theorem C7_push_noop_idempotent (s : HistoryState) (c : List Elem) (d d2 : String)
    (t t2 : Nat) (hb : s.batchDepth = 0) (hlb : -1 ≤ s.index) :
    (¬ s.index < 0 →
      normColl (s.fullSnapshot.getD (rebuildFullSnapshot s)) = normColl c →
      pushSnapshot s c d t = s)
    ∧ pushSnapshot (pushSnapshot s c d t) c d2 t2 = pushSnapshot s c d t := by
  have hnoop : ∀ x : HistoryState, ¬ x.index < 0 →
      normColl (x.fullSnapshot.getD (rebuildFullSnapshot x)) = normColl c →
      ∀ d3 t3, pushSnapshot x c d3 t3 = x := by
    intro x hx heq d3 t3
    unfold pushSnapshot
    rw [if_neg hx, if_pos heq]
  constructor
  · intro hx heq
    exact hnoop s hx heq d t
  · by_cases hneg : s.index < 0
    · have hps : pushSnapshot s c d t
          = pushRecord s (HistoryRecord.snap (normColl c) (c.map (fun e2 => e2.id)) d t)
              (normColl c) t := by
        unfold pushSnapshot
        rw [if_pos hneg]
      obtain ⟨hf1, hf2⟩ := pushRecord_nonbatch_facts s
        (HistoryRecord.snap (normColl c) (c.map (fun e2 => e2.id)) d t) (normColl c) t
        (by omega) hlb
      rw [hps]
      apply hnoop _ (by omega)
      · rw [hf1, Option.getD_some]
        exact normColl_idem c
    · by_cases hnoop0 : normColl (s.fullSnapshot.getD (rebuildFullSnapshot s)) = normColl c
      · rw [hnoop s hneg hnoop0 d t]
        exact hnoop s hneg hnoop0 d2 t2
      · have hps : pushSnapshot s c d t
            = pushRecord s
                (generateDiffRecord (s.fullSnapshot.getD (rebuildFullSnapshot s))
                  (normColl c) d t)
                (normColl c) t := by
          unfold pushSnapshot
          rw [if_neg hneg, if_neg hnoop0]
        obtain ⟨hf1, hf2⟩ := pushRecord_nonbatch_facts s
          (generateDiffRecord (s.fullSnapshot.getD (rebuildFullSnapshot s))
            (normColl c) d t)
          (normColl c) t (by omega) hlb
        rw [hps]
        apply hnoop _ (by omega)
        · rw [hf1, Option.getD_some]
          exact normColl_idem c

theorem C7_witness :
    ((¬ s7cex.index < 0 →
      normColl (s7cex.fullSnapshot.getD (rebuildFullSnapshot s7cex)) = normColl [eB, eA] →
      pushSnapshot s7cex [eB, eA] "d" 1 = s7cex)
    ∧ pushSnapshot (pushSnapshot s7cex [eB, eA] "d" 1) [eB, eA] "d" 2
        = pushSnapshot s7cex [eB, eA] "d" 1) :=
  C7_push_noop_idempotent s7cex [eB, eA] "d" "d" 1 2 rfl (by decide)

theorem C7_counterexample :
    (diffPasses [eA, eB] (normColl [eB, eA])).1 = []
      ∧ normColl (s7cex.fullSnapshot.getD (rebuildFullSnapshot s7cex)) = [eA, eB]
      ∧ (pushSnapshot s7cex [eB, eA] "d" 1).stack.length = 2
      ∧ s7cex.stack.length = 1 := by
  decide

/-- C10: after the truncate-and-append step that precedes every compaction
call the cursor sits on the last record, and compaction preserves that: the
post-compaction cursor again equals the post-compaction length minus one and
is never negative. -/
theorem C10_compress_cursor (s : HistoryState) (r : HistoryRecord) (t : Nat)
    (hlb : -1 ≤ s.index) (hub : s.index < (s.stack.length : Int)) :
    (truncAppend s r).index = ((truncAppend s r).stack.length : Int) - 1
    ∧ ∀ s2 : HistoryState, s2.index = (s2.stack.length : Int) - 1 → s2.stack ≠ [] →
        (compressHistory s2 t).index = ((compressHistory s2 t).stack.length : Int) - 1
        ∧ 0 ≤ (compressHistory s2 t).index := by
  constructor
  · rw [truncAppend_index, truncAppend_stack_length s r hlb hub]
    omega
  · intro s2 htop hne
    have hlen : 1 ≤ s2.stack.length := List.length_pos.2 hne
    by_cases hg : s2.stack.length < s2.compressThreshold
    · rw [compressHistory_of_lt s2 t hg]
      constructor
      · exact htop
      · rw [htop]
        omega
    · rw [compressHistory_eq s2 t hg]
      constructor
      · simp only [List.length_cons, List.length_drop]
        rw [htop]
        omega
      · simp only []
        rw [htop]
        omega

theorem C10_witness :
    ((truncAppend s7cex emptyDiff).index
        = ((truncAppend s7cex emptyDiff).stack.length : Int) - 1
      ∧ ∀ s2 : HistoryState, s2.index = (s2.stack.length : Int) - 1 → s2.stack ≠ [] →
          (compressHistory s2 9).index = ((compressHistory s2 9).stack.length : Int) - 1
          ∧ 0 ≤ (compressHistory s2 9).index) :=
  C10_compress_cursor s7cex emptyDiff 9 (by decide) (by decide)

/-- Shape of the outermost `endBatch` committing a pending diff record when
no compaction fires: one record appended, cursor advanced, and `undo` hands
back the materialization at the old cursor. -/
theorem endBatch_commit_plain (x : HistoryState) (t : Nat)
    (ch : List (Option String × Change)) (ids : List (Option String))
    (d : String) (tr : Nat)
    (hb : x.batchDepth = 1)
    (hp : x.pendingRecord = some (.diff ch ids d tr))
    (h0 : 0 ≤ x.index) (hub : x.index < (x.stack.length : Int))
    (hroom : x.index + 2 ≤ (x.compressThreshold : Int)) :
    (endBatch x t).stack = x.stack.take (x.index + 1).toNat ++ [.diff ch ids d tr]
    ∧ (endBatch x t).index = x.index + 1
    ∧ (undo (endBatch x t)).2
      = some ⟨normColl (matAt x.stack x.index.toNat), ids, d⟩ := by
  have hEB := endBatch_commit x t (.diff ch ids d tr) hb hp
  have hlenE : ((endBatchState { x with batchDepth := x.batchDepth - 1 }
      (HistoryRecord.diff ch ids d tr)).stack.length : Int) = x.index + 2 := by
    have h2 := truncAppend_stack_length
      ({ x with batchDepth := x.batchDepth - 1 } : HistoryState)
      (HistoryRecord.diff ch ids d tr)
      (by show -1 ≤ x.index; omega)
      (by show x.index < (x.stack.length : Int); omega)
    exact h2
  have hguard : ¬ (endBatchState { x with batchDepth := x.batchDepth - 1 }
        (HistoryRecord.diff ch ids d tr)).compressThreshold
      < (endBatchState { x with batchDepth := x.batchDepth - 1 }
        (HistoryRecord.diff ch ids d tr)).stack.length := by
    intro hlt
    have hthr2 : (endBatchState { x with batchDepth := x.batchDepth - 1 }
        (HistoryRecord.diff ch ids d tr)).compressThreshold = x.compressThreshold := rfl
    rw [hthr2] at hlt
    have hltI : (x.compressThreshold : Int)
        < ((endBatchState { x with batchDepth := x.batchDepth - 1 }
            (HistoryRecord.diff ch ids d tr)).stack.length : Int) := by exact_mod_cast hlt
    rw [hlenE] at hltI
    omega
  rw [if_neg hguard] at hEB
  have hstkE : (endBatchState { x with batchDepth := x.batchDepth - 1 }
        (HistoryRecord.diff ch ids d tr)).stack
      = x.stack.take (x.index + 1).toNat ++ [HistoryRecord.diff ch ids d tr] :=
    truncAppend_stack ({ x with batchDepth := x.batchDepth - 1 } : HistoryState) _
      (by show x.index < (x.stack.length : Int); omega)
  have hidxE : (endBatchState { x with batchDepth := x.batchDepth - 1 }
      (HistoryRecord.diff ch ids d tr)).index = x.index + 1 := rfl
  refine ⟨?_, ?_, ?_⟩
  · rw [hEB, hstkE]
  · rw [hEB, hidxE]
  · rw [hEB]
    have hnle : ¬ (endBatchState { x with batchDepth := x.batchDepth - 1 }
        (HistoryRecord.diff ch ids d tr)).index ≤ 0 := by
      rw [hidxE]
      omega
    have hget : stackGet (endBatchState { x with batchDepth := x.batchDepth - 1 }
          (HistoryRecord.diff ch ids d tr)).stack
        (endBatchState { x with batchDepth := x.batchDepth - 1 }
          (HistoryRecord.diff ch ids d tr)).index
        = some (HistoryRecord.diff ch ids d tr) := by
      rw [hstkE, hidxE]
      unfold stackGet
      rw [if_neg (by omega)]
      exact appended_getLast x (HistoryRecord.diff ch ids d tr) (by omega) hub
    have hsnd := undo_snd _ hnle _ hget
    rw [hsnd]
    have hrebE : rebuildFullSnapshot
        (HistoryState.mk
          (endBatchState { x with batchDepth := x.batchDepth - 1 }
            (HistoryRecord.diff ch ids d tr)).stack
          ((endBatchState { x with batchDepth := x.batchDepth - 1 }
            (HistoryRecord.diff ch ids d tr)).index - 1)
          (endBatchState { x with batchDepth := x.batchDepth - 1 }
            (HistoryRecord.diff ch ids d tr)).fullSnapshot
          (endBatchState { x with batchDepth := x.batchDepth - 1 }
            (HistoryRecord.diff ch ids d tr)).maxSize
          (endBatchState { x with batchDepth := x.batchDepth - 1 }
            (HistoryRecord.diff ch ids d tr)).compressThreshold
          (endBatchState { x with batchDepth := x.batchDepth - 1 }
            (HistoryRecord.diff ch ids d tr)).batchDepth
          (endBatchState { x with batchDepth := x.batchDepth - 1 }
            (HistoryRecord.diff ch ids d tr)).pendingRecord)
        = matAt x.stack x.index.toNat := by
      show (if (x.index + 1 - 1 : Int) < 0 then ([] : List Elem)
          else matAt (endBatchState { x with batchDepth := x.batchDepth - 1 }
            (HistoryRecord.diff ch ids d tr)).stack (x.index + 1 - 1 : Int).toNat)
        = matAt x.stack x.index.toNat
      rw [if_neg (by omega), hstkE]
      have h3 : (x.index + 1 - 1 : Int).toNat = x.index.toNat := by omega
      rw [h3]
      apply matAt_congr
      have h5 := appended_take x (HistoryRecord.diff ch ids d tr) (by omega) hub
      have h6 : x.index.toNat + 1 = (x.index + 1).toNat := by omega
      rw [h6, h5]
    rw [hrebE]
    rfl

/-- C5: the pushes inside a batch never refresh the cache, so each stash is
the diff from the collection current at batch start; when the final pushed
collection differs from it, the whole batch appends exactly one record, the
diff from the batch-start collection to the final one, and a single undo
hands back the batch-start collection. The claimed shape however fails when
the final collection serializes like the start: that push returns before the
stash, so the batch commits whatever an earlier differing push left pending,
which is nothing when every push was a no-op, and the stale diff against the
earlier collection otherwise (see the counterexample for both runs). -/
theorem C5_batch_net_effect (s : HistoryState) (I A B Cl : List Elem)
    (d1 d2 d3 : String) (t1 t2 t3 t4 : Nat)
    (hb : s.batchDepth = 0) (h0 : 0 ≤ s.index) (hub : s.index < (s.stack.length : Int))
    (hfs : s.fullSnapshot = some I)
    (hCI : normColl Cl ≠ normColl I)
    (hroom : s.index + 2 ≤ (s.compressThreshold : Int))
    (hreb : rebuildFullSnapshot s = I) (hnorm : normColl I = I) :
    (endBatch (pushSnapshot (pushSnapshot (pushSnapshot (beginBatch s) A d1 t1) B d2 t2)
        Cl d3 t3) t4).stack
      = s.stack.take (s.index + 1).toNat ++ [generateDiffRecord I (normColl Cl) d3 t3]
    ∧ (undo (endBatch (pushSnapshot (pushSnapshot (pushSnapshot (beginBatch s) A d1 t1)
        B d2 t2) Cl d3 t3) t4)).2
      = some ⟨I, (diffPasses I (normColl Cl)).2, d3⟩ := by
  have hsbb : (beginBatch s).batchDepth = s.batchDepth + 1 := rfl
  have hsbi : (beginBatch s).index = s.index := rfl
  have hsbs : (beginBatch s).stack = s.stack := rfl
  have hsbf : (beginBatch s).fullSnapshot = s.fullSnapshot := rfl
  have hsbt : (beginBatch s).compressThreshold = s.compressThreshold := rfl
  have hAq : (pushSnapshot (beginBatch s) A d1 t1).stack = s.stack
      ∧ (pushSnapshot (beginBatch s) A d1 t1).index = s.index
      ∧ (pushSnapshot (beginBatch s) A d1 t1).fullSnapshot = s.fullSnapshot
      ∧ (pushSnapshot (beginBatch s) A d1 t1).batchDepth = s.batchDepth + 1
      ∧ (pushSnapshot (beginBatch s) A d1 t1).compressThreshold
        = s.compressThreshold := by
    rcases pushSnapshot_batch_core (beginBatch s) A d1 t1
        (by rw [hsbb]; omega) with h | ⟨r, h⟩
    · rw [h]
      exact ⟨hsbs, hsbi, hsbf, hsbb, hsbt⟩
    · rw [h]
      exact ⟨hsbs, hsbi, hsbf, hsbb, hsbt⟩
  have hBq : (pushSnapshot (pushSnapshot (beginBatch s) A d1 t1) B d2 t2).stack = s.stack
      ∧ (pushSnapshot (pushSnapshot (beginBatch s) A d1 t1) B d2 t2).index = s.index
      ∧ (pushSnapshot (pushSnapshot (beginBatch s) A d1 t1) B d2 t2).fullSnapshot
        = s.fullSnapshot
      ∧ (pushSnapshot (pushSnapshot (beginBatch s) A d1 t1) B d2 t2).batchDepth
        = s.batchDepth + 1
      ∧ (pushSnapshot (pushSnapshot (beginBatch s) A d1 t1) B d2 t2).compressThreshold
        = s.compressThreshold := by
    rcases pushSnapshot_batch_core (pushSnapshot (beginBatch s) A d1 t1) B d2 t2
        (by rw [hAq.2.2.2.1]; omega) with h | ⟨r, h⟩
    · rw [h]
      exact ⟨hAq.1, hAq.2.1, hAq.2.2.1, hAq.2.2.2.1, hAq.2.2.2.2⟩
    · rw [h]
      exact ⟨hAq.1, hAq.2.1, hAq.2.2.1, hAq.2.2.2.1, hAq.2.2.2.2⟩
  have hCstash := pushSnapshot_batch_stash
    (pushSnapshot (pushSnapshot (beginBatch s) A d1 t1) B d2 t2) Cl d3 t3
    (by rw [hBq.2.2.2.1]; omega)
    (by rw [hBq.2.1]; omega)
    (by rw [hBq.2.2.1, hfs, Option.getD_some]
        exact fun h2 => hCI h2.symm)
  rw [hBq.2.2.1, hfs, Option.getD_some] at hCstash
  have hbC : (pushSnapshot (pushSnapshot (pushSnapshot (beginBatch s) A d1 t1) B d2 t2)
      Cl d3 t3).batchDepth = 1 := by
    rw [hCstash]
    show (pushSnapshot (pushSnapshot (beginBatch s) A d1 t1) B d2 t2).batchDepth = 1
    rw [hBq.2.2.2.1, hb]
  have hpC : (pushSnapshot (pushSnapshot (pushSnapshot (beginBatch s) A d1 t1) B d2 t2)
      Cl d3 t3).pendingRecord
      = some (HistoryRecord.diff (diffPasses I (normColl Cl)).1
          (diffPasses I (normColl Cl)).2 d3 t3) := by
    rw [hCstash]
    rfl
  have hstC : (pushSnapshot (pushSnapshot (pushSnapshot (beginBatch s) A d1 t1) B d2 t2)
      Cl d3 t3).stack = s.stack := by
    rw [hCstash]
    exact hBq.1
  have hidxC : (pushSnapshot (pushSnapshot (pushSnapshot (beginBatch s) A d1 t1) B d2 t2)
      Cl d3 t3).index = s.index := by
    rw [hCstash]
    exact hBq.2.1
  have hthrC : (pushSnapshot (pushSnapshot (pushSnapshot (beginBatch s) A d1 t1) B d2 t2)
      Cl d3 t3).compressThreshold = s.compressThreshold := by
    rw [hCstash]
    exact hBq.2.2.2.2
  obtain ⟨hq1, hq2, hq3⟩ := endBatch_commit_plain
    (pushSnapshot (pushSnapshot (pushSnapshot (beginBatch s) A d1 t1) B d2 t2) Cl d3 t3)
    t4 (diffPasses I (normColl Cl)).1 (diffPasses I (normColl Cl)).2 d3 t3
    hbC hpC (by rw [hidxC]; omega) (by rw [hidxC, hstC]; omega)
    (by rw [hidxC, hthrC]; omega)
  constructor
  · rw [hq1, hstC, hidxC]
    rfl
  · rw [hq3, hstC, hidxC, ← rebuild_eq_matAt s h0, hreb, hnorm]

theorem C5_witness :
    (endBatch (pushSnapshot (pushSnapshot (pushSnapshot (beginBatch s5cex) [eB] "a" 1)
        [eA] "b" 2) [eA2] "c" 3) 4).stack
      = s5cex.stack.take (s5cex.index + 1).toNat
        ++ [generateDiffRecord [eA] (normColl [eA2]) "c" 3]
    ∧ (undo (endBatch (pushSnapshot (pushSnapshot (pushSnapshot (beginBatch s5cex)
        [eB] "a" 1) [eA] "b" 2) [eA2] "c" 3) 4)).2
      = some ⟨[eA], (diffPasses [eA] (normColl [eA2])).2, "c"⟩ :=
  C5_batch_net_effect s5cex [eA] [eB] [eA] [eA2] "a" "b" "c" 1 2 3 4
    (by decide) (by decide) (by decide) (by decide) (by decide) (by decide)
    (by decide) (by decide)

theorem C5_counterexample :
    (endBatch (pushSnapshot (pushSnapshot (pushSnapshot (beginBatch s5cex) [eA] "d" 1)
        [eA] "d" 2) [eA] "d" 3) 4 = s5cex
      ∧ s5cex.stack.length = 1)
    ∧ ((endBatch (pushSnapshot (pushSnapshot (pushSnapshot (beginBatch s5cex) [eA2] "da" 1)
          [eA] "db" 2) [eA] "dc" 3) 4).stack
        = s5cex.stack ++ [generateDiffRecord [eA] (normColl [eA2]) "da" 1]
      ∧ (diffPasses [eA] (normColl [eA2])).1 ≠ []
      ∧ (diffPasses [eA] (normColl [eA])).1 = []) := by
  decide

end CanvaHist
